import Mathlib

/-!
# fheroes2: world pathfinding, region analysis and battle animation

A shallow embedding of `src/fheroes2/world/world_pathfinding.cpp` (the tile
pathfinder of the adventure map), of `src/fheroes2/kingdom/world_regions.cpp`
(the region analysis of the map), of the animation sequences of
`src/fheroes2/battle/battle_animation.cpp` and of the comparator that sorts
the hero list in `src/fheroes2/ai/normal/ai_normal_kingdom.cpp`, together with
the properties their specification states about them.

Conventions of the embedding.

* Tile indices are C++ `int`; they are `Int` here, `-1` being the "no tile"
  value of the source.
* `uint32_t` costs are `Nat` reduced modulo `2 ^ 32` wherever the source
  computes them.
* The map (`world`, a global of the source) is an explicit read-only value of
  type `World`; every tile attribute is a function of the tile index.
* `_cache` is a `List` of nodes; an access outside `[0, size)` is undefined
  behaviour in the source and `none` here.
* The `for` loop of `evaluateMap` over the growing vector `nodesToExplore` is
  a recursion over the entries that are still to be processed
  (`nodesToExplore[lastProcessedNode ..]`); `push_back` appends to them.
* `uint16_t` node types of the region analysis are `Nat`; the `int` id of a
  region is reduced modulo `2 ^ 16` where the source assigns it to a type.
* The vectors `rawData`, `nodes` and `regions` of the region analysis are
  `List`s, and every function that indexes one returns an `Option`, `none`
  standing for an access outside the vector or a loop that does not end.
* The frame index of an animation sequence is a `size_t`, a `Nat` reduced
  modulo `2 ^ 64`; reading a frame outside the vector is `none`.
-/

namespace FHeroes2

/-! ## Directions -/

/-- The direction flags of the source (`Direction::TOP_LEFT` ...). Each flag of
the source is a distinct single bit, so a mask test such as
`direction & ( TOP_RIGHT | BOTTOM_RIGHT | BOTTOM_LEFT | TOP_LEFT )` is
membership in the listed flags. -/
inductive Direction
  | UNKNOWN
  | TOP_LEFT
  | TOP
  | TOP_RIGHT
  | RIGHT
  | BOTTOM_RIGHT
  | BOTTOM
  | BOTTOM_LEFT
  | LEFT
  | CENTER
  deriving DecidableEq

/-- Modelled from the spec: `Direction::All()` is not under src/; it is the
list of the eight directions of a move between adjacent tiles. -/
def Direction.All : List Direction :=
  [.TOP_LEFT, .TOP, .TOP_RIGHT, .RIGHT, .BOTTOM_RIGHT, .BOTTOM, .BOTTOM_LEFT, .LEFT]

/-- Modelled from the spec: `Direction::Reflect` is not under src/; it is the
opposite direction ("the move in that direction or its reflection"). -/
def Direction.Reflect : Direction → Direction
  | .TOP_LEFT => .BOTTOM_RIGHT
  | .TOP => .BOTTOM
  | .TOP_RIGHT => .BOTTOM_LEFT
  | .RIGHT => .LEFT
  | .BOTTOM_RIGHT => .TOP_LEFT
  | .BOTTOM => .TOP
  | .BOTTOM_LEFT => .TOP_RIGHT
  | .LEFT => .RIGHT
  | .CENTER => .CENTER
  | .UNKNOWN => .UNKNOWN

/-- The test `direction & ( Direction::TOP_RIGHT | Direction::BOTTOM_RIGHT |
Direction::BOTTOM_LEFT | Direction::TOP_LEFT )` of `getMovementPenalty`. -/
def Direction.isDiagonal : Direction → Bool
  | .TOP_RIGHT => true
  | .BOTTOM_RIGHT => true
  | .BOTTOM_LEFT => true
  | .TOP_LEFT => true
  | _ => false

/-! ## The map -/

/-- The object kinds `isTileBlocked` distinguishes; every other value of
`MP2::` is `other` with its code. -/
inductive MP2Object
  | OBJ_HEROES
  | OBJ_MONSTER
  | OBJ_BOAT
  | OBJ_COAST
  | other (code : Nat)
  deriving DecidableEq

/-- The read-only grid model the pathfinder consults (`world` and the
`Maps::` helpers of the source). The fields are the parts of the repository
that are not under src/, taken as parameters:

* `w`, `h`: `world.w()`, `world.h()`;
* `isWater i`, `isRoad i`, `GetObject i`: the attributes of `GetTiles( i )`;
* `isPassable i d fromWater`: `GetTiles( i ).isPassable( d, fromWater, false )`;
* `GetPenalty i skill`: `Maps::Ground::GetPenalty( GetTiles( i ), skill )`;
* `roadPenalty`: `Maps::Ground::roadPenalty`;
* `isPickupObject`, `isActionObject`: the `MP2::` predicates;
* `GetTilesUnderProtection i`: `Maps::GetTilesUnderProtection( i )`;
* `defaultCost`: the `_cost` of a default constructed `PathfindingNode`. -/
structure World where
  w : Nat
  h : Nat
  isWater : Int → Bool
  isRoad : Int → Bool
  GetObject : Int → MP2Object
  isPassable : Int → Direction → Bool → Bool
  GetPenalty : Int → Nat → Nat
  roadPenalty : Nat
  isPickupObject : MP2Object → Bool
  isActionObject : MP2Object → Bool → Bool
  GetTilesUnderProtection : Int → List Int
  defaultCost : Nat

/-- Modelled from the spec: `Maps::GetDirectionIndex` is not under src/; tiles
are a row-major grid ("position index (row-major linear id)"), so the
neighbour in a direction is one row up or down and one column left or right;
any other direction gives `-1`. -/
def Maps.GetDirectionIndex (W : World) (fromIdx : Int) (vector : Direction) : Int :=
  match vector with
  | .TOP => fromIdx - W.w
  | .TOP_RIGHT => fromIdx - W.w + 1
  | .RIGHT => fromIdx + 1
  | .BOTTOM_RIGHT => fromIdx + W.w + 1
  | .BOTTOM => fromIdx + W.w
  | .BOTTOM_LEFT => fromIdx + W.w - 1
  | .LEFT => fromIdx - 1
  | .TOP_LEFT => fromIdx - W.w - 1
  | _ => -1

/-- Modelled from the spec: `Maps::isValidDirection` is not under src/; a
direction is valid at a tile when the neighbour in that direction lies on the
row-major map (not above the first row, below the last row, left of the first
column or right of the last column). -/
def Maps.isValidDirection (W : World) (fromIdx : Int) (vector : Direction) : Bool :=
  let top : Bool := decide ((W.w : Int) ≤ fromIdx)
  let right : Bool := decide (fromIdx % (W.w : Int) < (W.w : Int) - 1)
  let bottom : Bool := decide (fromIdx < (W.w : Int) * ((W.h : Int) - 1))
  let left : Bool := decide (fromIdx % (W.w : Int) ≠ 0)
  match vector with
  | .TOP => top
  | .RIGHT => right
  | .BOTTOM => bottom
  | .LEFT => left
  | .TOP_RIGHT => top && right
  | .BOTTOM_RIGHT => bottom && right
  | .BOTTOM_LEFT => bottom && left
  | .TOP_LEFT => top && left
  | _ => false

/-- Modelled from the spec: `Direction::Get( from, to )` is not under src/; it
is the direction whose neighbour index of `from` is `to`, `CENTER` when the two
tiles are equal and `UNKNOWN` when they are not adjacent. -/
def Direction.Get (W : World) (fromIdx toIdx : Int) : Direction :=
  match Direction.All.find? (fun d => decide (toIdx = Maps.GetDirectionIndex W fromIdx d)) with
  | some d => d
  | none => if toIdx = fromIdx then .CENTER else .UNKNOWN

/-- The source's `World::isTileBlocked( tileIndex, fromWater )`. -/
def World.isTileBlocked (W : World) (tileIndex : Int) (fromWater : Bool) : Bool :=
  let toWater := W.isWater tileIndex
  let object := W.GetObject tileIndex
  if object = .OBJ_HEROES ∨ object = .OBJ_MONSTER ∨ object = .OBJ_BOAT then true
  else if W.isPickupObject object || W.isActionObject object fromWater then true
  else if fromWater && !toWater && decide (object = .OBJ_COAST) then true
  else false

/-- The "check corner water/coast" switch of `World::isValidPath`: `true` when
the move leaves through a corner whose two orthogonal neighbours are not both
water. -/
def World.cornerBlocked (W : World) (index : Int) (direction : Direction) : Bool :=
  let water := fun (d : Direction) => W.isWater (Maps.GetDirectionIndex W index d)
  match direction with
  | .TOP_LEFT => !water .TOP || !water .LEFT
  | .TOP_RIGHT => !water .TOP || !water .RIGHT
  | .BOTTOM_RIGHT => !water .BOTTOM || !water .RIGHT
  | .BOTTOM_LEFT => !water .BOTTOM || !water .LEFT
  | _ => false

/-- The source's `World::isValidPath( index, direction )`. -/
def World.isValidPath (W : World) (index : Int) (direction : Direction) : Bool :=
  let toIdx := Maps.GetDirectionIndex W index direction
  let fromWater := W.isWater index
  if fromWater && W.cornerBlocked index direction then false
  else if !W.isPassable index direction fromWater then false
  else W.isPassable toIdx direction.Reflect fromWater

/-! ## The pathfinder -/

/-- The modulus of `uint32_t` arithmetic. -/
def U32 : Nat := 4294967296

/-- A `PathfindingNode`: the predecessor tile (`-1` for none) and the
accumulated cost. -/
structure PathfindingNode where
  _from : Int
  _cost : Nat
  deriving DecidableEq

/-- A `Route::Step`: the tile the step starts from, its direction, and its
penalty. -/
structure Route.Step where
  fromIdx : Int
  direction : Direction
  penalty : Nat
  deriving DecidableEq

/-- The state of a `Pathfinder` object. -/
structure Pathfinder where
  _cache : List PathfindingNode
  _pathStart : Int
  _pathfindingSkill : Nat
  deriving DecidableEq

/-- Modelled from the spec: the default constructed `PathfindingNode` (its
declaration is not under src/) has predecessor `-1` ("-1 = none/unreached");
its cost is the parameter `defaultCost` of the map, as a `uint32_t`. -/
def World.defaultNode (W : World) : PathfindingNode := ⟨-1, W.defaultCost % U32⟩

/-- Reading `_cache[i]`: `none` outside the vector. -/
def readNode (cache : List PathfindingNode) (i : Int) : Option PathfindingNode :=
  if 0 ≤ i then cache[i.toNat]? else none

/-- Writing `_cache[i] = node`: `none` outside the vector. -/
def writeNode (cache : List PathfindingNode) (i : Int) (node : PathfindingNode) :
    Option (List PathfindingNode) :=
  if 0 ≤ i ∧ i.toNat < cache.length then some (cache.set i.toNat node) else none

/-- The source's `Pathfinder::reset()`; `Skill::Level::NONE` is `0`. -/
def Pathfinder.reset : Pathfinder := ⟨[], -1, 0⟩

/-- The source's `Pathfinder::getMovementPenalty( from, target, direction, skill )`. -/
def Pathfinder.getMovementPenalty (W : World) (fromIdx target : Int) (direction : Direction)
    (skill : Nat) : Nat :=
  let penalty :=
    (if W.isRoad fromIdx && W.isRoad target then W.roadPenalty else W.GetPenalty target skill) % U32
  if direction.isDiagonal then penalty * 3 % U32 / 2 else penalty

/-- The body of the loop over `monsters` in `evaluateMap`: the move from the
protected tile `currentNodeIdx` to one of the monsters protecting it. -/
def relaxMonster (W : World) (skill : Nat) (currentNodeIdx : Int)
    (cache : List PathfindingNode) (monsterIndex : Int) : Option (List PathfindingNode) :=
  let direction := Direction.Get W currentNodeIdx monsterIndex
  if direction ≠ .UNKNOWN ∧ direction ≠ .CENTER ∧ W.isValidPath currentNodeIdx direction = true then
    match readNode cache currentNodeIdx, readNode cache monsterIndex with
    | some currentNode, some monsterNode =>
      let moveCost :=
        (currentNode._cost
          + Pathfinder.getMovementPenalty W currentNodeIdx monsterIndex direction skill) % U32
      if monsterNode._from = -1 ∨ monsterNode._cost > moveCost then
        writeNode cache monsterIndex ⟨currentNodeIdx, moveCost⟩
      else some cache
    | _, _ => none
  else some cache

/-- The body of the loop over `directions` in `evaluateMap`: the state is the
cache and the entries of `nodesToExplore` still to be processed. -/
def relaxDirection (W : World) (skill : Nat) (currentNodeIdx : Int)
    (st : List PathfindingNode × List Int) (d : Direction) :
    Option (List PathfindingNode × List Int) :=
  if Maps.isValidDirection W currentNodeIdx d = true then
    let newIndex := Maps.GetDirectionIndex W currentNodeIdx d
    match readNode st.1 currentNodeIdx, readNode st.1 newIndex with
    | some currentNode, some newNode =>
      let moveCost :=
        (currentNode._cost
          + Pathfinder.getMovementPenalty W currentNodeIdx newIndex d skill) % U32
      if W.isValidPath currentNodeIdx d = true ∧ (newNode._from = -1 ∨ newNode._cost > moveCost) then
        match writeNode st.1 newIndex ⟨currentNodeIdx, moveCost⟩ with
        | some cache => some (cache, st.2 ++ [newIndex])
        | none => none
      else some st
    | _, _ => none
  else some st

/-- One iteration of the `for` loop of `evaluateMap`: `currentNodeIdx` is
`nodesToExplore[lastProcessedNode]`, `pending` the entries after it. -/
def exploreNode (W : World) (start : Int) (skill : Nat) (fromWater : Bool)
    (cache : List PathfindingNode) (pending : List Int) (currentNodeIdx : Int) :
    Option (List PathfindingNode × List Int) :=
  let monsters := W.GetTilesUnderProtection currentNodeIdx
  match readNode cache currentNodeIdx with
  | none => none
  | some _ =>
    if monsters ≠ [] then
      match monsters.foldlM (relaxMonster W skill currentNodeIdx) cache with
      | some cache1 => some (cache1, pending)
      | none => none
    else if currentNodeIdx = start ∨ W.isTileBlocked currentNodeIdx fromWater = false then
      Direction.All.foldlM (relaxDirection W skill currentNodeIdx) (cache, pending)
    else some (cache, pending)

/-- The `for` loop of `evaluateMap`, with a bound on the number of
iterations: `none` when the bound is used up before the frontier is. -/
def evaluateLoop (W : World) (start : Int) (skill : Nat) (fromWater : Bool) :
    Nat → List PathfindingNode → List Int → Option (List PathfindingNode)
  | _, cache, [] => some cache
  | 0, _, _ :: _ => none
  | fuel + 1, cache, currentNodeIdx :: pending =>
    match exploreNode W start skill fromWater cache pending currentNodeIdx with
    | some (cache1, pending1) => evaluateLoop W start skill fromWater fuel cache1 pending1
    | none => none

/-- The cache of `evaluateMap` before its loop:
`_cache.resize( width * height ); _cache[start] = PathfindingNode( -1, 0 )`. -/
def initialCache (W : World) (start : Int) : Option (List PathfindingNode) :=
  writeNode (List.replicate (W.w * W.h) W.defaultNode) start ⟨-1, 0⟩

/-- A number of iterations the loop of `evaluateMap` never exceeds (see
`evaluateLoop_spec`). -/
def iterationBound (W : World) : Nat := W.w * W.h * U32 + 1

/-- The source's `Pathfinder::evaluateMap( start, skill )`; the result is the
pathfinder after the call. -/
def Pathfinder.evaluateMap (W : World) (start : Int) (skill : Nat) : Option Pathfinder :=
  match initialCache W start with
  | none => none
  | some cache0 =>
    match evaluateLoop W start skill (W.isWater start) (iterationBound W) cache0 [start] with
    | some cache => some ⟨cache, start, skill⟩
    | none => none

/-- The source's `Pathfinder::reEvaluateIfNeeded( from, skill )`. -/
def Pathfinder.reEvaluateIfNeeded (W : World) (pf : Pathfinder) (fromIdx : Int) (skill : Nat) :
    Option Pathfinder :=
  if pf._pathStart ≠ fromIdx ∨ pf._pathfindingSkill ≠ skill then
    Pathfinder.evaluateMap W fromIdx skill
  else some pf

/-- The source's `Pathfinder::getDistance( from, target, skill )`: the value
returned and the pathfinder after the call. -/
def Pathfinder.getDistance (W : World) (pf : Pathfinder) (fromIdx target : Int) (skill : Nat) :
    Option (Nat × Pathfinder) :=
  match Pathfinder.reEvaluateIfNeeded W pf fromIdx skill with
  | none => none
  | some pf1 =>
    match readNode pf1._cache target with
    | some node => some (node._cost, pf1)
    | none => none

/-- The `while` loop of `buildPath`, with a bound on the number of
iterations; `path` is the list built so far (`emplace_front` is `::`). -/
def buildPathLoop (W : World) (cache : List PathfindingNode) (fromIdx : Int) :
    Nat → Int → Nat → List Route.Step → Option (List Route.Step)
  | 0, _, _, _ => none
  | fuel + 1, currentNode, cost, path =>
    if currentNode ≠ fromIdx ∧ currentNode ≠ -1 then
      match readNode cache currentNode with
      | none => none
      | some node =>
        buildPathLoop W cache fromIdx fuel node._from node._cost
          (⟨node._from, Direction.Get W node._from currentNode,
            (cost + U32 - node._cost) % U32⟩ :: path)
    else some path

/-- The source's `Pathfinder::buildPath( from, target, skill )`: the path
returned and the pathfinder after the call. The loop follows predecessors
through the cache without changing it, so it either stops within
`_cache.size() + 1` iterations or never. -/
def Pathfinder.buildPath (W : World) (pf : Pathfinder) (fromIdx target : Int) (skill : Nat) :
    Option (List Route.Step × Pathfinder) :=
  match Pathfinder.reEvaluateIfNeeded W pf fromIdx skill with
  | none => none
  | some pf1 =>
    match readNode pf1._cache target with
    | none => none
    | some node =>
      match buildPathLoop W pf1._cache fromIdx (pf1._cache.length + 2) target node._cost [] with
      | some path => some (path, pf1)
      | none => none

/-- The `while` loop of `isBlockedByObject`, with a bound on the number of
iterations. -/
def isBlockedByObjectLoop (W : World) (cache : List PathfindingNode) (fromIdx : Int)
    (fromWater : Bool) : Nat → Int → Option Bool
  | 0, _ => none
  | fuel + 1, currentNode =>
    if currentNode ≠ fromIdx ∧ currentNode ≠ -1 then
      if W.isTileBlocked currentNode fromWater = true then some true
      else
        match readNode cache currentNode with
        | none => none
        | some node => isBlockedByObjectLoop W cache fromIdx fromWater fuel node._from
    else some false

/-- The source's `Pathfinder::isBlockedByObject( from, target, fromWater )`,
which reads the cache as it is. -/
def Pathfinder.isBlockedByObject (W : World) (pf : Pathfinder) (fromIdx target : Int)
    (fromWater : Bool) : Option Bool :=
  isBlockedByObjectLoop W pf._cache fromIdx fromWater (pf._cache.length + 2) target

/-! ## Notions used to state the properties -/

/-- The tile `i` is on the map. -/
def World.inRange (W : World) (i : Int) : Prop := 0 ≤ i ∧ i < ((W.w * W.h : Nat) : Int)

instance (W : World) (i : Int) : Decidable (W.inRange i) := by
  unfold World.inRange; infer_instance

/-- The list returned by `Maps::GetTilesUnderProtection` holds tiles of the
map only. -/
def World.protectionInRange (W : World) : Prop :=
  ∀ i m, m ∈ W.GetTilesUnderProtection i → W.inRange m

/-- What one node contributes to the termination measure of `evaluateMap`:
its cost once it has a predecessor, `2 ^ 32` before. -/
def nodeWeight (n : PathfindingNode) : Nat := if n._from = -1 then U32 else n._cost

/-- The termination measure of the loop of `evaluateMap` without the length of
the frontier. -/
def cacheWeight (cs : List PathfindingNode) : Nat := (cs.map nodeWeight).sum

/-- The outcome of the test `node._from == -1 || node._cost > moveCost` and of
the assignment it guards, for the move from `u` to `v` of penalty `p`: the
cache after it, and whether the node of `v` was written. -/
inductive RelaxOutcome (cs : List PathfindingNode) (u v : Int) (p : Nat) :
    List PathfindingNode → Bool → Prop
  | keep (nu nv : PathfindingNode) (hu : readNode cs u = some nu) (hv : readNode cs v = some nv)
      (hno : ¬ (nv._from = -1 ∨ nv._cost > (nu._cost + p) % U32)) :
      RelaxOutcome cs u v p cs false
  | write (nu nv : PathfindingNode) (hu : readNode cs u = some nu) (hv : readNode cs v = some nv)
      (hyes : nv._from = -1 ∨ nv._cost > (nu._cost + p) % U32) :
      RelaxOutcome cs u v p (cs.set v.toNat ⟨u, (nu._cost + p) % U32⟩) true

/-- The tile reached from `t` after `k` steps along the recorded predecessors
(`_cache[...]._from`), when every tile on the way can be read. -/
def chainNode (cache : List PathfindingNode) : Nat → Int → Option Int
  | 0, t => some t
  | k + 1, t =>
    match readNode cache t with
    | some node => chainNode cache k node._from
    | none => none

/-- The move from `u` in direction `d` needs no further relaxation in the cache
`cs`: its destination has a predecessor and a cost not above the cost of `u`
plus the penalty of the move (a `uint32_t` sum). -/
def EdgeRelaxed (W : World) (skill : Nat) (cs : List PathfindingNode) (u : Int)
    (d : Direction) : Prop :=
  ∃ nu nv, readNode cs u = some nu ∧ readNode cs (Maps.GetDirectionIndex W u d) = some nv ∧
    nv._from ≠ -1 ∧
    nv._cost ≤ (nu._cost
      + Pathfinder.getMovementPenalty W u (Maps.GetDirectionIndex W u d) d skill) % U32

/-- A sequence of moves from the tile `u`, given by their directions, is a
sequence of valid moves: each direction is valid on the map at the tile where
the move starts (`Maps::isValidDirection`) and the move is a valid path
(`World::isValidPath`). -/
def walkValid (W : World) : Int → List Direction → Bool
  | _, [] => true
  | u, d :: ds =>
    Maps.isValidDirection W u d && W.isValidPath u d
      && walkValid W (Maps.GetDirectionIndex W u d) ds

/-- The tile where a sequence of moves from `u` ends. -/
def walkEnd (W : World) : Int → List Direction → Int
  | u, [] => u
  | u, d :: ds => walkEnd W (Maps.GetDirectionIndex W u d) ds

/-- The summed `getMovementPenalty` values of a sequence of moves from `u`. -/
def walkCost (W : World) (skill : Nat) : Int → List Direction → Nat
  | _, [] => 0
  | u, d :: ds =>
    Pathfinder.getMovementPenalty W u (Maps.GetDirectionIndex W u d) d skill
      + walkCost W skill (Maps.GetDirectionIndex W u d) ds

/-- The number of nodes of the cache that have a predecessor. -/
def reachedCount (cs : List PathfindingNode) : Nat :=
  (cs.map (fun n => if n._from = -1 then 0 else 1)).sum

/-- The invariant of the loop of `evaluateMap` behind the optimality of the
recorded costs, on a map without protected or blocked tiles whose movement
penalties are at most `B`; `q` holds the entries of `nodesToExplore` from the
one being processed on.

* `queued`: an entry of the frontier is the source or has a predecessor;
* `source`: the source has cost 0 as long as it has no predecessor;
* `bound`: a recorded cost is at most `B` times the number of reached nodes;
* `sound`: a recorded cost is the cost of a sequence of valid moves from the
  source;
* `first`: the source is being processed for the first time, or each of its
  valid moves is relaxed with respect to cost 0;
* `relaxed`: every valid move of a reached tile other than the source is
  relaxed, unless the tile is in the frontier. -/
structure ShortestInv (W : World) (start : Int) (skill B : Nat) (cs : List PathfindingNode)
    (q : List Int) : Prop where
  queued : ∀ u ∈ q, u = start ∨ ∃ n, readNode cs u = some n ∧ n._from ≠ -1
  source : ∀ n, readNode cs start = some n → n._from = -1 → n._cost = 0
  bound : ∀ v n, readNode cs v = some n → n._from ≠ -1 → n._cost ≤ reachedCount cs * B
  sound : ∀ v n, readNode cs v = some n → n._from ≠ -1 →
    ∃ ds, walkValid W start ds = true ∧ walkEnd W start ds = v ∧
      walkCost W skill start ds = n._cost
  first : (q.head? = some start ∧ readNode cs start = some ⟨-1, 0⟩) ∨
    ∀ d, Maps.isValidDirection W start d = true → W.isValidPath start d = true →
      ∃ nv, readNode cs (Maps.GetDirectionIndex W start d) = some nv ∧ nv._from ≠ -1 ∧
        nv._cost ≤ Pathfinder.getMovementPenalty W start (Maps.GetDirectionIndex W start d) d skill
  relaxed : ∀ u nu, u ≠ start → readNode cs u = some nu → nu._from ≠ -1 →
    u ∈ q ∨ ∀ d, Maps.isValidDirection W u d = true → W.isValidPath u d = true →
      EdgeRelaxed W skill cs u d

/-- The states of a `Pathfinder` object used with the map `W`: freshly reset,
or left by an `evaluateMap` that returned. -/
def Pathfinder.reachable (W : World) (pf : Pathfinder) : Prop :=
  pf = Pathfinder.reset ∨ ∃ s k, Pathfinder.evaluateMap W s k = some pf

/-- One relaxation the loop of `evaluateMap` can perform when it processes the
tile `u`: the move to a monster protecting `u` (when `u` is protected), or a
valid move in one of the eight directions (when `u` is not protected and is
the source or not blocked by an object). -/
inductive Expands (W : World) (start : Int) (fromWater : Bool) : Int → Int → Prop
  | monster (u m : Int) (hm : m ∈ W.GetTilesUnderProtection u)
      (h1 : Direction.Get W u m ≠ .UNKNOWN) (h2 : Direction.Get W u m ≠ .CENTER)
      (hp : W.isValidPath u (Direction.Get W u m) = true) : Expands W start fromWater u m
  | move (u : Int) (d : Direction) (hg : W.GetTilesUnderProtection u = [])
      (hb : u = start ∨ W.isTileBlocked u fromWater = false)
      (hd : Maps.isValidDirection W u d = true) (hp : W.isValidPath u d = true) :
      Expands W start fromWater u (Maps.GetDirectionIndex W u d)

/-- The tiles that can enter `nodesToExplore`: the source, and the tiles that a
sequence of valid moves from the source reaches through tiles that are not
protected and are the source or not blocked by an object. -/
inductive Expandable (W : World) (start : Int) (fromWater : Bool) : Int → Prop
  | source : Expandable W start fromWater start
  | step (u : Int) (d : Direction) (hu : Expandable W start fromWater u)
      (hg : W.GetTilesUnderProtection u = [])
      (hb : u = start ∨ W.isTileBlocked u fromWater = false)
      (hd : Maps.isValidDirection W u d = true) (hp : W.isValidPath u d = true) :
      Expandable W start fromWater (Maps.GetDirectionIndex W u d)

/-- The movement penalties for the skill are at most `B` (the table of the
terrain and road penalties is not under src/). -/
def World.penaltiesAtMost (W : World) (skill B : Nat) : Prop :=
  ∀ u v d, Pathfinder.getMovementPenalty W u v d skill ≤ B

/-- The list `path` is a connected walk from the tile `u` to the tile `t` along
recorded predecessors: each step starts where the walk stands, the tile it
arrives at (the neighbour of its origin in its direction) has the origin as
recorded predecessor, its direction is `Direction::Get( origin, arrival )`,
and after the last step the walk stands at `t`. -/
def routeFrom (W : World) (cache : List PathfindingNode) : Int → List Route.Step → Int → Prop
  | u, [], t => u = t
  | u, st :: rest, t =>
    st.fromIdx = u ∧
      (readNode cache (Maps.GetDirectionIndex W u st.direction)).map (·._from) = some u ∧
      st.direction = Direction.Get W u (Maps.GetDirectionIndex W u st.direction) ∧
      routeFrom W cache (Maps.GetDirectionIndex W u st.direction) rest t

/-- The invariant of the loop of `evaluateMap` behind the shape of the
predecessor chains, on a map whose movement penalties are at most `B`; `q`
holds the entries of `nodesToExplore` from the one being processed on, and
`rank` counts, for every tile, the moves on the way by which its node was last
written.

* `queued`, `source`, `bound`: as in `ShortestInv`;
* `link`: a recorded predecessor is a tile of the map, and the node is its
  neighbour in one of the eight directions;
* `dec`: the recorded predecessor of a tile other than the source is the source
  or a reached tile of smaller cost, or of the same cost and smaller rank. -/
structure ChainInv (W : World) (start : Int) (B : Nat) (rank : Int → Nat)
    (cs : List PathfindingNode) (q : List Int) : Prop where
  queued : ∀ u ∈ q, u = start ∨ ∃ n, readNode cs u = some n ∧ n._from ≠ -1
  source : ∀ n, readNode cs start = some n → n._from = -1 → n._cost = 0
  bound : ∀ v n, readNode cs v = some n → n._from ≠ -1 → n._cost ≤ reachedCount cs * B
  link : ∀ v n, readNode cs v = some n → n._from ≠ -1 →
    W.inRange n._from ∧ ∃ d ∈ Direction.All, v = Maps.GetDirectionIndex W n._from d
  dec : ∀ v n, v ≠ start → readNode cs v = some n → n._from ≠ -1 →
    n._from = start ∨ ∃ nu, readNode cs n._from = some nu ∧ nu._from ≠ -1 ∧
      (nu._cost < n._cost ∨ (nu._cost = n._cost ∧ rank n._from < rank v))

/-! ## Region analysis (`world_regions.cpp`) -/

/-- Modelled from the spec: the numeric values of the direction flags are not
under src/; each direction is a distinct single bit of the "passability
bitmask per direction". -/
def Direction.flag : Direction → Nat
  | .UNKNOWN => 0x0000
  | .TOP_LEFT => 0x0001
  | .TOP => 0x0002
  | .TOP_RIGHT => 0x0004
  | .RIGHT => 0x0008
  | .BOTTOM_RIGHT => 0x0010
  | .BOTTOM => 0x0020
  | .BOTTOM_LEFT => 0x0040
  | .LEFT => 0x0080
  | .CENTER => 0x0100

/-- The map as the region analysis reads it: the grid model of the
pathfinder together with the parts of the repository, not under src/, that
`ComputeStaticAnalysis` consults, taken as parameters:

* `GetPassable i`: `vec_tiles[i].GetPassable()`, a `uint16_t` mask;
* `castles`: `GetIndex()` and `GetColor()` of every castle of `vec_castles`;
* `GetApproximateDistance`: `Maps::GetApproximateDistance`;
* `sortObstacles`: what `std::sort` with the comparator `smallerThanSort`
  returns (the order of lines with equal counts is not specified). -/
structure WorldMap extends World where
  GetPassable : Int → Nat
  castles : List (Int × Nat)
  GetApproximateDistance : Int → Int → Nat
  sortObstacles : List (Int × Nat) → List (Int × Nat)

/-- The node type `BLOCKED` of the source. -/
def BLOCKED : Nat := 0

/-- The node type `OPEN` of the source. -/
def OPEN : Nat := 1

/-- The node type `BORDER` of the source. -/
def BORDER : Nat := 2

/-- The node type `REGION` of the source: the id of the first region. -/
def REGION : Nat := 3

/-- The modulus of `uint16_t` arithmetic. -/
def U16 : Nat := 65536

/-- A `MapRegionNode`. -/
structure MapRegionNode where
  index : Int
  type : Nat
  passable : Nat
  isWater : Bool
  deriving DecidableEq

/-- A `MapRegion`; the member `neighbours`, which the source never writes or
reads, is left out. -/
structure MapRegion where
  id : Int
  isWater : Bool
  nodes : List MapRegionNode
  edgeNodes : List MapRegionNode
  lastProcessedNode : Nat
  deriving DecidableEq

/-- The default constructor `MapRegionNode()`. -/
def MapRegionNode.init : MapRegionNode := ⟨-1, BLOCKED, 0, false⟩

/-- The constructor `MapRegionNode( int index )`. -/
def MapRegionNode.ofIndex (index : Int) : MapRegionNode := ⟨index, OPEN, 0, false⟩

/-- The value a `uint16_t` type field takes when the `int` id of a region is
assigned to it. -/
def typeOfId (id : Int) : Nat := (id % (U16 : Int)).toNat

/-- The constructor `MapRegion( int regionIndex, int mapIndex, bool water )`. -/
def MapRegion.create (regionIndex : Nat) (mapIndex : Int) (water : Bool) : MapRegion :=
  let id : Int := (REGION : Int) + (regionIndex : Int)
  { id := id
    isWater := water
    nodes := [{ MapRegionNode.ofIndex mapIndex with type := typeOfId id }]
    edgeNodes := []
    lastProcessedNode := 0 }

/-- The `int` a `uint32_t` value converts to. -/
def toInt32 (n : Nat) : Int :=
  if n % U32 < 2147483648 then ((n % U32 : Nat) : Int) else ((n % U32 : Nat) : Int) - (U32 : Int)

/-- The source's `ConvertExtendedIndex( index, width )`: the arithmetic is done
on `uint32_t` values (`index` is converted to one) and the result is converted
back to `int`. -/
def ConvertExtendedIndex (index : Int) (width : Nat) : Int :=
  let originalWidth : Nat := (width + U32 - 2) % U32
  let unsignedIndex : Nat := (index % (U32 : Int)).toNat
  toInt32 ((unsignedIndex / originalWidth + 1) * width + unsignedIndex % originalWidth + 1)

/-- Modelled from the spec: the three-argument `Direction::GetDirectionIndex` is
not under src/; it is the neighbour index in a row-major grid of the given
width. -/
def Direction.GetDirectionIndex (fromIdx : Int) (vector : Direction) (width : Nat) : Int :=
  match vector with
  | .TOP => fromIdx - width
  | .TOP_RIGHT => fromIdx - width + 1
  | .RIGHT => fromIdx + 1
  | .BOTTOM_RIGHT => fromIdx + width + 1
  | .BOTTOM => fromIdx + width
  | .BOTTOM_LEFT => fromIdx + width - 1
  | .LEFT => fromIdx - 1
  | .TOP_LEFT => fromIdx - width - 1
  | _ => -1

/-- Reading `rawData[i]`: `none` outside the vector. -/
def readCell (rawData : List MapRegionNode) (i : Int) : Option MapRegionNode :=
  if 0 ≤ i then rawData[i.toNat]? else none

/-- The source's `AppendIfFarEnough( dataSet, value, distance )`: the data set
after the call and the value returned. -/
def AppendIfFarEnough (M : WorldMap) (dataSet : List Int) (value : Int) (distance : Nat) :
    List Int × Bool :=
  let isMatch := dataSet.all (fun current => !decide (M.GetApproximateDistance current value < distance))
  (if isMatch then dataSet ++ [value] else dataSet, isMatch)

/-- The body of the loop over `directions` in `CheckAdjacentTiles`; the state is
`rawData`, the region and `neighbourCount` (a `uint8_t`). -/
def checkDirection (rawDataWidth : Nat) (extIDX : Int)
    (st : List MapRegionNode × MapRegion × Nat) (direction : Direction) :
    Option (List MapRegionNode × MapRegion × Nat) :=
  let newIndex := Direction.GetDirectionIndex extIDX direction rawDataWidth
  match readCell st.1 newIndex with
  | none => none
  | some newTile =>
    if newTile.passable &&& direction.Reflect.flag ≠ 0 then
      if newTile.type = OPEN ∧ newTile.isWater = st.2.1.isWater then
        let claimed := { newTile with type := typeOfId st.2.1.id }
        some (st.1.set newIndex.toNat claimed,
          { st.2.1 with nodes := st.2.1.nodes ++ [claimed] }, st.2.2)
      else if (newTile.type : Int) > (REGION : Int) ∧ (newTile.type : Int) ≠ st.2.1.id then
        some (st.1, st.2.1, (st.2.2 + 1) % 256)
      else some st
    else some st

/-- The source's `CheckAdjacentTiles( rawData, rawDataWidth, region )`. -/
def CheckAdjacentTiles (rawData : List MapRegionNode) (rawDataWidth : Nat) (region : MapRegion) :
    Option (List MapRegionNode × MapRegion) :=
  match region.nodes[region.lastProcessedNode]? with
  | none => none
  | some node =>
    let extIDX := ConvertExtendedIndex node.index rawDataWidth
    match Direction.All.foldlM (checkDirection rawDataWidth extIDX) (rawData, region, 0) with
    | none => none
    | some (rawData1, region1, neighbourCount) =>
      if neighbourCount > 0 then
        some (rawData1,
          { region1 with
            nodes := region1.nodes.set region1.lastProcessedNode { node with type := BORDER }
            edgeNodes := region1.edgeNodes ++ [node] })
      else some (rawData1, region1)

/-- The `while` loop of `RegionExpansion`, over the number of nodes between
`lastProcessedNode` and `nodesEnd`. -/
def regionExpansionLoop (rawDataWidth : Nat) :
    Nat → List MapRegionNode → MapRegion → Option (List MapRegionNode × MapRegion)
  | 0, rawData, region => some (rawData, region)
  | k + 1, rawData, region =>
    match CheckAdjacentTiles rawData rawDataWidth region with
    | none => none
    | some (rawData1, region1) =>
      regionExpansionLoop rawDataWidth k rawData1
        { region1 with lastProcessedNode := region1.lastProcessedNode + 1 }

/-- The source's `RegionExpansion( rawData, rawDataWidth, region )`. -/
def RegionExpansion (rawData : List MapRegionNode) (rawDataWidth : Nat) (region : MapRegion) :
    Option (List MapRegionNode × MapRegion) :=
  regionExpansionLoop rawDataWidth (region.nodes.length - region.lastProcessedNode) rawData region

/-- The `do ... while` loop of `FindMissingRegions`, with a bound on the number
of iterations. -/
def floodLoop (extendedWidth : Nat) :
    Nat → List MapRegionNode → MapRegion → Option (List MapRegionNode × MapRegion)
  | 0, _, _ => none
  | fuel + 1, rawData, region =>
    match CheckAdjacentTiles rawData extendedWidth region with
    | none => none
    | some (rawData1, region1) =>
      let region2 := { region1 with lastProcessedNode := region1.lastProcessedNode + 1 }
      if region2.lastProcessedNode ≠ region2.nodes.length then
        floodLoop extendedWidth fuel rawData1 region2
      else some (rawData1, region2)

/-- The body of the scan of `FindMissingRegions` at the position `p` of
`rawData`. Every pass of the flood loop but the first processes a node that a
pass before it appended, which took an `OPEN` cell, so the loop stops within
`rawData.size() + 1` passes or never. -/
def findMissingAt (extendedWidth : Nat) (st : List MapRegionNode × List MapRegion) (p : Nat) :
    Option (List MapRegionNode × List MapRegion) :=
  match st.1[p]? with
  | none => none
  | some currentTile =>
    if currentTile.type = OPEN then
      match floodLoop extendedWidth (st.1.length + 1) st.1
          (MapRegion.create st.2.length currentTile.index currentTile.isWater) with
      | none => none
      | some (rawData1, region) => some (rawData1, st.2 ++ [region])
    else some st

/-- The source's `FindMissingRegions( rawData, mapSize, regions )`; the scan
goes from `rawData.data() + extendedWidth + 1` up to, and without,
`rawData.data() + extendedWidth * ( mapSize.h + 1 )`. -/
def FindMissingRegions (rawData : List MapRegionNode) (width height : Nat)
    (regions : List MapRegion) : Option (List MapRegionNode × List MapRegion) :=
  let extendedWidth := width + 2
  if extendedWidth * (height + 1) < extendedWidth + 1 then none
  else
    (List.range' (extendedWidth + 1) (extendedWidth * (height + 1) - (extendedWidth + 1))).foldlM
      (findMissingAt extendedWidth) (rawData, regions)

/-- The tile `i` is an index of `vec_tiles`. -/
def WorldMap.inRange (M : WorldMap) (i : Int) : Prop := 0 ≤ i ∧ i < ((M.w * M.h : Nat) : Int)

instance (M : WorldMap) (i : Int) : Decidable (M.inRange i) := by
  unfold WorldMap.inRange; infer_instance

/-- The vector `data` of `ComputeStaticAnalysis` after the loop that copies the
tiles into it: the cell of a tile holds its index, mask and water flag and is
`OPEN` when the mask is not zero; every other cell is a default node. -/
def initialData (M : WorldMap) : List MapRegionNode :=
  (List.range (M.w * M.h)).foldl
    (fun data (index : Nat) =>
      data.set (ConvertExtendedIndex (index : Int) (M.w + 2)).toNat
        { index := (index : Int)
          type := if M.GetPassable (index : Int) ≠ 0 then OPEN else BLOCKED
          passable := M.GetPassable (index : Int)
          isWater := M.isWater (index : Int) })
    (List.replicate ((M.w + 2) * (M.h + 2)) MapRegionNode.init)

/-- The body of the loop of `ComputeStaticAnalysis` that creates one region per
entry of `regionCenters`; `none` when `tileIndex` is not an index of
`vec_tiles`. -/
def seedRegion (M : WorldMap) (st : List MapRegionNode × List MapRegion) (tileIndex : Int) :
    Option (List MapRegionNode × List MapRegion) :=
  if M.inRange tileIndex then
    let cell := ConvertExtendedIndex tileIndex (M.w + 2)
    match readCell st.1 cell with
    | none => none
    | some node =>
      some (st.1.set cell.toNat
          { node with type := typeOfId ((REGION : Int) + (st.2.length : Int)) },
        st.2 ++ [MapRegion.create st.2.length tileIndex (M.isWater tileIndex)])
  else none

/-- One pass of the inner loop `for regionID ...` of the expansion rounds:
`RegionExpansion` on every region in turn. -/
def expandRegions (extendedWidth : Nat) :
    List MapRegion → List MapRegion → List MapRegionNode →
      Option (List MapRegionNode × List MapRegion)
  | done, [], data => some (data, done)
  | done, region :: rest, data =>
    match RegionExpansion data extendedWidth region with
    | none => none
    | some (data1, region1) => expandRegions extendedWidth (done ++ [region1]) rest data1

/-- The expansion rounds of `ComputeStaticAnalysis`: `rounds` passes. -/
def expansionRounds (extendedWidth : Nat) :
    Nat → List MapRegionNode → List MapRegion → Option (List MapRegionNode × List MapRegion)
  | 0, data, regions => some (data, regions)
  | k + 1, data, regions =>
    match expandRegions extendedWidth [] regions data with
    | none => none
    | some (data1, regions1) => expansionRounds extendedWidth k data1 regions1

/-- The assignment `vec_tiles[node.index]._metadata = node.type` of the commit
loop; `metadata` holds the annotation of every tile, `none` while it has not
been written. -/
def commitNode (metadata : List (Option Nat)) (node : MapRegionNode) :
    Option (List (Option Nat)) :=
  if 0 ≤ node.index ∧ node.index.toNat < metadata.length then
    some (metadata.set node.index.toNat (some node.type))
  else none

/-- The commit loop of `ComputeStaticAnalysis`. -/
def commitRegions (metadata : List (Option Nat)) (regions : List MapRegion) :
    Option (List (Option Nat)) :=
  regions.foldlM (fun md reg => reg.nodes.foldlM commitNode md) metadata

/-- What `ComputeStaticAnalysis` leaves: the padded vector `data`, the regions
and the annotation (`_metadata`) of every tile. -/
structure StaticAnalysis where
  data : List MapRegionNode
  regions : List MapRegion
  metadata : List (Option Nat)
  deriving DecidableEq

/-- The part of `ComputeStaticAnalysis` that follows the choice of the seeds
`regionCenters` (from `const uint32_t extendedWidth = width + 2` on). -/
def analyseRegions (M : WorldMap) (regionCenters : List Int) : Option StaticAnalysis :=
  match regionCenters.foldlM (seedRegion M) (initialData M, []) with
  | none => none
  | some (data0, regions0) =>
    match expansionRounds (M.w + 2) (max M.w M.h / 2) data0 regions0 with
    | none => none
    | some (data1, regions1) =>
      match FindMissingRegions data1 M.w M.h regions1 with
      | none => none
      | some (data2, regions2) =>
        match commitRegions (List.replicate (M.w * M.h) none) regions2 with
        | none => none
        | some metadata => some ⟨data2, regions2, metadata⟩

/-- The obstacle test behind the counts of `obstacles`: for the water lists a
tile counts when it is not passable or is land, for the ground lists when it
is not passable or is water. -/
def isObstacle (M : WorldMap) (ground : Bool) (index : Int) : Bool :=
  decide (M.GetPassable index = 0) || (if ground then M.isWater index else !M.isWater index)

/-- The list `obstacles[i]` before it is sorted (`i` = 0: water, columns; 1:
water, rows; 2: ground, columns; 3: ground, rows): every line with the number
of its obstacle tiles. -/
def obstacles (M : WorldMap) (i : Nat) : List (Int × Nat) :=
  if i % 2 = 0 then
    (List.range M.w).map (fun (x : Nat) =>
      ((x : Int), ((List.range M.h).filter
        (fun (y : Nat) => isObstacle M (decide (2 ≤ i)) ((y * M.w + x : Nat) : Int))).length))
  else
    (List.range M.h).map (fun (y : Nat) =>
      ((y : Int), ((List.range M.w).filter
        (fun (x : Nat) => isObstacle M (decide (2 ≤ i)) ((y * M.w + x : Nat) : Int))).length))

/-- The list `emptyLines[i]` of `ComputeStaticAnalysis`. -/
def emptyLines (M : WorldMap) (i : Nat) : List Int :=
  (M.sortObstacles (obstacles M i)).foldl
    (fun lines line => (AppendIfFarEnough M lines line.1 7).1) []

/-- The comparator that sorts `castleCenters`. -/
def castleBefore (left right : Int × Nat) : Bool :=
  if left.2 = right.2 then decide (left.1 < right.1) else decide (left.2 > right.2)

/-- The list `castleCenters` after `std::sort`: two entries that the comparator
does not order are equal, so the sorted list does not depend on the sorting
algorithm. -/
def castleCenters (M : WorldMap) : List (Int × Nat) :=
  M.castles.insertionSort (fun a b => castleBefore b a = false)

/-- The seed `ComputeStaticAnalysis` offers for a castle: the tile below it,
or the castle tile when `castleIndex > vec_tiles.size()` (an unsigned
comparison). -/
def castleSeed (M : WorldMap) (castleTile : Int × Nat) : Int :=
  let castleIndex := castleTile.1 + (M.w : Int)
  if castleIndex < 0 ∨ castleIndex > ((M.w * M.h : Nat) : Int) then castleTile.1 else castleIndex

/-- The body of the loops over `emptyLines` in `ComputeStaticAnalysis`; `none`
when `tileIndex` is not an index of `vec_tiles`. -/
def emptyLineSeed (M : WorldMap) (waterOrGround : Bool) (regionCenters : List Int)
    (rowID colID : Int) : Option (List Int) :=
  let tileIndex := rowID * (M.w : Int) + colID
  if M.inRange tileIndex then
    let centerIndex : Int :=
      if M.GetPassable tileIndex ≠ 0 ∧ M.isWater tileIndex = true then tileIndex
      else
        match Direction.All.find? (fun direction =>
            Maps.isValidDirection M.toWorld tileIndex direction
              && decide (M.GetPassable (Maps.GetDirectionIndex M.toWorld tileIndex direction) ≠ 0)
              && (M.isWater tileIndex == waterOrGround)) with
        | some direction => Maps.GetDirectionIndex M.toWorld tileIndex direction
        | none => -1
    if 0 ≤ centerIndex then some (AppendIfFarEnough M regionCenters centerIndex 18).1
    else some regionCenters
  else none

/-- The list `regionCenters` of `ComputeStaticAnalysis` once the seeds are
chosen: the castle seeds, then the seeds at the crossings of the empty lines,
for water and for ground. -/
def regionCenters (M : WorldMap) : Option (List Int) :=
  let castleSeeds := (castleCenters M).foldl
    (fun centers castleTile => (AppendIfFarEnough M centers (castleSeed M castleTile) 17).1) []
  [false, true].foldlM
    (fun centers waterOrGround =>
      (emptyLines M (if waterOrGround then 2 else 0)).foldlM
        (fun centers1 rowID =>
          (emptyLines M (if waterOrGround then 3 else 1)).foldlM
            (fun centers2 colID => emptyLineSeed M waterOrGround centers2 rowID colID) centers1)
        centers)
    castleSeeds

/-- The source's `World::ComputeStaticAnalysis()`. -/
def World.ComputeStaticAnalysis (M : WorldMap) : Option StaticAnalysis :=
  match regionCenters M with
  | none => none
  | some centers => analyseRegions M centers

/-- The list `regionCenters` of `ComputeStaticAnalysis` after the loop over
`castleCenters`, before the empty-line seeds are added: the castle seeds that
`AppendIfFarEnough` kept, with `castleRegionSize` = 17. -/
def castleRegionCenters (M : WorldMap) : List Int :=
  (castleCenters M).foldl
    (fun centers castleTile => (AppendIfFarEnough M centers (castleSeed M castleTile) 17).1) []

/-! ## Battle animation (`battle_animation.cpp`) -/

/-- The modulus of `size_t` arithmetic. -/
def SizeT : Nat := 18446744073709551616

/-- An `AnimationSequence`: the frames `_seq` and the index `_currentFrame`
(declared in `battle_animation.h`; the source compares it with the `size_t`
value `_seq.size() - 1`). -/
structure AnimationSequence where
  _seq : List Int
  _currentFrame : Nat
  deriving DecidableEq

/-- The constructor `AnimationSequence( const std::vector<int> & seq )`. -/
def AnimationSequence.ofVector (seq : List Int) : AnimationSequence := ⟨seq, 0⟩

/-- The source's `AnimationSequence::operator=( const std::vector<int> & rhs )`. -/
def AnimationSequence.assign (_s : AnimationSequence) (rhs : List Int) : AnimationSequence :=
  ⟨rhs, 0⟩

/-- The source's `AnimationSequence::isValid()`. -/
def AnimationSequence.isValid (s : AnimationSequence) : Bool := decide (s._seq.length > 0)

/-- The source's `AnimationSequence::isFirstFrame()`. -/
def AnimationSequence.isFirstFrame (s : AnimationSequence) : Bool := decide (s._currentFrame = 0)

/-- The source's `AnimationSequence::isLastFrame()`; `_seq.size() - 1` is
computed on `size_t`. -/
def AnimationSequence.isLastFrame (s : AnimationSequence) : Bool :=
  decide (s._currentFrame = (s._seq.length + SizeT - 1) % SizeT)

/-- The source's `AnimationSequence::getFrame()`; `none` when `_seq[_currentFrame]`
is outside the vector. -/
def AnimationSequence.getFrame (s : AnimationSequence) : Option Int :=
  if s.isValid then s._seq[s._currentFrame]? else some 0

/-- The source's `AnimationSequence::restartAnimation()`: the value returned and
the sequence after the call. -/
def AnimationSequence.restartAnimation (s : AnimationSequence) :
    Option (Int × AnimationSequence) :=
  let s1 : AnimationSequence := { s with _currentFrame := 0 }
  s1.getFrame.map (fun frame => (frame, s1))

/-- The source's `AnimationSequence::playAnimation( loop )`: the value returned
and the sequence after the call. -/
def AnimationSequence.playAnimation (s : AnimationSequence) (loop : Bool) :
    Option (Int × AnimationSequence) :=
  if !s.isValid then some (0, s)
  else
    let next : Option AnimationSequence :=
      if s.isLastFrame then
        if loop then s.restartAnimation.map (fun r => r.2) else some s
      else some { s with _currentFrame := (s._currentFrame + 1) % SizeT }
    match next with
    | none => none
    | some s1 => s1._seq[s1._currentFrame]?.map (fun frame => (frame, s1))

/-- The source's `AnimationSequence::animationLength()`. -/
def AnimationSequence.animationLength (s : AnimationSequence) : Int := toInt32 s._seq.length

/-- The source's `AnimationSequence::firstFrame()`; `none` when `front()` is
called on an empty vector. -/
def AnimationSequence.firstFrame (s : AnimationSequence) : Option Int :=
  if s.isValid then s._seq.head? else some 0

/-- The source's `AnimationSequence::setToLastFrame()`. -/
def AnimationSequence.setToLastFrame (s : AnimationSequence) : AnimationSequence :=
  if s.isValid then { s with _currentFrame := (s._seq.length + SizeT - 1) % SizeT } else s

/-- The animation states (`Monster_Info::STATIC` ...) that the `switch` of
`getAnimationVector` names; `other` stands for every other value, which the
`switch` sends to `default`. -/
inductive AnimState
  | STATIC
  | IDLE
  | MOVE_START
  | MOVING
  | MOVE_END
  | MOVE_QUICK
  | MELEE_TOP
  | MELEE_TOP_END
  | MELEE_FRONT
  | MELEE_FRONT_END
  | MELEE_BOT
  | MELEE_BOT_END
  | RANG_TOP
  | RANG_TOP_END
  | RANG_FRONT
  | RANG_FRONT_END
  | RANG_BOT
  | RANG_BOT_END
  | WNCE
  | KILL
  | other (value : Int)
  deriving DecidableEq

/-- A pair of frame vectors `start` and `end` (the type of `_moveModes` and of
the entries of `_melee` and `_ranged`). -/
structure StartEnd where
  start : List Int
  end_ : List Int
  deriving DecidableEq

/-- The frame vectors of an `AnimationReference` that `getAnimationVector`
reads; `_meleeTop` is `_melee[Monster_Info::TOP]`, and so on. -/
structure AnimationReference where
  _static : List Int
  _wince : List Int
  _death : List Int
  _idle : List (List Int)
  _loopMove : List Int
  _quickMove : List Int
  _moveModes : StartEnd
  _meleeTop : StartEnd
  _meleeFront : StartEnd
  _meleeBottom : StartEnd
  _rangedTop : StartEnd
  _rangedFront : StartEnd
  _rangedBottom : StartEnd
  deriving DecidableEq

/-- The source's `AnimationReference::getAnimationVector( animState )`; `none`
when `_idle.front()` is called on an empty vector. -/
def AnimationReference.getAnimationVector (ref : AnimationReference) :
    AnimState → Option (List Int)
  | .STATIC => some ref._static
  | .IDLE => ref._idle.head?
  | .MOVE_START => some ref._moveModes.start
  | .MOVING => some ref._loopMove
  | .MOVE_END => some ref._moveModes.end_
  | .MOVE_QUICK => some ref._quickMove
  | .MELEE_TOP => some ref._meleeTop.start
  | .MELEE_TOP_END => some ref._meleeTop.end_
  | .MELEE_FRONT => some ref._meleeFront.start
  | .MELEE_FRONT_END => some ref._meleeFront.end_
  | .MELEE_BOT => some ref._meleeBottom.start
  | .MELEE_BOT_END => some ref._meleeBottom.end_
  | .RANG_TOP => some ref._rangedTop.start
  | .RANG_TOP_END => some ref._rangedTop.end_
  | .RANG_FRONT => some ref._rangedFront.start
  | .RANG_FRONT_END => some ref._rangedFront.end_
  | .RANG_BOT => some ref._rangedBottom.start
  | .RANG_BOT_END => some ref._rangedBottom.end_
  | .WNCE => some ref._wince
  | .KILL => some ref._death
  | .other _ => some ref._static

/-- An `AnimationState`: an `AnimationReference` with the sequence being played
and the id of its animation state. -/
structure AnimationState extends AnimationReference where
  _currentSequence : AnimationSequence
  _animState : AnimState
  deriving DecidableEq

/-- The source's `AnimationState::switchAnimation( int animState, bool reverse )`:
the value returned and the state after the call. -/
def AnimationState.switchAnimation (st : AnimationState) (animState : AnimState)
    (reverse : Bool) : Option (Bool × AnimationState) :=
  match st.toAnimationReference.getAnimationVector animState with
  | none => none
  | some seq =>
    if seq.length > 0 then
      let seq1 := if reverse then seq.reverse else seq
      match (st._currentSequence.assign seq1).restartAnimation with
      | none => none
      | some (_, sequence) =>
        some (true, { st with _animState := animState, _currentSequence := sequence })
    else some (false, st)

/-- The body of the loop over `animationList` in the second `switchAnimation`;
the state is `_animState` and `combinedAnimation`. -/
def combineAnimation (ref : AnimationReference) (acc : AnimState × List Int)
    (animState : AnimState) : Option (AnimState × List Int) :=
  match ref.getAnimationVector animState with
  | none => none
  | some seq => if seq.length > 0 then some (animState, acc.2 ++ seq) else some acc

/-- The source's
`AnimationState::switchAnimation( const std::vector<int> & animationList, bool reverse )`:
the value returned and the state after the call. -/
def AnimationState.switchAnimationList (st : AnimationState) (animationList : List AnimState)
    (reverse : Bool) : Option (Bool × AnimationState) :=
  match animationList.foldlM (combineAnimation st.toAnimationReference) (st._animState, []) with
  | none => none
  | some (animState, combinedAnimation) =>
    if combinedAnimation.length > 0 then
      let seq1 := if reverse then combinedAnimation.reverse else combinedAnimation
      match (st._currentSequence.assign seq1).restartAnimation with
      | none => none
      | some (_, sequence) =>
        some (true, { st with _animState := animState, _currentSequence := sequence })
    else some (false, { st with _animState := animState })

/-- A call that changes an `AnimationSequence`. -/
inductive AnimationCall
  | playAnimation (loop : Bool)
  | restartAnimation
  | setToLastFrame
  deriving DecidableEq

/-- The sequence after one call; `none` when the call reads a frame outside
the vector. -/
def AnimationSequence.call (s : AnimationSequence) : AnimationCall → Option AnimationSequence
  | .playAnimation loop => (s.playAnimation loop).map (fun r => r.2)
  | .restartAnimation => s.restartAnimation.map (fun r => r.2)
  | .setToLastFrame => some s.setToLastFrame

/-- The sequence after a list of calls, made one after the other. -/
def AnimationSequence.calls (s : AnimationSequence) (cs : List AnimationCall) :
    Option AnimationSequence :=
  cs.foldlM AnimationSequence.call s

/-! ## The hero list of the AI (`ai_normal_kingdom.cpp`) -/

/-- The comparator the source passes to `std::sort` for `sortedHeroList`. A
hero pointer is `none` when it is null and otherwise holds
`GetArmy().GetStrength()` of the hero, a `double` in the source, taken here as
an integer (only the order of the strengths matters). -/
def sortedHeroListBefore (left right : Option Int) : Bool :=
  match left, right with
  | some l, some r => decide (l > r)
  | _, _ => right.isNone

/-! ## Notions used to state the properties of move validity -/

/-- The two directions "orthogonally adjacent to the origin on the side of the
diagonal": for a diagonal direction its vertical and its horizontal part. -/
def Direction.sides : Direction → List Direction
  | .TOP_LEFT => [.TOP, .LEFT]
  | .TOP_RIGHT => [.TOP, .RIGHT]
  | .BOTTOM_RIGHT => [.BOTTOM, .RIGHT]
  | .BOTTOM_LEFT => [.BOTTOM, .LEFT]
  | _ => []

/-- The move validity rule as the specification words it: (1) the origin is not
water, or the direction is not diagonal, or both tiles next to the origin on
the side of the diagonal are water; (2) the origin is passable in the
direction and the destination is passable in the reflected direction, both
with the water flag of the origin. -/
def World.validMoveRule (W : World) (index : Int) (direction : Direction) : Prop :=
  (W.isWater index = false ∨ direction.isDiagonal = false ∨
    ∀ side ∈ direction.sides, W.isWater (Maps.GetDirectionIndex W index side) = true) ∧
  W.isPassable index direction (W.isWater index) = true ∧
  W.isPassable (Maps.GetDirectionIndex W index direction) direction.Reflect
    (W.isWater index) = true

/-- What `evaluateMap( start, skill )` keeps true of every recorded predecessor
`u` of a tile `v`: `u` is a tile of the map, and the node of `v` was written
either in the loop over the monsters protecting the guarded tile `u`, for a
direction `Direction::Get( u, v )` that is one of the eight and a valid path,
or in the loop over the directions from the unguarded tile `u`, which is the
source or not blocked, for a direction that is valid at `u` and a valid
path. -/
def MoveInv (W : World) (start : Int) (cs : List PathfindingNode) : Prop :=
  ∀ v n, readNode cs v = some n → n._from ≠ -1 →
    W.inRange n._from ∧
    ((W.GetTilesUnderProtection n._from ≠ [] ∧ v ∈ W.GetTilesUnderProtection n._from ∧
        Direction.Get W n._from v ∈ Direction.All ∧
        W.isValidPath n._from (Direction.Get W n._from v) = true) ∨
      (W.GetTilesUnderProtection n._from = [] ∧
        (n._from = start ∨ W.isTileBlocked n._from (W.isWater start) = false) ∧
        ∃ d, Maps.isValidDirection W n._from d = true ∧
          v = Maps.GetDirectionIndex W n._from d ∧ W.isValidPath n._from d = true))

/-! ## Notions used to state the properties of the region analysis -/

/-- The number of cells of `rawData` that are `OPEN`. -/
def openCount (rawData : List MapRegionNode) : Nat :=
  rawData.countP (fun cell => decide (cell.type = OPEN))

/-- The shape of a region throughout the region analysis:

* `id`: the id is at least `REGION` and fits a `uint16_t`;
* `processed`: `lastProcessedNode` is not past the end of `nodes`;
* `nodes`: every member node holds a tile of the map whose water flag is the
  one of the region, and its type is `BORDER` or the id of the region;
* `appended`: the field `isWater` of every member node after the first is the
  water flag of the region. -/
structure RegionOK (M : WorldMap) (reg : MapRegion) : Prop where
  id : (REGION : Int) ≤ reg.id ∧ reg.id < (U16 : Int)
  processed : reg.lastProcessedNode ≤ reg.nodes.length
  nodes : ∀ node ∈ reg.nodes, M.inRange node.index ∧ M.isWater node.index = reg.isWater ∧
    (node.type = BORDER ∨ (node.type : Int) = reg.id)
  appended : ∀ node ∈ reg.nodes.tail, node.isWater = reg.isWater

/-- What calls of `CheckAdjacentTiles` for one region change, from `data` and
`reg` to `data1` and `reg1`:

* `id`, `water`: the id and the water flag of the region stay;
* `members`: a member tile stays a member;
* `opens`: an `OPEN` cell is left as it is or its tile became a member;
* `count`: every node appended took one `OPEN` cell;
* `len`: no node is removed. -/
structure Flooded (data : List MapRegionNode) (reg : MapRegion)
    (data1 : List MapRegionNode) (reg1 : MapRegion) : Prop where
  id : reg1.id = reg.id
  water : reg1.isWater = reg.isWater
  members : ∀ i ∈ reg.nodes.map (·.index), i ∈ reg1.nodes.map (·.index)
  opens : ∀ (p : Nat) (cell : MapRegionNode), data[p]? = some cell → cell.type = OPEN →
    data1[p]? = some cell ∨ cell.index ∈ reg1.nodes.map (·.index)
  count : openCount data1 + reg1.nodes.length = openCount data + reg.nodes.length
  len : reg.nodes.length ≤ reg1.nodes.length

/-- The shape of `regionCenters` while seeds are appended with a minimum
separation: the list is `base` followed by seeds, each of which is at least
`distance` away from every seed of `base` and from every seed appended before
it. -/
def SeedsKept (M : WorldMap) (distance : Nat) (base centers : List Int) : Prop :=
  ∃ extra, centers = base ++ extra ∧
    extra.Pairwise (fun a b => distance ≤ M.GetApproximateDistance a b) ∧
    ∀ u ∈ base, ∀ v ∈ extra, distance ≤ M.GetApproximateDistance u v

/-! ## Maps used as concrete inputs -/

/-- A map of the given size where every tile is land without road or object,
every move is passable, no tile is protected and the terrain penalty is
`penalty` for every tile and skill. -/
def uniformLand (width height penalty : Nat) : World where
  w := width
  h := height
  isWater := fun _ => false
  isRoad := fun _ => false
  GetObject := fun _ => .other 0
  isPassable := fun _ _ _ => true
  GetPenalty := fun _ _ => penalty
  roadPenalty := 75
  isPickupObject := fun _ => false
  isActionObject := fun _ _ => false
  GetTilesUnderProtection := fun _ => []
  defaultCost := 0

/-- A map of the given size like `uniformLand`, but where no tile is passable
in any direction. -/
def closedLand (width height penalty : Nat) : World :=
  { uniformLand width height penalty with isPassable := fun _ _ _ => false }

/-- A 2 x 2 map, every move passable, whose tile 3 (bottom right) is water and
whose other tiles are land. -/
def coastCorner : World :=
  { uniformLand 2 2 100 with isWater := fun i => decide (i = 3) }

/-- A 2 x 1 land map with a monster on tile 1, which protects tile 0. -/
def monsterMap : World :=
  { uniformLand 2 1 100 with
    GetObject := fun i => if i = 1 then .OBJ_MONSTER else .other 0
    GetTilesUnderProtection := fun i => if i = 0 then [1] else [] }

/-- A 3 x 1 land map like `uniformLand` whose terrain penalty is `3 * 2 ^ 30`,
so that the cost of two moves in a row exceeds `2 ^ 32`. -/
def steepMap : World := uniformLand 3 1 3221225472

/-- A 2 x 1 land map whose tiles can be left and entered to the left and to
the right only. -/
def narrowMap : World :=
  { uniformLand 2 1 100 with
    isPassable := fun _ d _ => decide (d = .LEFT ∨ d = .RIGHT) }

/-- A 3 x 1 land map with a monster on tile 2, which protects tile 1. -/
def guardedRow : World :=
  { uniformLand 3 1 100 with
    GetObject := fun i => if i = 2 then .OBJ_MONSTER else .other 0
    GetTilesUnderProtection := fun i => if i = 1 then [2] else [] }

/-- Modelled from the spec: `Maps::GetApproximateDistance` is not under src/;
this is the larger of the column and row differences of two tiles of a map of
the given width, used for the concrete maps. -/
def chebyshevDistance (width : Nat) (a b : Int) : Nat :=
  max (a % (width : Int) - b % (width : Int)).natAbs (a / (width : Int) - b / (width : Int)).natAbs

/-- A sort of the obstacle lists by count that keeps lines of equal count in
their order, used for the concrete maps. -/
def sortByCount (l : List (Int × Nat)) : List (Int × Nat) :=
  l.insertionSort (fun a b => a.2 ≤ b.2)

/-- A 3 x 3 map without castles: tile 0 is water, the other tiles are land,
and every tile can be entered from its right neighbour only (mask `RIGHT`). -/
def oneWayMap : WorldMap :=
  { uniformLand 3 3 100 with
    isWater := fun i => decide (i = 0)
    GetPassable := fun _ => 0x0008
    castles := []
    GetApproximateDistance := chebyshevDistance 3
    sortObstacles := sortByCount }

/-- The vector `data` of `ComputeStaticAnalysis` on `oneWayMap` once the region
of its only seed, tile 0, is created: the cell of tile 0 has the type `REGION`
(the id of that first region), the cells of the other tiles are `OPEN`. -/
def oneWaySeeded : List MapRegionNode :=
  ((seedRegion oneWayMap (initialData oneWayMap, []) 0).map (·.1)).getD []

/-- A 20 x 20 land map with two castles three tiles apart in the first row,
the red one (colour 4) on tile 3 and the blue one (colour 1) on tile 0. -/
def twoCastleMap : WorldMap :=
  { uniformLand 20 20 100 with
    GetPassable := fun _ => 0x00FF
    castles := [(0, 1), (3, 4)]
    GetApproximateDistance := chebyshevDistance 20
    sortObstacles := sortByCount }

/-- An `AnimationState` whose reference has the static frame 1, two idle
animations and the death frames 7, 8, 9 (every other vector is empty), playing
the static sequence. -/
def sampleAnimation : AnimationState :=
  { _static := [1]
    _wince := []
    _death := [7, 8, 9]
    _idle := [[2, 3], [4]]
    _loopMove := []
    _quickMove := []
    _moveModes := ⟨[], []⟩
    _meleeTop := ⟨[], []⟩
    _meleeFront := ⟨[], []⟩
    _meleeBottom := ⟨[], []⟩
    _rangedTop := ⟨[], []⟩
    _rangedFront := ⟨[], []⟩
    _rangedBottom := ⟨[], []⟩
    _currentSequence := ⟨[1], 0⟩
    _animState := .STATIC }

/-- A 20 x 20 land map with one castle on tile 399, the last tile of the last
row. -/
def cornerCastleMap : WorldMap :=
  { uniformLand 20 20 100 with
    GetPassable := fun _ => 0x00FF
    castles := [(399, 4)]
    GetApproximateDistance := chebyshevDistance 20
    sortObstacles := sortByCount }

/-- A 3 x 3 land map with one castle on tile 6, the first tile of the last
row. -/
def lastRowCastleMap : WorldMap :=
  { uniformLand 3 3 100 with
    GetPassable := fun _ => 0x00FF
    castles := [(6, 1)]
    GetApproximateDistance := chebyshevDistance 3
    sortObstacles := sortByCount }

/-- A map of two columns and one row without castles: tile 0 is land, tile 1
is water, both passable in every direction. -/
def wideMap : WorldMap :=
  { uniformLand 2 1 100 with
    isWater := fun i => decide (i = 1)
    GetPassable := fun _ => 0x00FF
    castles := []
    GetApproximateDistance := chebyshevDistance 2
    sortObstacles := sortByCount }

/-- A 2 x 2 map without castles: tile 0 is water, tiles 1, 2 and 3 are land,
all passable in every direction. -/
def pondMap : WorldMap :=
  { uniformLand 2 2 100 with
    isWater := fun i => decide (i = 0)
    GetPassable := fun _ => 0x00FF
    castles := []
    GetApproximateDistance := chebyshevDistance 2
    sortObstacles := sortByCount }

/-! # Properties -/

/-! ## Cache access -/

theorem readNode_eq_some {cs : List PathfindingNode} {i : Int} {n : PathfindingNode}
    (h : readNode cs i = some n) : 0 ≤ i ∧ i.toNat < cs.length ∧ cs[i.toNat]? = some n := by
  unfold readNode at h
  split at h
  · rename_i h0
    refine ⟨h0, ?_, h⟩
    exact (List.getElem?_eq_some_iff.mp h).1
  · cases h

theorem readNode_of_range {cs : List PathfindingNode} {i : Int} (h0 : 0 ≤ i)
    (h1 : i < (cs.length : Int)) : ∃ n, readNode cs i = some n := by
  have h2 : i.toNat < cs.length := by omega
  refine ⟨cs[i.toNat], ?_⟩
  simp [readNode, h0, List.getElem?_eq_getElem h2]

theorem readNode_set {cs : List PathfindingNode} {i j : Int} {n : PathfindingNode}
    (h0 : 0 ≤ i) (h1 : i.toNat < cs.length) :
    readNode (cs.set i.toNat n) j = if j = i then some n else readNode cs j := by
  unfold readNode
  by_cases hj : 0 ≤ j
  · by_cases hji : j = i
    · subst hji
      simp [hj, List.getElem?_set_self, h1]
    · have hne : i.toNat ≠ j.toNat := by omega
      simp [hj, hji, List.getElem?_set_ne hne]
  · have hji : j ≠ i := by omega
    simp [hj, hji]

theorem writeNode_eq_some {cs cs' : List PathfindingNode} {i : Int} {n : PathfindingNode}
    (h : writeNode cs i n = some cs') : 0 ≤ i ∧ i.toNat < cs.length ∧ cs' = cs.set i.toNat n := by
  unfold writeNode at h
  split at h
  · rename_i hr
    exact ⟨hr.1, hr.2, (Option.some.inj h).symm⟩
  · cases h

theorem writeNode_of_range {cs : List PathfindingNode} {i : Int} (n : PathfindingNode)
    (h0 : 0 ≤ i) (h1 : i < (cs.length : Int)) : writeNode cs i n = some (cs.set i.toNat n) := by
  have h2 : i.toNat < cs.length := by omega
  simp [writeNode, h0, h2]

/-! ## Geometry of the row-major grid -/

theorem validDirection_mem_All {W : World} {u : Int} {d : Direction}
    (h : Maps.isValidDirection W u d = true) : d ∈ Direction.All := by
  cases d <;> simp [Maps.isValidDirection] at h <;> simp [Direction.All]

theorem validDirection_range {W : World} {u : Int} {d : Direction}
    (h : Maps.isValidDirection W u d = true) (h0 : 0 ≤ u) (h1 : u < ((W.w * W.h : Nat) : Int)) :
    0 ≤ Maps.GetDirectionIndex W u d ∧ Maps.GetDirectionIndex W u d < ((W.w * W.h : Nat) : Int)
      ∧ Maps.GetDirectionIndex W u d ≠ u := by
  have hw : 0 < (W.w : Int) := by
    rcases Nat.eq_zero_or_pos W.w with hz | hp
    · rw [hz] at h1; simp at h1; omega
    · exact_mod_cast hp
  have hdm := Int.emod_add_ediv u W.w
  have hr0 := Int.emod_nonneg u (ne_of_gt hw)
  have hr1 := Int.emod_lt_of_pos u hw
  have hq : u / (W.w : Int) < (W.h : Int) := by
    apply Int.ediv_lt_of_lt_mul hw
    have : ((W.w * W.h : Nat) : Int) = (W.h : Int) * (W.w : Int) := by push_cast; ring
    omega
  have hN : ((W.w * W.h : Nat) : Int) = (W.w : Int) * (W.h : Int) := by push_cast; ring
  have hq' : (W.w : Int) * (u / (W.w : Int)) + (W.w : Int) ≤ (W.w : Int) * (W.h : Int) := by
    nlinarith
  have hb : (W.w : Int) * ((W.h : Int) - 1) = (W.w : Int) * (W.h : Int) - (W.w : Int) := by ring
  have hp0 : 0 ≤ (W.w : Int) * (u / (W.w : Int)) :=
    Int.mul_nonneg (le_of_lt hw) (Int.ediv_nonneg h0 (le_of_lt hw))
  have hT : (W.w : Int) ≤ u → (W.w : Int) ≤ (W.w : Int) * (u / (W.w : Int)) := by
    intro hle
    have h1q : 1 ≤ u / (W.w : Int) := by
      apply Int.le_ediv_of_mul_le hw
      omega
    nlinarith
  have hB : u < (W.w : Int) * ((W.h : Int) - 1) →
      (W.w : Int) * (u / (W.w : Int)) + 2 * (W.w : Int) ≤ (W.w : Int) * (W.h : Int) := by
    intro hlt
    have hq2 : u / (W.w : Int) < (W.h : Int) - 1 := by
      apply Int.ediv_lt_of_lt_mul hw
      have : (W.w : Int) * ((W.h : Int) - 1) = ((W.h : Int) - 1) * (W.w : Int) := by ring
      omega
    nlinarith
  rw [hN]
  cases d <;>
    simp only [Maps.isValidDirection, Bool.and_eq_true, decide_eq_true_eq, ne_eq,
      Bool.false_eq_true] at h <;>
    simp only [Maps.GetDirectionIndex] <;> omega

/-! ## One relaxation -/

theorem relaxOutcome_exists {cs : List PathfindingNode} {u v : Int} (p : Nat)
    (hu0 : 0 ≤ u) (hu1 : u < (cs.length : Int)) (hv0 : 0 ≤ v) (hv1 : v < (cs.length : Int)) :
    ∃ cs' b, RelaxOutcome cs u v p cs' b := by
  obtain ⟨nu, hnu⟩ := readNode_of_range hu0 hu1
  obtain ⟨nv, hnv⟩ := readNode_of_range hv0 hv1
  by_cases hc : nv._from = -1 ∨ nv._cost > (nu._cost + p) % U32
  · exact ⟨_, true, RelaxOutcome.write nu nv hnu hnv hc⟩
  · exact ⟨_, false, RelaxOutcome.keep nu nv hnu hnv hc⟩

theorem relaxDirection_eq {W : World} (skill : Nat) {u : Int}
    (st : List PathfindingNode × List Int) (d : Direction)
    (hlen : st.1.length = W.w * W.h) (hu : W.inRange u) :
    (Maps.isValidDirection W u d = true ∧ W.isValidPath u d = true ∧
      ∃ cs' b, RelaxOutcome st.1 u (Maps.GetDirectionIndex W u d)
          (Pathfinder.getMovementPenalty W u (Maps.GetDirectionIndex W u d) d skill) cs' b ∧
        relaxDirection W skill u st d
          = some (cs', if b = true then st.2 ++ [Maps.GetDirectionIndex W u d] else st.2)) ∨
    (¬ (Maps.isValidDirection W u d = true ∧ W.isValidPath u d = true) ∧
      relaxDirection W skill u st d = some st) := by
  by_cases hd : Maps.isValidDirection W u d = true
  · obtain ⟨hv0, hv1, _⟩ := validDirection_range hd hu.1 hu.2
    have hu1 : u < (st.1.length : Int) := by rw [hlen]; exact hu.2
    have hv1' : Maps.GetDirectionIndex W u d < (st.1.length : Int) := by rw [hlen]; exact hv1
    obtain ⟨nu, hnu⟩ := readNode_of_range hu.1 hu1
    obtain ⟨nv, hnv⟩ := readNode_of_range hv0 hv1'
    by_cases hp : W.isValidPath u d = true
    · left
      refine ⟨hd, hp, ?_⟩
      by_cases hc : nv._from = -1 ∨ nv._cost >
          (nu._cost + Pathfinder.getMovementPenalty W u (Maps.GetDirectionIndex W u d) d skill) % U32
      · refine ⟨_, true, RelaxOutcome.write nu nv hnu hnv hc, ?_⟩
        simp only [relaxDirection, hd, hnu, hnv, hp, hc, if_true, true_and,
          writeNode_of_range _ hv0 hv1']
      · refine ⟨_, false, RelaxOutcome.keep nu nv hnu hnv hc, ?_⟩
        simp [relaxDirection, hd, hnu, hnv, hp, hc]
    · right
      refine ⟨fun h => hp h.2, ?_⟩
      simp [relaxDirection, hd, hnu, hnv, hp]
  · right
    refine ⟨fun h => hd h.1, ?_⟩
    simp [relaxDirection, hd]

theorem relaxMonster_eq {W : World} (skill : Nat) {u m : Int} {cs : List PathfindingNode}
    (hlen : cs.length = W.w * W.h) (hu : W.inRange u) (hm : W.inRange m) :
    ((Direction.Get W u m ≠ .UNKNOWN ∧ Direction.Get W u m ≠ .CENTER ∧
        W.isValidPath u (Direction.Get W u m) = true) ∧
      ∃ cs' b, RelaxOutcome cs u m
          (Pathfinder.getMovementPenalty W u m (Direction.Get W u m) skill) cs' b ∧
        relaxMonster W skill u cs m = some cs') ∨
    relaxMonster W skill u cs m = some cs := by
  have hu1 : u < (cs.length : Int) := by rw [hlen]; exact hu.2
  have hm1 : m < (cs.length : Int) := by rw [hlen]; exact hm.2
  obtain ⟨nu, hnu⟩ := readNode_of_range hu.1 hu1
  obtain ⟨nv, hnv⟩ := readNode_of_range hm.1 hm1
  by_cases hd : Direction.Get W u m ≠ .UNKNOWN ∧ Direction.Get W u m ≠ .CENTER ∧
      W.isValidPath u (Direction.Get W u m) = true
  · left
    refine ⟨hd, ?_⟩
    by_cases hc : nv._from = -1 ∨ nv._cost >
        (nu._cost + Pathfinder.getMovementPenalty W u m (Direction.Get W u m) skill) % U32
    · refine ⟨_, true, RelaxOutcome.write nu nv hnu hnv hc, ?_⟩
      simp only [relaxMonster, hd, hnu, hnv, hc, if_true, ne_eq, not_false_eq_true, and_self,
        writeNode_of_range _ hm.1 hm1]
    · refine ⟨_, false, RelaxOutcome.keep nu nv hnu hnv hc, ?_⟩
      simp only [relaxMonster, hd, hnu, hnv, hc, if_true, if_false, ne_eq, not_false_eq_true,
        and_self]
  · right
    simp only [relaxMonster, hd, if_false]

theorem RelaxOutcome.length_eq {cs cs' : List PathfindingNode} {u v : Int} {p : Nat} {b : Bool}
    (h : RelaxOutcome cs u v p cs' b) : cs'.length = cs.length := by
  cases h <;> simp

theorem RelaxOutcome.keep_eq {cs cs' : List PathfindingNode} {u v : Int} {p : Nat}
    (h : RelaxOutcome cs u v p cs' false) : cs' = cs := by
  cases h; rfl

theorem RelaxOutcome.target_range {cs cs' : List PathfindingNode} {u v : Int} {p : Nat} {b : Bool}
    (h : RelaxOutcome cs u v p cs' b) : 0 ≤ v ∧ v.toNat < cs.length := by
  cases h with
  | keep nu nv hu hv hno => exact ⟨(readNode_eq_some hv).1, (readNode_eq_some hv).2.1⟩
  | write nu nv hu hv hyes => exact ⟨(readNode_eq_some hv).1, (readNode_eq_some hv).2.1⟩

theorem RelaxOutcome.read_other {cs cs' : List PathfindingNode} {u v : Int} {p : Nat} {b : Bool}
    (h : RelaxOutcome cs u v p cs' b) {j : Int} (hj : j ≠ v) : readNode cs' j = readNode cs j := by
  cases h with
  | keep nu nv hu hv hno => rfl
  | write nu nv hu hv hyes =>
    rw [readNode_set (readNode_eq_some hv).1 (readNode_eq_some hv).2.1, if_neg hj]

theorem sum_map_set {f : PathfindingNode → Nat} :
    ∀ (cs : List PathfindingNode) (i : Nat) (n old : PathfindingNode), cs[i]? = some old →
      ((cs.set i n).map f).sum + f old = (cs.map f).sum + f n
  | [], i, n, old, h => by simp at h
  | x :: xs, 0, n, old, h => by
    simp only [List.getElem?_cons_zero, Option.some.injEq] at h
    subst h
    simp only [List.set_cons_zero, List.map_cons, List.sum_cons]
    omega
  | x :: xs, i + 1, n, old, h => by
    simp only [List.getElem?_cons_succ] at h
    have ih := sum_map_set (f := f) xs i n old h
    simp only [List.set_cons_succ, List.map_cons, List.sum_cons]
    omega

theorem RelaxOutcome.weight {cs cs' : List PathfindingNode} {u v : Int} {p : Nat} {b : Bool}
    (h : RelaxOutcome cs u v p cs' b) :
    cacheWeight cs' + (if b = true then 1 else 0) ≤ cacheWeight cs := by
  cases h with
  | keep nu nv hu hv hno => simp
  | write nu nv hu hv hyes =>
    have hs := sum_map_set (f := nodeWeight) cs v.toNat ⟨u, (nu._cost + p) % U32⟩ nv
      (readNode_eq_some hv).2.2
    have hlt : (nu._cost + p) % U32 < U32 := Nat.mod_lt _ (by decide)
    have hu0 : u ≠ -1 := by
      have := (readNode_eq_some hu).1
      omega
    have hnew : nodeWeight ⟨u, (nu._cost + p) % U32⟩ = (nu._cost + p) % U32 := by
      simp [nodeWeight, hu0]
    have hold : nodeWeight nv = U32 ∨ (nv._from ≠ -1 ∧ nodeWeight nv = nv._cost) := by
      unfold nodeWeight; split
      · left; rfl
      · rename_i hne; right; exact ⟨hne, rfl⟩
    unfold cacheWeight
    simp only [if_true]
    rcases hold with h1 | ⟨h1, h2⟩
    · omega
    · rcases hyes with h3 | h3
      · exact absurd h3 h1
      · omega

/-! ## Folds in `Option` -/

theorem foldlM_option_total {α β : Type} (f : β → α → Option β) (P : List α → β → Prop) :
    ∀ (l pre : List α) (b : β), P pre b →
      (∀ pre' a b', a ∈ l → P pre' b' → ∃ b'', f b' a = some b'' ∧ P (pre' ++ [a]) b'') →
      ∃ b', l.foldlM f b = some b' ∧ P (pre ++ l) b'
  | [], pre, b, h0, _ => ⟨b, by simp, by simpa using h0⟩
  | a :: l, pre, b, h0, hstep => by
    obtain ⟨b1, hb1, hP1⟩ := hstep pre a b (List.mem_cons_self a l) h0
    obtain ⟨b2, hb2, hP2⟩ := foldlM_option_total f P l (pre ++ [a]) b1 hP1
      (fun pre' a' b' ha' hP' => hstep pre' a' b' (List.mem_cons_of_mem a ha') hP')
    refine ⟨b2, ?_, ?_⟩
    · simp [List.foldlM_cons, hb1, hb2]
    · simpa using hP2

theorem RelaxOutcome.read_target {cs cs' : List PathfindingNode} {u v : Int} {p : Nat}
    (h : RelaxOutcome cs u v p cs' true) :
    ∃ nu, readNode cs u = some nu ∧ readNode cs' v = some ⟨u, (nu._cost + p) % U32⟩ := by
  cases h with
  | write nu nv hu hv hyes =>
    refine ⟨nu, hu, ?_⟩
    rw [readNode_set (readNode_eq_some hv).1 (readNode_eq_some hv).2.1, if_pos rfl]

theorem RelaxOutcome.source_ne {cs cs' : List PathfindingNode} {u v : Int} {p : Nat} {b : Bool}
    (h : RelaxOutcome cs u v p cs' b) : u ≠ -1 := by
  have h0 : 0 ≤ u := by
    cases h with
    | keep nu nv hu hv hno => exact (readNode_eq_some hu).1
    | write nu nv hu hv hyes => exact (readNode_eq_some hu).1
  omega

theorem RelaxOutcome.read_cases {cs cs' : List PathfindingNode} {u v : Int} {p : Nat} {b : Bool}
    (h : RelaxOutcome cs u v p cs' b) {x : Int} {n : PathfindingNode}
    (hx : readNode cs' x = some n) :
    readNode cs x = some n ∨ (b = true ∧ x = v ∧ n._from = u) := by
  cases h with
  | keep nu nv hu hv hno => exact Or.inl hx
  | write nu nv hu hv hyes =>
    rw [readNode_set (readNode_eq_some hv).1 (readNode_eq_some hv).2.1] at hx
    split at hx
    · rename_i hxv
      right
      cases hx
      exact ⟨rfl, hxv, rfl⟩
    · exact Or.inl hx

theorem RelaxOutcome.mono {cs cs' : List PathfindingNode} {u v : Int} {p : Nat} {b : Bool}
    (h : RelaxOutcome cs u v p cs' b) {x : Int} {n : PathfindingNode}
    (hx : readNode cs x = some n) (hn : n._from ≠ -1) :
    ∃ n', readNode cs' x = some n' ∧ n'._from ≠ -1 ∧ n'._cost ≤ n._cost := by
  have hu := h.source_ne
  cases h with
  | keep nu nv hu hv hno => exact ⟨n, hx, hn, le_refl _⟩
  | write nu nv hu' hv hyes =>
    rw [readNode_set (readNode_eq_some hv).1 (readNode_eq_some hv).2.1]
    by_cases hxv : x = v
    · subst hxv
      rw [hv] at hx
      cases hx
      refine ⟨_, if_pos rfl, hu, ?_⟩
      rcases hyes with h1 | h1
      · exact absurd h1 hn
      · exact le_of_lt h1
    · exact ⟨n, by rw [if_neg hxv]; exact hx, hn, le_refl _⟩

theorem RelaxOutcome.relaxed {cs cs' : List PathfindingNode} {u v : Int} {p : Nat} {b : Bool}
    (h : RelaxOutcome cs u v p cs' b) (huv : v ≠ u) :
    ∃ nu nv, readNode cs' u = some nu ∧ readNode cs u = some nu ∧ readNode cs' v = some nv ∧
      nv._from ≠ -1 ∧ nv._cost ≤ (nu._cost + p) % U32 := by
  have hu := h.source_ne
  cases h with
  | keep nu nv hu' hv hno =>
    refine ⟨nu, nv, hu', hu', hv, ?_, ?_⟩
    · exact fun e => hno (Or.inl e)
    · exact Nat.le_of_not_lt (fun e => hno (Or.inr e))
  | write nu nv hu' hv hyes =>
    refine ⟨nu, ⟨u, (nu._cost + p) % U32⟩, ?_, hu', ?_, hu, le_refl _⟩
    · rw [readNode_set (readNode_eq_some hv).1 (readNode_eq_some hv).2.1, if_neg (Ne.symm huv)]
      exact hu'
    · rw [readNode_set (readNode_eq_some hv).1 (readNode_eq_some hv).2.1, if_pos rfl]

theorem EdgeRelaxed.preserved {W : World} {skill : Nat} {cs cs' : List PathfindingNode} {u v : Int}
    {p : Nat} {b : Bool} {x : Int} {d : Direction}
    (h : RelaxOutcome cs u v p cs' b) (hx : readNode cs' x = readNode cs x)
    (he : EdgeRelaxed W skill cs x d) : EdgeRelaxed W skill cs' x d := by
  obtain ⟨nu, nv, h1, h2, h3, h4⟩ := he
  obtain ⟨n', h5, h6, h7⟩ := h.mono h2 h3
  exact ⟨nu, n', by rw [hx]; exact h1, h5, h6, le_trans h7 h4⟩

/-! ## The loop of `evaluateMap`: termination and invariants

`evaluateLoop_spec` is the induction principle of the loop. It shows that the
loop always returns (within `cacheWeight cs + q.length` iterations), and
carries an invariant `Q` of the cache and of the entries of `nodesToExplore`
from the one being processed on: `Q` has to be kept by every relaxation and
when the processed entry is dropped, at which point every valid move of an
expanded tile is relaxed. -/

theorem exploreNode_spec {W : World} (start : Int) (skill : Nat) (fromWater : Bool)
    (hprot : W.protectionInRange) (Q : List PathfindingNode → List Int → Prop)
    (hmon : ∀ c cur pend m c' b, c.length = W.w * W.h → W.inRange cur → Q c (cur :: pend) →
      m ∈ W.GetTilesUnderProtection cur →
      (Direction.Get W cur m ≠ .UNKNOWN ∧ Direction.Get W cur m ≠ .CENTER ∧
        W.isValidPath cur (Direction.Get W cur m) = true) →
      RelaxOutcome c cur m (Pathfinder.getMovementPenalty W cur m (Direction.Get W cur m) skill)
        c' b → Q c' (cur :: pend))
    (hdir : ∀ c cur pend d c' b, c.length = W.w * W.h → W.inRange cur → Q c (cur :: pend) →
      W.GetTilesUnderProtection cur = [] →
      (cur = start ∨ W.isTileBlocked cur fromWater = false) →
      Maps.isValidDirection W cur d = true → W.isValidPath cur d = true →
      RelaxOutcome c cur (Maps.GetDirectionIndex W cur d)
        (Pathfinder.getMovementPenalty W cur (Maps.GetDirectionIndex W cur d) d skill) c' b →
      Q c' (cur :: (if b = true then pend ++ [Maps.GetDirectionIndex W cur d] else pend)))
    (hpop : ∀ c cur pend, c.length = W.w * W.h → W.inRange cur → Q c (cur :: pend) →
      (W.GetTilesUnderProtection cur = [] →
        (cur = start ∨ W.isTileBlocked cur fromWater = false) →
        ∀ d, Maps.isValidDirection W cur d = true → W.isValidPath cur d = true →
          EdgeRelaxed W skill c cur d) →
      Q c pend)
    {cs : List PathfindingNode} {pending : List Int} {cur : Int}
    (hlen : cs.length = W.w * W.h) (hcur : W.inRange cur)
    (hq : ∀ v ∈ pending, W.inRange v) (hQ : Q cs (cur :: pending)) :
    ∃ cs' q', exploreNode W start skill fromWater cs pending cur = some (cs', q') ∧
      cs'.length = W.w * W.h ∧ (∀ v ∈ q', W.inRange v) ∧
      cacheWeight cs' + q'.length ≤ cacheWeight cs + pending.length ∧ Q cs' q' := by
  have hcur1 : cur < (cs.length : Int) := by rw [hlen]; exact hcur.2
  obtain ⟨nu, hnu⟩ := readNode_of_range hcur.1 hcur1
  by_cases hmons : W.GetTilesUnderProtection cur ≠ []
  · obtain ⟨cs', hf, hP⟩ := foldlM_option_total (relaxMonster W skill cur)
      (fun _ c => c.length = W.w * W.h ∧ cacheWeight c ≤ cacheWeight cs ∧ Q c (cur :: pending))
      (W.GetTilesUnderProtection cur) [] cs ⟨hlen, le_refl _, hQ⟩
      (by
        intro _ m c hm hc
        rcases relaxMonster_eq skill hc.1 hcur (hprot cur m hm) with ⟨hvp, c', b, ho, he⟩ | he
        · refine ⟨c', he, by rw [ho.length_eq]; exact hc.1, ?_, ?_⟩
          · have := ho.weight
            omega
          · exact hmon c cur pending m c' b hc.1 hcur hc.2.2 hm hvp ho
        · exact ⟨c, he, hc⟩)
    refine ⟨cs', pending, ?_, hP.1, hq, by omega, ?_⟩
    · simp [exploreNode, hnu, hmons, hf]
    · exact hpop cs' cur pending hP.1 hcur hP.2.2 (fun h0 => absurd h0 hmons)
  · have hmons' : W.GetTilesUnderProtection cur = [] := not_not.mp hmons
    by_cases hexp : cur = start ∨ W.isTileBlocked cur fromWater = false
    · obtain ⟨st', hf, hP⟩ := foldlM_option_total (relaxDirection W skill cur)
        (fun pre st => st.1.length = W.w * W.h ∧ (∀ v ∈ st.2, W.inRange v) ∧
          cacheWeight st.1 + st.2.length ≤ cacheWeight cs + pending.length ∧
          Q st.1 (cur :: st.2) ∧
          ∀ d ∈ pre, Maps.isValidDirection W cur d = true → W.isValidPath cur d = true →
            EdgeRelaxed W skill st.1 cur d)
        Direction.All [] (cs, pending) ⟨hlen, hq, le_refl _, hQ, by simp⟩
        (by
          intro pre d st _ hst
          rcases relaxDirection_eq skill st d hst.1 hcur with ⟨hd, hvp, c', b, ho, he⟩ | ⟨hno, he⟩
          · obtain ⟨hv0, hv1, hvne⟩ := validDirection_range hd hcur.1 hcur.2
            have hsame : readNode c' cur = readNode st.1 cur := ho.read_other (Ne.symm hvne)
            refine ⟨_, he, by rw [ho.length_eq]; exact hst.1, ?_, ?_, ?_, ?_⟩
            · intro v hv
              cases b
              · exact hst.2.1 v (by simpa using hv)
              · simp only [if_true, List.mem_append, List.mem_singleton] at hv
                rcases hv with hv | hv
                · exact hst.2.1 v hv
                · subst hv
                  exact ⟨hv0, hv1⟩
            · have := ho.weight
              have := hst.2.2.1
              cases b <;> simp at * <;> omega
            · exact hdir st.1 cur st.2 d c' b hst.1 hcur hst.2.2.2.1 hmons' hexp hd hvp ho
            · intro d' hd' hvd' hvp'
              rcases List.mem_append.mp hd' with hin | hin
              · exact EdgeRelaxed.preserved ho hsame (hst.2.2.2.2 d' hin hvd' hvp')
              · rw [List.mem_singleton.mp hin]
                obtain ⟨n1, n2, h1, _, h3, h4, h5⟩ := ho.relaxed hvne
                exact ⟨n1, n2, h1, h3, h4, h5⟩
          · refine ⟨st, he, hst.1, hst.2.1, hst.2.2.1, hst.2.2.2.1, ?_⟩
            intro d' hd' hvd' hvp'
            rcases List.mem_append.mp hd' with hin | hin
            · exact hst.2.2.2.2 d' hin hvd' hvp'
            · rw [List.mem_singleton.mp hin] at hvd' hvp'
              exact absurd ⟨hvd', hvp'⟩ hno)
      refine ⟨st'.1, st'.2, ?_, hP.1, hP.2.1, hP.2.2.1, ?_⟩
      · simp [exploreNode, hnu, hmons, hexp, hf]
      · exact hpop st'.1 cur st'.2 hP.1 hcur hP.2.2.2.1
          (fun _ _ d hd hvp => hP.2.2.2.2 d (by simpa using validDirection_mem_All hd) hd hvp)
    · refine ⟨cs, pending, ?_, hlen, hq, le_refl _, ?_⟩
      · simp [exploreNode, hnu, hmons, hexp]
      · exact hpop cs cur pending hlen hcur hQ (fun _ h => absurd h hexp)

theorem evaluateLoop_spec {W : World} (start : Int) (skill : Nat) (fromWater : Bool)
    (hprot : W.protectionInRange) (Q : List PathfindingNode → List Int → Prop)
    (hmon : ∀ c cur pend m c' b, c.length = W.w * W.h → W.inRange cur → Q c (cur :: pend) →
      m ∈ W.GetTilesUnderProtection cur →
      (Direction.Get W cur m ≠ .UNKNOWN ∧ Direction.Get W cur m ≠ .CENTER ∧
        W.isValidPath cur (Direction.Get W cur m) = true) →
      RelaxOutcome c cur m (Pathfinder.getMovementPenalty W cur m (Direction.Get W cur m) skill)
        c' b → Q c' (cur :: pend))
    (hdir : ∀ c cur pend d c' b, c.length = W.w * W.h → W.inRange cur → Q c (cur :: pend) →
      W.GetTilesUnderProtection cur = [] →
      (cur = start ∨ W.isTileBlocked cur fromWater = false) →
      Maps.isValidDirection W cur d = true → W.isValidPath cur d = true →
      RelaxOutcome c cur (Maps.GetDirectionIndex W cur d)
        (Pathfinder.getMovementPenalty W cur (Maps.GetDirectionIndex W cur d) d skill) c' b →
      Q c' (cur :: (if b = true then pend ++ [Maps.GetDirectionIndex W cur d] else pend)))
    (hpop : ∀ c cur pend, c.length = W.w * W.h → W.inRange cur → Q c (cur :: pend) →
      (W.GetTilesUnderProtection cur = [] →
        (cur = start ∨ W.isTileBlocked cur fromWater = false) →
        ∀ d, Maps.isValidDirection W cur d = true → W.isValidPath cur d = true →
          EdgeRelaxed W skill c cur d) →
      Q c pend) :
    ∀ (fuel : Nat) (cs : List PathfindingNode) (q : List Int), cs.length = W.w * W.h →
      (∀ v ∈ q, W.inRange v) → cacheWeight cs + q.length ≤ fuel → Q cs q →
      ∃ cs', evaluateLoop W start skill fromWater fuel cs q = some cs' ∧
        cs'.length = W.w * W.h ∧ Q cs' []
  | fuel, cs, [], hlen, _, _, hQ => ⟨cs, by cases fuel <;> simp [evaluateLoop], hlen, hQ⟩
  | 0, cs, cur :: rest, _, _, hfuel, _ => by simp at hfuel
  | fuel + 1, cs, cur :: rest, hlen, hq, hfuel, hQ => by
    obtain ⟨cs', q', he, hlen', hq', hw, hQ'⟩ := exploreNode_spec start skill fromWater hprot Q
      hmon hdir hpop hlen (hq cur (List.mem_cons_self _ _))
      (fun v hv => hq v (List.mem_cons_of_mem _ hv)) hQ
    have hfuel' : cacheWeight cs' + q'.length ≤ fuel := by
      simp only [List.length_cons] at hfuel
      omega
    obtain ⟨r, hr, hr'⟩ := evaluateLoop_spec start skill fromWater hprot Q hmon hdir hpop fuel
      cs' q' hlen' hq' hfuel' hQ'
    exact ⟨r, by simp [evaluateLoop, he, hr], hr'⟩

theorem cacheWeight_unreached :
    ∀ (cs : List PathfindingNode), (∀ n ∈ cs, n._from = -1) → cacheWeight cs = cs.length * U32
  | [], _ => by simp [cacheWeight]
  | n :: cs, h => by
    have ih := cacheWeight_unreached cs (fun m hm => h m (List.mem_cons_of_mem _ hm))
    have hn : nodeWeight n = U32 := by simp [nodeWeight, h n (List.mem_cons_self _ _)]
    unfold cacheWeight at ih ⊢
    simp only [List.map_cons, List.sum_cons, List.length_cons, hn, ih]
    ring

theorem initialCache_eq {W : World} {start : Int} (hstart : W.inRange start) :
    initialCache W start
      = some ((List.replicate (W.w * W.h) W.defaultNode).set start.toNat ⟨-1, 0⟩) := by
  unfold initialCache
  exact writeNode_of_range _ hstart.1 (by simpa using hstart.2)

theorem initialCache_weight {W : World} {start : Int} :
    cacheWeight ((List.replicate (W.w * W.h) W.defaultNode).set start.toNat ⟨-1, 0⟩)
      = W.w * W.h * U32 := by
  rw [cacheWeight_unreached]
  · simp
  · intro n hn
    rcases List.mem_or_eq_of_mem_set hn with h | h
    · rw [(List.mem_replicate.mp h).2]; rfl
    · rw [h]

theorem initialCache_read {W : World} {start : Int} (hstart : W.inRange start) (v : Int) :
    readNode ((List.replicate (W.w * W.h) W.defaultNode).set start.toNat ⟨-1, 0⟩) v
      = if v = start then some ⟨-1, 0⟩
        else if W.inRange v then some W.defaultNode else none := by
  have h1 : start.toNat < (List.replicate (W.w * W.h) W.defaultNode).length := by
    have := hstart.1; have := hstart.2
    simp only [List.length_replicate]; omega
  rw [readNode_set hstart.1 h1]
  by_cases hv : v = start
  · simp [hv]
  · simp only [hv, if_false]
    unfold readNode World.inRange
    by_cases h0 : 0 ≤ v
    · by_cases h2 : v < ((W.w * W.h : Nat) : Int)
      · have h3 : v.toNat < W.w * W.h := by omega
        have h2' := h2
        push_cast at h2'
        simp [h0, h2', List.getElem?_replicate, h3]
      · have h3 : ¬ v.toNat < W.w * W.h := by omega
        have h2' := h2
        push_cast at h2'
        simp [h0, h2', List.getElem?_replicate, h3]
    · simp [h0]

theorem initialCache_unreached {W : World} {start : Int} (hstart : W.inRange start) {v : Int}
    {n : PathfindingNode}
    (h : readNode ((List.replicate (W.w * W.h) W.defaultNode).set start.toNat ⟨-1, 0⟩) v = some n) :
    n._from = -1 := by
  rw [initialCache_read hstart] at h
  split at h
  · cases h; rfl
  · split at h
    · cases h; rfl
    · cases h

theorem evaluateMap_spec {W : World} {start : Int} (skill : Nat)
    (hprot : W.protectionInRange) (hstart : W.inRange start)
    (Q : List PathfindingNode → List Int → Prop)
    (hmon : ∀ c cur pend m c' b, c.length = W.w * W.h → W.inRange cur → Q c (cur :: pend) →
      m ∈ W.GetTilesUnderProtection cur →
      (Direction.Get W cur m ≠ .UNKNOWN ∧ Direction.Get W cur m ≠ .CENTER ∧
        W.isValidPath cur (Direction.Get W cur m) = true) →
      RelaxOutcome c cur m (Pathfinder.getMovementPenalty W cur m (Direction.Get W cur m) skill)
        c' b → Q c' (cur :: pend))
    (hdir : ∀ c cur pend d c' b, c.length = W.w * W.h → W.inRange cur → Q c (cur :: pend) →
      W.GetTilesUnderProtection cur = [] →
      (cur = start ∨ W.isTileBlocked cur (W.isWater start) = false) →
      Maps.isValidDirection W cur d = true → W.isValidPath cur d = true →
      RelaxOutcome c cur (Maps.GetDirectionIndex W cur d)
        (Pathfinder.getMovementPenalty W cur (Maps.GetDirectionIndex W cur d) d skill) c' b →
      Q c' (cur :: (if b = true then pend ++ [Maps.GetDirectionIndex W cur d] else pend)))
    (hpop : ∀ c cur pend, c.length = W.w * W.h → W.inRange cur → Q c (cur :: pend) →
      (W.GetTilesUnderProtection cur = [] →
        (cur = start ∨ W.isTileBlocked cur (W.isWater start) = false) →
        ∀ d, Maps.isValidDirection W cur d = true → W.isValidPath cur d = true →
          EdgeRelaxed W skill c cur d) →
      Q c pend)
    (hinit : Q ((List.replicate (W.w * W.h) W.defaultNode).set start.toNat ⟨-1, 0⟩) [start]) :
    ∃ pf, Pathfinder.evaluateMap W start skill = some pf ∧ pf._cache.length = W.w * W.h ∧
      pf._pathStart = start ∧ pf._pathfindingSkill = skill ∧ Q pf._cache [] := by
  obtain ⟨cs', h, hlen, hQ⟩ := evaluateLoop_spec start skill (W.isWater start) hprot Q hmon hdir
    hpop (iterationBound W)
    ((List.replicate (W.w * W.h) W.defaultNode).set start.toNat ⟨-1, 0⟩) [start]
    (by simp) (by intro v hv; rw [List.mem_singleton.mp hv]; exact hstart)
    (by rw [initialCache_weight]; simp [iterationBound]) hinit
  exact ⟨⟨cs', start, skill⟩, by simp [Pathfinder.evaluateMap, initialCache_eq hstart, h],
    hlen, rfl, rfl, hQ⟩

theorem evaluateMap_total {W : World} {start : Int} (skill : Nat)
    (hprot : W.protectionInRange) (hstart : W.inRange start) :
    ∃ pf, Pathfinder.evaluateMap W start skill = some pf :=
  let ⟨pf, h, _⟩ := evaluateMap_spec skill hprot hstart (fun _ _ => True)
    (fun _ _ _ _ _ _ _ _ _ _ _ _ => trivial) (fun _ _ _ _ _ _ _ _ _ _ _ _ _ _ => trivial)
    (fun _ _ _ _ _ _ _ => trivial) trivial
  ⟨pf, h⟩

/-! ## The skill only matters through the terrain penalty -/

theorem getMovementPenalty_congr {W : World} {s1 s2 : Nat}
    (h : ∀ i, W.GetPenalty i s1 = W.GetPenalty i s2) (u v : Int) (d : Direction) :
    Pathfinder.getMovementPenalty W u v d s1 = Pathfinder.getMovementPenalty W u v d s2 := by
  simp only [Pathfinder.getMovementPenalty, h]

theorem evaluateLoop_congr {W : World} {s1 s2 : Nat}
    (h : ∀ i, W.GetPenalty i s1 = W.GetPenalty i s2) (start : Int) (fromWater : Bool) :
    ∀ (fuel : Nat) (cs : List PathfindingNode) (q : List Int),
      evaluateLoop W start s1 fromWater fuel cs q = evaluateLoop W start s2 fromWater fuel cs q := by
  have hd : relaxDirection W s1 = relaxDirection W s2 := by
    funext u st d
    simp only [relaxDirection, getMovementPenalty_congr h]
  have hm : relaxMonster W s1 = relaxMonster W s2 := by
    funext u cs m
    simp only [relaxMonster, getMovementPenalty_congr h]
  have he : exploreNode W start s1 fromWater = exploreNode W start s2 fromWater := by
    funext cs q u
    simp only [exploreNode, hd, hm]
  intro fuel
  induction fuel with
  | zero => intro cs q; cases q <;> rfl
  | succ n ih =>
    intro cs q
    cases q with
    | nil => rfl
    | cons u rest =>
      simp only [evaluateLoop, he]
      cases exploreNode W start s2 fromWater cs rest u with
      | none => rfl
      | some r => exact ih r.1 r.2

theorem evaluateMap_cache_congr (W : World) (s1 s2 : Nat)
    (h : ∀ i, W.GetPenalty i s1 = W.GetPenalty i s2) (start : Int) :
    (Pathfinder.evaluateMap W start s1).map (·._cache)
      = (Pathfinder.evaluateMap W start s2).map (·._cache) := by
  unfold Pathfinder.evaluateMap
  cases initialCache W start with
  | none => rfl
  | some cs0 =>
    simp only [evaluateLoop_congr h]
    cases evaluateLoop W start s2 (W.isWater start) (iterationBound W) cs0 [start] <;> rfl

theorem getDistance_reset {W : World} (fromIdx target : Int) (skill : Nat)
    (h : fromIdx ≠ -1) :
    (Pathfinder.getDistance W Pathfinder.reset fromIdx target skill).map (·.1)
      = ((Pathfinder.evaluateMap W fromIdx skill).map (·._cache)).bind
          (fun cs => (readNode cs target).map (·._cost)) := by
  have hne : (-1 : Int) ≠ fromIdx := fun e => h e.symm
  simp only [Pathfinder.getDistance, Pathfinder.reEvaluateIfNeeded, Pathfinder.reset, ne_eq, hne,
    not_false_eq_true, true_or, if_true]
  cases Pathfinder.evaluateMap W fromIdx skill with
  | none => rfl
  | some pf =>
    simp only [Option.map_some', Option.some_bind]
    cases readNode pf._cache target <;> rfl

/-! ## Movement penalty and move validity -/

/-- C7 (counterexample): with terrain penalty 125 the diagonal penalty is 187,
while 1.5 * 125 = 187.5 rounds to 188. -/
theorem getMovementPenalty_diagonal_not_round :
    ((Pathfinder.getMovementPenalty (uniformLand 2 2 125) 0 3 .BOTTOM_RIGHT 0 : Nat) : Int)
      ≠ round ((3 / 2 : ℚ)
          * ((Pathfinder.getMovementPenalty (uniformLand 2 2 125) 0 3 .BOTTOM 0 : Nat) : ℚ)) := by
  have h1 : Pathfinder.getMovementPenalty (uniformLand 2 2 125) 0 3 .BOTTOM_RIGHT 0 = 187 := by
    decide
  have h2 : Pathfinder.getMovementPenalty (uniformLand 2 2 125) 0 3 .BOTTOM 0 = 125 := by
    decide
  have h3 : round ((3 / 2 : ℚ) * ((125 : Nat) : ℚ)) = 188 := by
    rw [round_eq, Int.floor_eq_iff]
    norm_num
  rw [h1, h2, h3]
  decide

/-- C7 (amended): for a diagonal direction `getMovementPenalty` returns the
penalty `p` of a straight direction times three, reduced modulo `2 ^ 32`, and
halved with the remainder dropped: 1.5 * p rounded down, not to the nearest
integer. -/
theorem getMovementPenalty_diagonal (W : World) (fromIdx target : Int) (d s : Direction)
    (skill : Nat) (hd : d.isDiagonal = true) (hs : s.isDiagonal = false) :
    Pathfinder.getMovementPenalty W fromIdx target d skill
      = Pathfinder.getMovementPenalty W fromIdx target s skill * 3 % U32 / 2 := by
  simp [Pathfinder.getMovementPenalty, hd, hs]

theorem getMovementPenalty_diagonal_witness :
    Pathfinder.getMovementPenalty (uniformLand 2 2 125) 0 3 .BOTTOM_RIGHT 0
      = Pathfinder.getMovementPenalty (uniformLand 2 2 125) 0 3 .BOTTOM 0 * 3 % U32 / 2 :=
  getMovementPenalty_diagonal (uniformLand 2 2 125) 0 3 .BOTTOM_RIGHT .BOTTOM 0 rfl rfl

/-- C9 (counterexample): on `coastCorner` the diagonal move from the water tile
3 to the land tile 0 is not valid (the tile above 3 is land), while the move
back from 0 to 3 is valid. -/
theorem isValidPath_not_symmetric :
    Maps.GetDirectionIndex coastCorner 3 .TOP_LEFT = 0 ∧
      coastCorner.isValidPath 3 .TOP_LEFT
        ≠ coastCorner.isValidPath 0 (Direction.Reflect .TOP_LEFT) := by
  decide

/-- C9 (amended): for a tile `a` and its neighbour `b` in one of the eight
directions `d`, when `a` and `b` have the same water flag,
`isValidPath(a, d) = isValidPath(b, Reflect(d))`. -/
theorem isValidPath_symmetric (W : World) (a : Int) (d : Direction) (hd : d ∈ Direction.All)
    (hw : W.isWater a = W.isWater (Maps.GetDirectionIndex W a d)) :
    W.isValidPath a d = W.isValidPath (Maps.GetDirectionIndex W a d) d.Reflect := by
  have e1 : ∀ x y : Int, x - y - 1 + y = x - 1 := fun x y => by ring
  have e2 : ∀ x y : Int, x - y - 1 + 1 = x - y := fun x y => by ring
  have e3 : ∀ x y : Int, x - y + y = x := fun x y => by ring
  have e4 : ∀ x y : Int, x - y + 1 + y - 1 = x := fun x y => by ring
  have e5 : ∀ x y : Int, x - y + 1 + y = x + 1 := fun x y => by ring
  have e6 : ∀ x y : Int, x - y + 1 - 1 = x - y := fun x y => by ring
  have e7 : ∀ x : Int, x + 1 - 1 = x := fun x => by ring
  have e8 : ∀ x y : Int, x + y + 1 - y - 1 = x := fun x y => by ring
  have e9 : ∀ x y : Int, x + y + 1 - y = x + 1 := fun x y => by ring
  have e10 : ∀ x y : Int, x + y + 1 - 1 = x + y := fun x y => by ring
  have e11 : ∀ x y : Int, x + y - y = x := fun x y => by ring
  have e12 : ∀ x y : Int, x + y - 1 - y + 1 = x := fun x y => by ring
  have e13 : ∀ x y : Int, x + y - 1 - y = x - 1 := fun x y => by ring
  have e14 : ∀ x y : Int, x + y - 1 + 1 = x + y := fun x y => by ring
  have e15 : ∀ x : Int, x - 1 + 1 = x := fun x => by ring
  cases d <;> simp [Direction.All] at hd <;>
    simp only [World.isValidPath, World.cornerBlocked, Maps.GetDirectionIndex,
      Direction.Reflect, e1, e2, e3, e4, e5, e6, e7, e8, e9, e10, e11, e12, e13, e14, e15] at hw ⊢ <;>
    rw [← hw] <;>
    cases W.isWater a <;> simp [Bool.and_comm, Bool.or_comm]

theorem isValidPath_symmetric_witness :
    (uniformLand 2 2 100).isValidPath 3 .TOP_LEFT
      = (uniformLand 2 2 100).isValidPath (Maps.GetDirectionIndex (uniformLand 2 2 100) 3 .TOP_LEFT)
          (Direction.Reflect .TOP_LEFT) :=
  isValidPath_symmetric (uniformLand 2 2 100) 3 .TOP_LEFT (by decide) (by decide)

/-! ## `isBlockedByObject` -/

theorem chainNode_add (cache : List PathfindingNode) :
    ∀ (i m : Nat) (t : Int),
      chainNode cache (i + m) t = (chainNode cache i t).bind (chainNode cache m)
  | 0, m, t => by simp [chainNode]
  | i + 1, m, t => by
    have e : i + 1 + m = (i + m) + 1 := by omega
    rw [e]
    simp only [chainNode]
    cases readNode cache t with
    | none => rfl
    | some node => exact chainNode_add cache i m node._from

theorem chainNode_prev {cache : List PathfindingNode} :
    ∀ (j : Nat) (t x : Int), chainNode cache (j + 1) t = some x →
      ∃ y, chainNode cache j t = some y ∧ 0 ≤ y ∧ y.toNat < cache.length := by
  intro j t x h
  rw [chainNode_add cache j 1 t] at h
  cases hy : chainNode cache j t with
  | none => rw [hy] at h; cases h
  | some y =>
    rw [hy] at h
    simp only [Option.some_bind, chainNode] at h
    cases hr : readNode cache y with
    | none => rw [hr] at h; cases h
    | some node => exact ⟨y, rfl, (readNode_eq_some hr).1, (readNode_eq_some hr).2.1⟩

theorem chainNode_defined {cache : List PathfindingNode} {t : Int} :
    ∀ (n j : Nat) (e : Int), chainNode cache n t = some e → j < n →
      ∃ y, chainNode cache j t = some y ∧ 0 ≤ y ∧ y.toNat < cache.length
  | 0, j, e, _, hj => by omega
  | n + 1, j, e, h, hj => by
    obtain ⟨y, hy, hy0, hy1⟩ := chainNode_prev n t e h
    rcases Nat.lt_succ_iff_lt_or_eq.mp hj with hlt | heq
    · exact chainNode_defined n j y hy hlt
    · subst heq; exact ⟨y, hy, hy0, hy1⟩

theorem chain_length_le {cache : List PathfindingNode} {fromIdx target : Int} {n : Nat} {e : Int}
    (hend : chainNode cache n target = some e) (he : e = fromIdx ∨ e = -1)
    (hbefore : ∀ j < n, ∀ t, chainNode cache j target = some t → t ≠ fromIdx ∧ t ≠ -1) :
    n ≤ cache.length := by
  classical
  let f : Nat → Nat := fun j => ((chainNode cache j target).getD 0).toNat
  have hmaps : ∀ j ∈ Finset.range n, f j ∈ Finset.range cache.length := by
    intro j hj
    obtain ⟨y, hy, _, hy1⟩ := chainNode_defined n j e hend (Finset.mem_range.mp hj)
    simp only [f, hy, Option.getD_some, Finset.mem_range]
    exact hy1
  have hinj : Set.InjOn f (Finset.range n : Set Nat) := by
    intro i hi j hj hij
    have hi' : i < n := Finset.mem_range.mp hi
    have hj' : j < n := Finset.mem_range.mp hj
    obtain ⟨x, hx, hx0, _⟩ := chainNode_defined n i e hend hi'
    obtain ⟨y, hy, hy0, _⟩ := chainNode_defined n j e hend hj'
    simp only [f, hx, hy, Option.getD_some] at hij
    have hxy : x = y := by omega
    subst hxy
    by_contra hne
    rcases Nat.lt_or_gt_of_ne hne with hlt | hgt
    · have h1 : chainNode cache (i + (n - j)) target = some e := by
        rw [chainNode_add, hx, ← hy, ← chainNode_add]
        have : j + (n - j) = n := by omega
        rw [this]; exact hend
      have := hbefore (i + (n - j)) (by omega) e h1
      rcases he with he | he
      · exact this.1 he
      · exact this.2 he
    · have h1 : chainNode cache (j + (n - i)) target = some e := by
        rw [chainNode_add, hy, ← hx, ← chainNode_add]
        have : i + (n - i) = n := by omega
        rw [this]; exact hend
      have := hbefore (j + (n - i)) (by omega) e h1
      rcases he with he | he
      · exact this.1 he
      · exact this.2 he
  have := Finset.card_le_card_of_injOn f hmaps hinj
  simpa using this

theorem isBlockedByObjectLoop_spec (W : World) (cache : List PathfindingNode) (fromIdx : Int)
    (fromWater : Bool) :
    ∀ (n fuel : Nat) (target e : Int), n < fuel → chainNode cache n target = some e →
      (e = fromIdx ∨ e = -1) →
      (∀ j < n, ∀ t, chainNode cache j target = some t → t ≠ fromIdx ∧ t ≠ -1) →
      ∃ b, isBlockedByObjectLoop W cache fromIdx fromWater fuel target = some b ∧
        (b = true ↔ ∃ j < n, ∃ t, chainNode cache j target = some t ∧
          W.isTileBlocked t fromWater = true)
  | 0, fuel + 1, target, e, _, hend, he, _ => by
    simp only [chainNode, Option.some.injEq] at hend
    subst hend
    have hstop : ¬ (target ≠ fromIdx ∧ target ≠ -1) := by
      rcases he with h | h <;> simp [h]
    exact ⟨false, by simp only [isBlockedByObjectLoop, hstop, if_false], by simp⟩
  | n + 1, fuel + 1, target, e, hf, hend, he, hbefore => by
    have hgo : target ≠ fromIdx ∧ target ≠ -1 := hbefore 0 (by omega) target rfl
    by_cases hb : W.isTileBlocked target fromWater = true
    · refine ⟨true, by simp only [isBlockedByObjectLoop]; rw [if_pos hgo, if_pos hb], ?_⟩
      simp only [true_iff]
      exact ⟨0, by omega, target, rfl, hb⟩
    · simp only [chainNode] at hend
      cases hr : readNode cache target with
      | none => rw [hr] at hend; cases hend
      | some node =>
        rw [hr] at hend
        have hshift : ∀ j t, chainNode cache (j + 1) target = some t ↔
            chainNode cache j node._from = some t := by
          intro j t; simp only [chainNode, hr]
        obtain ⟨b, hb1, hb2⟩ := isBlockedByObjectLoop_spec W cache fromIdx fromWater n fuel
          node._from e (by omega) hend he
          (fun j hj t ht => hbefore (j + 1) (by omega) t ((hshift j t).mpr ht))
        refine ⟨b, by simp only [isBlockedByObjectLoop, hr]; rw [if_pos hgo, if_neg hb]; exact hb1,
          ?_⟩
        rw [hb2]
        constructor
        · rintro ⟨j, hj, t, ht, hbt⟩
          exact ⟨j + 1, by omega, t, (hshift j t).mpr ht, hbt⟩
        · rintro ⟨j, hj, t, ht, hbt⟩
          cases j with
          | zero =>
            simp only [chainNode, Option.some.injEq] at ht
            subst ht
            exact absurd hbt hb
          | succ j => exact ⟨j, by omega, t, (hshift j t).mp ht, hbt⟩

/-- C10 (counterexample): on `monsterMap`, after `evaluateMap` from tile 0 the
predecessor of tile 1 is the source 0, so no tile lies strictly between them;
`isBlockedByObject( 0, 1, false )` is `true` all the same, because of the
monster on the target tile 1. -/
theorem isBlockedByObject_counts_target :
    ∃ pf, Pathfinder.evaluateMap monsterMap 0 0 = some pf ∧
      readNode pf._cache 1 = some ⟨0, 100⟩ ∧
      Pathfinder.isBlockedByObject monsterMap pf 0 1 false = some true :=
  ⟨⟨[⟨-1, 0⟩, ⟨0, 100⟩], 0, 0⟩, by decide, by decide, by decide⟩

/-- C10 (amended): when the predecessor chain of `target` reaches `from` or
`-1` after `n` steps, `isBlockedByObject( from, target, fromWater )` returns,
and it returns `true` exactly when one of the `n` tiles of the chain before
that point, the target itself included and the source excluded, satisfies
`isTileBlocked( tile, fromWater )`. -/
theorem isBlockedByObject_spec (W : World) (pf : Pathfinder) (fromIdx target : Int)
    (fromWater : Bool) (n : Nat) (e : Int)
    (hend : chainNode pf._cache n target = some e) (he : e = fromIdx ∨ e = -1)
    (hbefore : ∀ j < n, ∀ t, chainNode pf._cache j target = some t → t ≠ fromIdx ∧ t ≠ -1) :
    ∃ b, Pathfinder.isBlockedByObject W pf fromIdx target fromWater = some b ∧
      (b = true ↔ ∃ j < n, ∃ t, chainNode pf._cache j target = some t ∧
        W.isTileBlocked t fromWater = true) := by
  have hn := chain_length_le hend he hbefore
  exact isBlockedByObjectLoop_spec W pf._cache fromIdx fromWater n (pf._cache.length + 2) target e
    (by omega) hend he hbefore

theorem isBlockedByObject_spec_witness :
    ∃ b, Pathfinder.isBlockedByObject monsterMap ⟨[⟨-1, 0⟩, ⟨0, 100⟩], 0, 0⟩ 0 1 false = some b ∧
      (b = true ↔ ∃ j < 1, ∃ t, chainNode [⟨-1, 0⟩, ⟨0, 100⟩] j 1 = some t ∧
        monsterMap.isTileBlocked t false = true) :=
  isBlockedByObject_spec monsterMap ⟨[⟨-1, 0⟩, ⟨0, 100⟩], 0, 0⟩ 0 1 false 1 0 (by decide)
    (by decide) (by
      intro j hj t ht
      have hj0 : j = 0 := by omega
      subst hj0
      simp only [chainNode, Option.some.injEq] at ht
      subst ht
      decide)

/-! ## Guarded tiles -/

/-- C6: `evaluateMap` returns, and afterwards a tile whose recorded predecessor
is a guarded tile `u` (one with a non-empty `GetTilesUnderProtection`) is one
of the monster tiles protecting `u`; when the source itself is guarded, every
tile of the map other than the source and its protecting monster tiles keeps
the default node. -/
theorem evaluateMap_guard_short_circuit (W : World) (start : Int) (skill : Nat)
    (hprot : W.protectionInRange) (hstart : W.inRange start) :
    ∃ pf, Pathfinder.evaluateMap W start skill = some pf ∧
      (∀ v node, readNode pf._cache v = some node → node._from ≠ -1 →
        W.GetTilesUnderProtection node._from ≠ [] →
        v ∈ W.GetTilesUnderProtection node._from) ∧
      (W.GetTilesUnderProtection start ≠ [] →
        ∀ v, W.inRange v → v ≠ start → v ∉ W.GetTilesUnderProtection start →
          readNode pf._cache v = some W.defaultNode) := by
  obtain ⟨pf, h, _, _, _, hQ1, hQ2⟩ := evaluateMap_spec skill hprot hstart
    (fun c q =>
      (∀ v node, readNode c v = some node → node._from ≠ -1 →
        W.GetTilesUnderProtection node._from ≠ [] →
        v ∈ W.GetTilesUnderProtection node._from) ∧
      (W.GetTilesUnderProtection start ≠ [] →
        (∀ u ∈ q, u = start) ∧
        ∀ v, v ≠ start → v ∉ W.GetTilesUnderProtection start →
          readNode c v
            = readNode ((List.replicate (W.w * W.h) W.defaultNode).set start.toNat ⟨-1, 0⟩) v))
    (by
      intro c cur pend m c' b _ _ hQ hm _ ho
      refine ⟨?_, ?_⟩
      · intro v node hv hn hg
        rcases ho.read_cases hv with h1 | ⟨_, h2, h3⟩
        · exact hQ.1 v node h1 hn hg
        · rw [h3, h2]; exact hm
      · intro hs
        obtain ⟨h1, h2⟩ := hQ.2 hs
        refine ⟨h1, ?_⟩
        intro v hv hvm
        have hcs : cur = start := h1 cur (List.mem_cons_self _ _)
        rw [hcs] at hm
        have hne : v ≠ m := fun e => hvm (e ▸ hm)
        rw [ho.read_other hne]
        exact h2 v hv hvm)
    (by
      intro c cur pend d c' b _ _ hQ hnone _ _ _ ho
      refine ⟨?_, ?_⟩
      · intro v node hv hn hg
        rcases ho.read_cases hv with h1 | ⟨_, _, h3⟩
        · exact hQ.1 v node h1 hn hg
        · rw [h3] at hg; exact absurd hnone hg
      · intro hs
        have hcs : cur = start := (hQ.2 hs).1 cur (List.mem_cons_self _ _)
        rw [hcs] at hnone
        exact absurd hnone hs)
    (by
      intro c cur pend _ _ hQ _
      exact ⟨hQ.1, fun hs => ⟨fun u hu => (hQ.2 hs).1 u (List.mem_cons_of_mem _ hu),
        (hQ.2 hs).2⟩⟩)
    (by
      refine ⟨?_, ?_⟩
      · intro v node hv hn
        exact absurd (initialCache_unreached hstart hv) hn
      · intro _
        exact ⟨fun u hu => List.mem_singleton.mp hu, fun _ _ _ => rfl⟩)
  refine ⟨pf, h, hQ1, ?_⟩
  intro hs v hv hne hvm
  rw [(hQ2 hs).2 v hne hvm, initialCache_read hstart, if_neg hne, if_pos hv]

theorem monsterMap_protectionInRange : monsterMap.protectionInRange := by
  intro i m hm
  by_cases hi : i = 0
  · subst hi
    have hm1 : m = 1 := by simpa [monsterMap] using hm
    subst hm1
    decide
  · simp [monsterMap, hi] at hm

theorem evaluateMap_guard_short_circuit_witness :
    ∃ pf, Pathfinder.evaluateMap monsterMap 0 0 = some pf ∧
      (∀ v node, readNode pf._cache v = some node → node._from ≠ -1 →
        monsterMap.GetTilesUnderProtection node._from ≠ [] →
        v ∈ monsterMap.GetTilesUnderProtection node._from) ∧
      (monsterMap.GetTilesUnderProtection 0 ≠ [] →
        ∀ v, monsterMap.inRange v → v ≠ 0 → v ∉ monsterMap.GetTilesUnderProtection 0 →
          readNode pf._cache v = some monsterMap.defaultNode) :=
  evaluateMap_guard_short_circuit monsterMap 0 0 monsterMap_protectionInRange (by decide)

/-! ## Shortest paths -/

theorem walkValid_append (W : World) :
    ∀ (ds : List Direction) (u : Int) (d : Direction),
      walkValid W u (ds ++ [d]) = (walkValid W u ds
        && (Maps.isValidDirection W (walkEnd W u ds) d && W.isValidPath (walkEnd W u ds) d))
  | [], u, d => by simp [walkValid, walkEnd]
  | e :: ds, u, d => by
    have ih := walkValid_append W ds (Maps.GetDirectionIndex W u e) d
    rw [List.cons_append]
    simp only [walkValid, walkEnd]
    rw [ih]
    simp only [Bool.and_assoc]

theorem walkEnd_append (W : World) :
    ∀ (ds : List Direction) (u : Int) (d : Direction),
      walkEnd W u (ds ++ [d]) = Maps.GetDirectionIndex W (walkEnd W u ds) d
  | [], u, d => rfl
  | e :: ds, u, d => by
    have ih := walkEnd_append W ds (Maps.GetDirectionIndex W u e) d
    rw [List.cons_append]
    simp only [walkEnd]
    rw [ih]

theorem walkCost_append (W : World) (skill : Nat) :
    ∀ (ds : List Direction) (u : Int) (d : Direction),
      walkCost W skill u (ds ++ [d]) = walkCost W skill u ds
        + Pathfinder.getMovementPenalty W (walkEnd W u ds)
            (Maps.GetDirectionIndex W (walkEnd W u ds) d) d skill
  | [], u, d => by simp [walkCost, walkEnd]
  | e :: ds, u, d => by
    have ih := walkCost_append W skill ds (Maps.GetDirectionIndex W u e) d
    rw [List.cons_append]
    simp only [walkCost, walkEnd]
    rw [ih]
    omega

theorem reachedCount_le : ∀ (cs : List PathfindingNode), reachedCount cs ≤ cs.length
  | [] => by simp [reachedCount]
  | n :: cs => by
    have ih := reachedCount_le cs
    unfold reachedCount at ih ⊢
    simp only [List.map_cons, List.sum_cons, List.length_cons]
    split <;> omega

theorem RelaxOutcome.reachedCount_ge {cs cs' : List PathfindingNode} {u v : Int} {p : Nat}
    {b : Bool} (h : RelaxOutcome cs u v p cs' b) : reachedCount cs ≤ reachedCount cs' := by
  have hu := h.source_ne
  cases h with
  | keep nu nv hu' hv hno => exact le_refl _
  | write nu nv hu' hv hyes =>
    have hs := sum_map_set (f := fun n => if n._from = -1 then 0 else 1) cs v.toNat
      ⟨u, (nu._cost + p) % U32⟩ nv (readNode_eq_some hv).2.2
    simp only [hu, if_false] at hs
    unfold reachedCount
    have : (if nv._from = -1 then 0 else 1) ≤ 1 := by split <;> omega
    omega

theorem RelaxOutcome.reachedCount_new {cs cs' : List PathfindingNode} {u v : Int} {p : Nat}
    {nv : PathfindingNode} (h : RelaxOutcome cs u v p cs' true) (hv : readNode cs v = some nv)
    (hnv : nv._from = -1) : reachedCount cs + 1 = reachedCount cs' := by
  have hu := h.source_ne
  cases h with
  | write nu nv' hu' hv' hyes =>
    rw [hv] at hv'
    cases hv'
    have hs := sum_map_set (f := fun n => if n._from = -1 then 0 else 1) cs v.toNat
      ⟨u, (nu._cost + p) % U32⟩ nv (readNode_eq_some hv).2.2
    simp only [hu, hnv, if_false, if_true] at hs
    unfold reachedCount
    omega

theorem RelaxOutcome.write_cond {cs cs' : List PathfindingNode} {u v : Int} {p : Nat}
    (h : RelaxOutcome cs u v p cs' true) :
    ∃ nu nv, readNode cs u = some nu ∧ readNode cs v = some nv ∧
      (nv._from = -1 ∨ (nu._cost + p) % U32 < nv._cost) ∧
      readNode cs' v = some ⟨u, (nu._cost + p) % U32⟩ := by
  cases h with
  | write nu nv hu hv hyes =>
    refine ⟨nu, nv, hu, hv, hyes, ?_⟩
    rw [readNode_set (readNode_eq_some hv).1 (readNode_eq_some hv).2.1, if_pos rfl]

theorem ShortestInv.init {W : World} {start : Int} (skill B : Nat) (hstart : W.inRange start) :
    ShortestInv W start skill B
      ((List.replicate (W.w * W.h) W.defaultNode).set start.toNat ⟨-1, 0⟩) [start] where
  queued := fun u hu => Or.inl (List.mem_singleton.mp hu)
  source := fun n hn _ => by
    rw [initialCache_read hstart, if_pos rfl] at hn
    cases hn; rfl
  bound := fun v n hv hn => absurd (initialCache_unreached hstart hv) hn
  sound := fun v n hv hn => absurd (initialCache_unreached hstart hv) hn
  first := Or.inl ⟨rfl, by rw [initialCache_read hstart, if_pos rfl]⟩
  relaxed := fun u nu _ hu hn => absurd (initialCache_unreached hstart hu) hn

theorem ShortestInv.pop {W : World} {start : Int} {skill B : Nat} {cs : List PathfindingNode}
    {cur : Int} {pend : List Int} (hQ : ShortestInv W start skill B cs (cur :: pend))
    (hF : ∀ d, Maps.isValidDirection W cur d = true → W.isValidPath cur d = true →
      EdgeRelaxed W skill cs cur d) :
    ShortestInv W start skill B cs pend where
  queued := fun u hu => hQ.queued u (List.mem_cons_of_mem _ hu)
  source := hQ.source
  bound := hQ.bound
  sound := hQ.sound
  first := by
    rcases hQ.first with ⟨h1, h2⟩ | h
    · right
      simp only [List.head?_cons, Option.some.injEq] at h1
      subst h1
      intro d hd hp
      obtain ⟨nu, nv, h3, h4, h5, h6⟩ := hF d hd hp
      rw [h2] at h3
      cases h3
      refine ⟨nv, h4, h5, le_trans h6 ?_⟩
      simp only [Nat.zero_add]
      exact Nat.mod_le _ _
    · exact Or.inr h
  relaxed := by
    intro u nu hus hu hn
    rcases hQ.relaxed u nu hus hu hn with h | h
    · rcases List.mem_cons.mp h with h1 | h1
      · right; rw [h1]; exact hF
      · exact Or.inl h1
    · exact Or.inr h

theorem ShortestInv.dir {W : World} {start : Int} {skill B : Nat} {cs cs' : List PathfindingNode}
    {cur : Int} {pend : List Int} {d : Direction} {b : Bool}
    (hB : ∀ u e, W.inRange u → Maps.isValidDirection W u e = true → W.isValidPath u e = true →
      Pathfinder.getMovementPenalty W u (Maps.GetDirectionIndex W u e) e skill ≤ B)
    (hov : (W.w * W.h + 1) * B < U32)
    (hlen : cs.length = W.w * W.h) (hcur : W.inRange cur)
    (hQ : ShortestInv W start skill B cs (cur :: pend))
    (hd : Maps.isValidDirection W cur d = true) (hp : W.isValidPath cur d = true)
    (ho : RelaxOutcome cs cur (Maps.GetDirectionIndex W cur d)
      (Pathfinder.getMovementPenalty W cur (Maps.GetDirectionIndex W cur d) d skill) cs' b) :
    ShortestInv W start skill B cs'
      (cur :: (if b = true then pend ++ [Maps.GetDirectionIndex W cur d] else pend)) := by
  cases b with
  | false =>
    have := ho.keep_eq
    subst this
    simpa using hQ
  | true =>
    obtain ⟨nu, nv, hnu, hnv, hcond, hnew⟩ := ho.write_cond
    have hvne : Maps.GetDirectionIndex W cur d ≠ cur := (validDirection_range hd hcur.1 hcur.2).2.2
    have hcurne : cur ≠ -1 := ho.source_ne
    have helig : nu._cost ≤ reachedCount cs * B ∧ ∃ ds, walkValid W start ds = true ∧
        walkEnd W start ds = cur ∧ walkCost W skill start ds = nu._cost := by
      by_cases hf : nu._from = -1
      · have hs : cur = start := by
          rcases hQ.queued cur (List.mem_cons_self _ _) with h | ⟨n, h1, h2⟩
          · exact h
          · rw [hnu] at h1; cases h1; exact absurd hf h2
        have h0 := hQ.source nu (hs ▸ hnu) hf
        exact ⟨by omega, [], rfl, hs.symm, by simp [walkCost, h0]⟩
      · exact ⟨hQ.bound cur nu hnu hf, hQ.sound cur nu hnu hf⟩
    have hrc : reachedCount cs ≤ W.w * W.h := hlen ▸ reachedCount_le cs
    have hpB := hB cur d hcur hd hp
    have hmul : reachedCount cs * B ≤ W.w * W.h * B := Nat.mul_le_mul_right _ hrc
    have hexp : (W.w * W.h + 1) * B = W.w * W.h * B + B := by ring
    have hm : (nu._cost
        + Pathfinder.getMovementPenalty W cur (Maps.GetDirectionIndex W cur d) d skill) % U32
        = nu._cost
          + Pathfinder.getMovementPenalty W cur (Maps.GetDirectionIndex W cur d) d skill :=
      Nat.mod_eq_of_lt (by omega)
    have hge : reachedCount cs * B ≤ reachedCount cs' * B :=
      Nat.mul_le_mul_right _ ho.reachedCount_ge
    simp only [if_true]
    refine ⟨?_, ?_, ?_, ?_, ?_, ?_⟩
    · intro u hu
      simp only [List.mem_cons, List.mem_append, List.mem_singleton, List.mem_nil_iff,
        or_false] at hu
      have hold : u ∈ cur :: pend →
          u = start ∨ ∃ n, readNode cs' u = some n ∧ n._from ≠ -1 := by
        intro hin
        rcases hQ.queued u hin with h | ⟨n, h1, h2⟩
        · exact Or.inl h
        · obtain ⟨n', e1, e2, _⟩ := ho.mono h1 h2
          exact Or.inr ⟨n', e1, e2⟩
      rcases hu with h | h | h
      · exact hold (h ▸ List.mem_cons_self _ _)
      · exact hold (List.mem_cons_of_mem _ h)
      · exact Or.inr ⟨_, h ▸ hnew, hcurne⟩
    · intro n hn hf
      rcases ho.read_cases hn with h | ⟨_, _, h3⟩
      · exact hQ.source n h hf
      · rw [h3] at hf; exact absurd hf hcurne
    · intro x n hx hn
      rcases ho.read_cases hx with h | ⟨_, hxv, _⟩
      · exact le_trans (hQ.bound x n h hn) hge
      · rw [hxv, hnew] at hx
        cases hx
        simp only [hm]
        by_cases hf : nv._from = -1
        · have := ho.reachedCount_new hnv hf
          rw [← this]
          have : (reachedCount cs + 1) * B = reachedCount cs * B + B := by ring
          omega
        · have h1 := hQ.bound _ nv hnv hf
          rcases hcond with h2 | h2
          · exact absurd h2 hf
          · rw [hm] at h2
            omega
    · intro x n hx hn
      rcases ho.read_cases hx with h | ⟨_, hxv, _⟩
      · exact hQ.sound x n h hn
      · rw [hxv, hnew] at hx
        cases hx
        obtain ⟨ds, h1, h2, h3⟩ := helig.2
        refine ⟨ds ++ [d], ?_, ?_, ?_⟩
        · rw [walkValid_append, h1, h2, hd, hp]; rfl
        · rw [walkEnd_append, h2, hxv]
        · rw [walkCost_append, h2, h3]
          exact hm.symm
    · rcases hQ.first with ⟨h1, h2⟩ | h
      · left
        simp only [List.head?_cons, Option.some.injEq] at h1
        refine ⟨by simp [h1], ?_⟩
        rw [ho.read_other (by rw [← h1]; exact Ne.symm hvne), h2]
      · right
        intro d' hd' hp'
        obtain ⟨nv', a1, a2, a3⟩ := h d' hd' hp'
        obtain ⟨n', e1, e2, e3⟩ := ho.mono a1 a2
        exact ⟨n', e1, e2, le_trans e3 a3⟩
    · intro u' nu' hus hu' hn'
      rcases ho.read_cases hu' with h | ⟨_, hxv, _⟩
      · rcases hQ.relaxed u' nu' hus h hn' with h1 | h1
        · left
          rcases List.mem_cons.mp h1 with h2 | h2
          · exact h2 ▸ List.mem_cons_self _ _
          · exact List.mem_cons_of_mem _ (List.mem_append_left _ h2)
        · right
          intro d' hd' hp'
          exact EdgeRelaxed.preserved ho (by rw [hu', h]) (h1 d' hd' hp')
      · left
        rw [hxv]
        exact List.mem_cons_of_mem _ (List.mem_append_right _ (List.mem_singleton.mpr rfl))

theorem ShortestInv.walk_le {W : World} {start : Int} {skill B : Nat}
    {cs : List PathfindingNode} (hQ : ShortestInv W start skill B cs []) :
    ∀ (ds : List Direction) (u : Int) (c : Nat),
      (u = start ∨ ∃ nu, readNode cs u = some nu ∧ nu._from ≠ -1 ∧ nu._cost ≤ c) →
      walkValid W u ds = true → walkEnd W u ds ≠ start →
      ∃ nt, readNode cs (walkEnd W u ds) = some nt ∧ nt._from ≠ -1 ∧
        nt._cost ≤ c + walkCost W skill u ds
  | [], u, c, hu, _, hne => by
    rcases hu with h | ⟨nu, h1, h2, h3⟩
    · exact absurd h hne
    · exact ⟨nu, h1, h2, by simpa [walkCost] using h3⟩
  | d :: ds, u, c, hu, hv, hne => by
    simp only [walkValid, Bool.and_eq_true] at hv
    obtain ⟨⟨hd, hp⟩, hrest⟩ := hv
    have hnext : ∃ nv, readNode cs (Maps.GetDirectionIndex W u d) = some nv ∧ nv._from ≠ -1 ∧
        nv._cost ≤ c + Pathfinder.getMovementPenalty W u (Maps.GetDirectionIndex W u d) d skill := by
      by_cases hs : u = start
      · rcases hQ.first with ⟨h1, _⟩ | h
        · simp at h1
        · obtain ⟨nv, a1, a2, a3⟩ := h d (hs ▸ hd) (hs ▸ hp)
          rw [hs]
          exact ⟨nv, a1, a2, by omega⟩
      · rcases hu with h | ⟨nu, h1, h2, h3⟩
        · exact absurd h hs
        · rcases hQ.relaxed u nu hs h1 h2 with h | h
          · simp at h
          · obtain ⟨nu', nv, a1, a2, a3, a4⟩ := h d hd hp
            rw [h1] at a1
            cases a1
            have := Nat.mod_le (nu._cost
              + Pathfinder.getMovementPenalty W u (Maps.GetDirectionIndex W u d) d skill) U32
            exact ⟨nv, a2, a3, by omega⟩
    obtain ⟨nt, b1, b2, b3⟩ := ShortestInv.walk_le hQ ds (Maps.GetDirectionIndex W u d)
      (c + Pathfinder.getMovementPenalty W u (Maps.GetDirectionIndex W u d) d skill)
      (Or.inr hnext) hrest hne
    refine ⟨nt, b1, b2, ?_⟩
    simp only [walkCost]
    omega

/-- C2: on a map with no protected tile and no object-blocked tile, whose
movement penalties are at most `B` with `(w * h + 1) * B < 2 ^ 32` (so that no
cost can overflow), `evaluateMap( start, skill )` returns, and for every tile
`t` other than `start` that a sequence of valid moves from `start` reaches, the
recorded cost of `t` is the cost of such a sequence and is not larger than
the cost of any such sequence: it is the minimum of the summed
`getMovementPenalty` values. The penalties need not be positive for this. -/
theorem evaluateMap_shortest_path (W : World) (start : Int) (skill B : Nat)
    (hstart : W.inRange start)
    (hguard : ∀ i, W.GetTilesUnderProtection i = [])
    (hblock : ∀ i, W.inRange i → W.isTileBlocked i (W.isWater start) = false)
    (hB : ∀ u e, W.inRange u → Maps.isValidDirection W u e = true → W.isValidPath u e = true →
      Pathfinder.getMovementPenalty W u (Maps.GetDirectionIndex W u e) e skill ≤ B)
    (hov : (W.w * W.h + 1) * B < U32) :
    ∃ pf, Pathfinder.evaluateMap W start skill = some pf ∧
      ∀ t ds, t ≠ start → walkValid W start ds = true → walkEnd W start ds = t →
        ∃ node, readNode pf._cache t = some node ∧ node._from ≠ -1 ∧
          (∃ ds', walkValid W start ds' = true ∧ walkEnd W start ds' = t ∧
            walkCost W skill start ds' = node._cost) ∧
          (∀ ds', walkValid W start ds' = true → walkEnd W start ds' = t →
            node._cost ≤ walkCost W skill start ds') := by
  have hprot : W.protectionInRange := by
    intro i m hm
    rw [hguard i] at hm
    cases hm
  obtain ⟨pf, h, _, _, _, hQ⟩ := evaluateMap_spec skill hprot hstart
    (ShortestInv W start skill B)
    (by
      intro c cur pend m c' b _ _ _ hm _ _
      rw [hguard cur] at hm
      cases hm)
    (by
      intro c cur pend d c' b hlen hcur hQ _ _ hd hp ho
      exact ShortestInv.dir hB hov hlen hcur hQ hd hp ho)
    (by
      intro c cur pend _ hcur hQ hF
      exact ShortestInv.pop hQ (hF (hguard cur) (Or.inr (hblock cur hcur))))
    (ShortestInv.init skill B hstart)
  refine ⟨pf, h, ?_⟩
  intro t ds hts hv he
  obtain ⟨nt, b1, b2, _⟩ := hQ.walk_le ds start 0 (Or.inl rfl) hv (by rw [he]; exact hts)
  rw [he] at b1
  refine ⟨nt, b1, b2, hQ.sound t nt b1 b2, ?_⟩
  intro ds' hv' he'
  obtain ⟨nt', c1, _, c3⟩ := hQ.walk_le ds' start 0 (Or.inl rfl) hv' (by rw [he']; exact hts)
  rw [he', b1] at c1
  cases c1
  omega

theorem evaluateMap_shortest_path_witness :
    ∃ pf, Pathfinder.evaluateMap (uniformLand 5 5 100) 0 0 = some pf ∧
      ∀ t ds, t ≠ 0 → walkValid (uniformLand 5 5 100) 0 ds = true →
        walkEnd (uniformLand 5 5 100) 0 ds = t →
        ∃ node, readNode pf._cache t = some node ∧ node._from ≠ -1 ∧
          (∃ ds', walkValid (uniformLand 5 5 100) 0 ds' = true ∧
            walkEnd (uniformLand 5 5 100) 0 ds' = t ∧
            walkCost (uniformLand 5 5 100) 0 0 ds' = node._cost) ∧
          (∀ ds', walkValid (uniformLand 5 5 100) 0 ds' = true →
            walkEnd (uniformLand 5 5 100) 0 ds' = t →
            node._cost ≤ walkCost (uniformLand 5 5 100) 0 0 ds') :=
  evaluateMap_shortest_path (uniformLand 5 5 100) 0 0 150 (by decide) (fun _ => rfl)
    (fun _ _ => rfl)
    (by
      intro u e _ _ _
      cases e <;> simp [Pathfinder.getMovementPenalty, uniformLand, Direction.isDiagonal, U32])
    (by decide)

/-! ## Runs on concrete maps -/

/-- C1 (failing input): on the 2 x 1 land map of penalty 100, the path from
tile 0 to tile 1 is the single step from 0, whose recorded penalty is 0, while
the distance from 0 to 1 is 100; on the 5 x 5 land map of penalty 100 the
steps of the path from tile 0 to tile 24 carry the penalties 150, 150, 150
and 0, while the distance is 600. The penalties of the path do not sum to the
distance. -/
theorem buildPath_penalties_miss_distance :
    ((Pathfinder.buildPath (uniformLand 2 1 100) Pathfinder.reset 0 1 0).map
        (fun r => (r.1.map Route.Step.fromIdx, r.1.map Route.Step.penalty)) = some ([0], [0]) ∧
      (Pathfinder.getDistance (uniformLand 2 1 100) Pathfinder.reset 0 1 0).map (·.1)
        = some 100) ∧
    ((Pathfinder.buildPath (uniformLand 5 5 100) Pathfinder.reset 0 24 0).map
        (fun r => (r.1.map Route.Step.fromIdx, r.1.map Route.Step.penalty))
        = some ([0, 6, 12, 18], [150, 150, 150, 0]) ∧
      (Pathfinder.getDistance (uniformLand 5 5 100) Pathfinder.reset 0 24 0).map (·.1)
        = some 600) := by
  decide

/-- C3 (failing input): on the 2 x 1 land map of penalty 100, `evaluateMap`
from tile 0 leaves the source node with predecessor 1 and cost 200, so the
distance from tile 0 to itself is 200; the same holds on the 5 x 5 land map of
penalty 100. -/
theorem evaluateMap_overwrites_source :
    ((Pathfinder.evaluateMap (uniformLand 2 1 100) 0 0).map (·._cache)
        = some [⟨1, 200⟩, ⟨0, 100⟩] ∧
      (Pathfinder.getDistance (uniformLand 2 1 100) Pathfinder.reset 0 0 0).map (·.1)
        = some 200) ∧
    ((Pathfinder.evaluateMap (uniformLand 5 5 100) 0 0).map (fun pf => readNode pf._cache 0)
        = some (some ⟨1, 200⟩) ∧
      (Pathfinder.getDistance (uniformLand 5 5 100) Pathfinder.reset 0 0 0).map (·.1)
        = some 200) := by
  decide

/-- C4 (failing input): on the 2 x 1 land map of penalty 100, the run of
`evaluateMap` from tile 0 starts with cost 0 recorded for the source; its
first iteration reaches tile 1 at cost 100, and its second iteration, which
processes tile 1, writes cost 200 to the source node. -/
theorem evaluateMap_raises_source_cost :
    initialCache (uniformLand 2 1 100) 0 = some [⟨-1, 0⟩, ⟨-1, 0⟩] ∧
      exploreNode (uniformLand 2 1 100) 0 0 false [⟨-1, 0⟩, ⟨-1, 0⟩] [] 0
        = some ([⟨-1, 0⟩, ⟨0, 100⟩], [1]) ∧
      exploreNode (uniformLand 2 1 100) 0 0 false [⟨-1, 0⟩, ⟨0, 100⟩] [] 1
        = some ([⟨1, 200⟩, ⟨0, 100⟩], [0]) := by
  decide

/-- C5 (failing input): on the 2 x 1 land map where no move is passable,
`evaluateMap` from tile 0 leaves tile 1 with predecessor -1, and the path from
0 to 1 is not empty: it holds one step, whose origin is -1. The same holds for
the path from tile 0 to tile 24 on the 5 x 5 map where no move is passable. -/
theorem buildPath_unreached_not_empty :
    ((Pathfinder.evaluateMap (closedLand 2 1 100) 0 0).map (fun pf => readNode pf._cache 1)
        = some (some ⟨-1, 0⟩) ∧
      (Pathfinder.buildPath (closedLand 2 1 100) Pathfinder.reset 0 1 0).map
        (fun r => r.1.map Route.Step.fromIdx) = some [-1]) ∧
    ((Pathfinder.evaluateMap (closedLand 5 5 100) 0 0).map (fun pf => readNode pf._cache 24)
        = some (some ⟨-1, 0⟩) ∧
      (Pathfinder.buildPath (closedLand 5 5 100) Pathfinder.reset 0 24 0).map
        (fun r => r.1.map Route.Step.fromIdx) = some [-1]) := by
  decide

/-- C8: on the 5 x 5 land map where every move is passable, no tile is
protected or blocked and the terrain penalty is 100 (no roads), `getDistance`
from tile (0,0), index 0, to tile (4,4), index 24, returns 600, whatever the
skill. -/
theorem getDistance_uniform_5x5 (skill : Nat) :
    (Pathfinder.getDistance (uniformLand 5 5 100) Pathfinder.reset 0 24 skill).map (·.1)
      = some 600 := by
  rw [getDistance_reset 0 24 skill (by decide),
    evaluateMap_cache_congr (uniformLand 5 5 100) skill 0 (fun _ => rfl) 0]
  decide

/-! ## The cache after `evaluateMap` and the queries -/

theorem foldlM_option_invariant {α β : Type} (f : β → α → Option β) (P : β → Prop)
    (hstep : ∀ b a b', P b → f b a = some b' → P b') :
    ∀ (l : List α) (b b' : β), P b → l.foldlM f b = some b' → P b'
  | [], b, b', h0, h => by
    simp only [List.foldlM_nil] at h
    cases h
    exact h0
  | a :: l, b, b', h0, h => by
    simp only [List.foldlM_cons] at h
    cases hf : f b a with
    | none => rw [hf] at h; cases h
    | some b1 =>
      rw [hf] at h
      exact foldlM_option_invariant f P hstep l b1 b' (hstep b a b1 h0 hf) h

theorem relaxMonster_length {W : World} {skill : Nat} {u m : Int}
    {cs cs' : List PathfindingNode} (h : relaxMonster W skill u cs m = some cs') :
    cs'.length = cs.length := by
  simp only [relaxMonster] at h
  split at h
  · split at h
    · split at h
      · rw [(writeNode_eq_some h).2.2, List.length_set]
      · cases h; rfl
    · cases h
  · cases h; rfl

theorem relaxDirection_length {W : World} {skill : Nat} {u : Int} {d : Direction}
    {st st' : List PathfindingNode × List Int} (h : relaxDirection W skill u st d = some st') :
    st'.1.length = st.1.length := by
  simp only [relaxDirection] at h
  split at h
  · split at h
    · split at h
      · split at h
        · rename_i cache hw
          cases h
          rw [(writeNode_eq_some hw).2.2, List.length_set]
        · cases h
      · cases h; rfl
    · cases h
  · cases h; rfl

theorem exploreNode_length {W : World} {start : Int} {skill : Nat} {fromWater : Bool}
    {cs cs' : List PathfindingNode} {pending q' : List Int} {cur : Int}
    (h : exploreNode W start skill fromWater cs pending cur = some (cs', q')) :
    cs'.length = cs.length := by
  simp only [exploreNode] at h
  split at h
  · cases h
  · split at h
    · split at h
      · rename_i cache1 hf
        cases h
        exact foldlM_option_invariant (relaxMonster W skill cur) (fun c => c.length = cs.length)
          (fun b a b' hb hr => (relaxMonster_length hr).trans hb) _ cs cs' rfl hf
      · cases h
    · split at h
      · exact foldlM_option_invariant (relaxDirection W skill cur)
          (fun st => st.1.length = cs.length)
          (fun b a b' hb hr => (relaxDirection_length hr).trans hb) _ (cs, pending)
          (cs', q') rfl h
      · cases h; rfl

theorem evaluateLoop_length {W : World} {start : Int} {skill : Nat} {fromWater : Bool} :
    ∀ (fuel : Nat) (cs : List PathfindingNode) (q : List Int) (cs' : List PathfindingNode),
      evaluateLoop W start skill fromWater fuel cs q = some cs' → cs'.length = cs.length
  | fuel, cs, [], cs', h => by
    have : cs' = cs := by cases fuel <;> simp [evaluateLoop] at h <;> exact h.symm
    rw [this]
  | 0, cs, cur :: rest, cs', h => by simp [evaluateLoop] at h
  | fuel + 1, cs, cur :: rest, cs', h => by
    simp only [evaluateLoop] at h
    split at h
    · rename_i c1 q1 he
      rw [evaluateLoop_length fuel c1 q1 cs' h, exploreNode_length he]
    · cases h

theorem evaluateMap_eq_some {W : World} {start : Int} {skill : Nat} {pf : Pathfinder}
    (h : Pathfinder.evaluateMap W start skill = some pf) :
    pf._cache.length = W.w * W.h ∧ pf._pathStart = start ∧ pf._pathfindingSkill = skill := by
  unfold Pathfinder.evaluateMap at h
  split at h
  · cases h
  · rename_i cs0 h0
    split at h
    · rename_i cache hl
      cases h
      refine ⟨?_, rfl, rfl⟩
      rw [evaluateLoop_length _ _ _ _ hl]
      unfold initialCache at h0
      rw [(writeNode_eq_some h0).2.2]
      simp
    · cases h

theorem reEvaluateIfNeeded_length {W : World} {pf pf1 : Pathfinder} {fromIdx : Int} {skill : Nat}
    (hpf : pf._cache.length ≤ W.w * W.h)
    (h : Pathfinder.reEvaluateIfNeeded W pf fromIdx skill = some pf1) :
    pf1._cache.length ≤ W.w * W.h := by
  unfold Pathfinder.reEvaluateIfNeeded at h
  split at h
  · exact le_of_eq (evaluateMap_eq_some h).1
  · cases h; exact hpf

theorem readNode_outside {cs : List PathfindingNode} {W : World} {i : Int}
    (hlen : cs.length ≤ W.w * W.h) (hi : ¬ W.inRange i) : readNode cs i = none := by
  unfold readNode
  split
  · rename_i h0
    apply List.getElem?_eq_none
    unfold World.inRange at hi
    omega
  · rfl

theorem reachable_length {W : World} {pf : Pathfinder} (h : Pathfinder.reachable W pf) :
    pf._cache.length ≤ W.w * W.h := by
  rcases h with h | ⟨s, k, h⟩
  · rw [h]; simp [Pathfinder.reset]
  · exact le_of_eq (evaluateMap_eq_some h).1

/-- C11 (counterexample): on the 2 x 1 land map, after `evaluateMap` from tile
0 the cache has two nodes, so index -1 is outside it; `getDistance( 0, -1, 0 )`
and `buildPath( 0, -1, 0 )` both read `_cache[-1]`, and neither returns a
result (in particular `buildPath` does not return the empty path). -/
theorem getDistance_buildPath_read_outside :
    (Pathfinder.evaluateMap (uniformLand 2 1 100) 0 0).map
        (fun pf => (pf._cache.length, readNode pf._cache (-1))) = some (2, none) ∧
      Pathfinder.getDistance (uniformLand 2 1 100) Pathfinder.reset 0 (-1) 0 = none ∧
      Pathfinder.buildPath (uniformLand 2 1 100) Pathfinder.reset 0 (-1) 0 = none := by
  decide

/-- C11 (amended): `getDistance` and `buildPath` have no range guard. For
every target index outside `[0, width * height)` both read `_cache[target]`
outside the vector before any test, which is undefined behaviour: no result
is returned. For every target and source inside the range `getDistance`
reads the cache in bounds and returns the cost recorded for the target. -/
theorem getDistance_buildPath_range (W : World) (pf : Pathfinder) (fromIdx target : Int)
    (skill : Nat) (hpf : Pathfinder.reachable W pf) :
    (¬ W.inRange target →
      Pathfinder.getDistance W pf fromIdx target skill = none ∧
        Pathfinder.buildPath W pf fromIdx target skill = none) ∧
    (W.inRange target → W.inRange fromIdx → W.protectionInRange →
      ∃ pf1 node, Pathfinder.getDistance W pf fromIdx target skill = some (node._cost, pf1) ∧
        readNode pf1._cache target = some node) := by
  constructor
  · intro ht
    unfold Pathfinder.getDistance Pathfinder.buildPath
    cases h : Pathfinder.reEvaluateIfNeeded W pf fromIdx skill with
    | none => exact ⟨rfl, rfl⟩
    | some pf1 =>
      have hr := readNode_outside (reEvaluateIfNeeded_length (reachable_length hpf) h) ht
      simp only [hr, and_self]
  · intro ht hf hprot
    have hex : ∃ pf1, Pathfinder.reEvaluateIfNeeded W pf fromIdx skill = some pf1 ∧
        pf1._cache.length = W.w * W.h := by
      unfold Pathfinder.reEvaluateIfNeeded
      split
      · obtain ⟨pf1, h1⟩ := evaluateMap_total skill hprot hf
        exact ⟨pf1, h1, (evaluateMap_eq_some h1).1⟩
      · rename_i hn
        refine ⟨pf, rfl, ?_⟩
        rcases hpf with h | ⟨s, k, h⟩
        · exfalso
          apply hn
          left
          rw [h]
          have := hf.1
          simp only [Pathfinder.reset, ne_eq]
          omega
        · exact (evaluateMap_eq_some h).1
    obtain ⟨pf1, h1, h2⟩ := hex
    obtain ⟨node, hn⟩ := readNode_of_range ht.1 (by rw [h2]; exact ht.2)
    exact ⟨pf1, node, by simp only [Pathfinder.getDistance, h1, hn], hn⟩

theorem getDistance_buildPath_range_witness :
    (¬ (uniformLand 2 1 100).inRange 1 →
      Pathfinder.getDistance (uniformLand 2 1 100) Pathfinder.reset 0 1 0 = none ∧
        Pathfinder.buildPath (uniformLand 2 1 100) Pathfinder.reset 0 1 0 = none) ∧
    ((uniformLand 2 1 100).inRange 1 → (uniformLand 2 1 100).inRange 0 →
      (uniformLand 2 1 100).protectionInRange →
      ∃ pf1 node, Pathfinder.getDistance (uniformLand 2 1 100) Pathfinder.reset 0 1 0
          = some (node._cost, pf1) ∧
        readNode pf1._cache 1 = some node) :=
  getDistance_buildPath_range (uniformLand 2 1 100) Pathfinder.reset 0 1 0 (Or.inl rfl)

/-- C13: a query whose `(from, skill)` equals the tag of the cache leaves the
pathfinder as it is and answers from the cache; a query whose `(from, skill)`
differs runs `evaluateMap( from, skill )`, whose result carries the tag
`(from, skill)`, and answers from the new cache. Hence a `getDistance` call
that returned, repeated on the pathfinder it left, returns the same value and
leaves the same pathfinder. -/
theorem query_memoization (W : World) (pf : Pathfinder) (fromIdx target : Int) (skill : Nat) :
    ((pf._pathStart = fromIdx ∧ pf._pathfindingSkill = skill) →
      Pathfinder.reEvaluateIfNeeded W pf fromIdx skill = some pf ∧
      Pathfinder.getDistance W pf fromIdx target skill
        = (readNode pf._cache target).map (fun n => (n._cost, pf)) ∧
      ∀ r, Pathfinder.buildPath W pf fromIdx target skill = some r → r.2 = pf) ∧
    (¬ (pf._pathStart = fromIdx ∧ pf._pathfindingSkill = skill) →
      Pathfinder.reEvaluateIfNeeded W pf fromIdx skill
        = Pathfinder.evaluateMap W fromIdx skill ∧
      ∀ pf1, Pathfinder.evaluateMap W fromIdx skill = some pf1 →
        pf1._pathStart = fromIdx ∧ pf1._pathfindingSkill = skill ∧
        Pathfinder.getDistance W pf fromIdx target skill
          = (readNode pf1._cache target).map (fun n => (n._cost, pf1)) ∧
        ∀ r, Pathfinder.buildPath W pf fromIdx target skill = some r → r.2 = pf1) ∧
    (∀ d pf1, Pathfinder.getDistance W pf fromIdx target skill = some (d, pf1) →
      Pathfinder.getDistance W pf1 fromIdx target skill = some (d, pf1)) := by
  have hdist : ∀ (p p1 : Pathfinder), Pathfinder.reEvaluateIfNeeded W p fromIdx skill = some p1 →
      Pathfinder.getDistance W p fromIdx target skill
        = (readNode p1._cache target).map (fun n => (n._cost, p1)) := by
    intro p p1 h
    simp only [Pathfinder.getDistance, h]
    cases readNode p1._cache target <;> rfl
  have hpath : ∀ (p p1 : Pathfinder), Pathfinder.reEvaluateIfNeeded W p fromIdx skill = some p1 →
      ∀ r, Pathfinder.buildPath W p fromIdx target skill = some r → r.2 = p1 := by
    intro p p1 h r hr
    simp only [Pathfinder.buildPath, h] at hr
    split at hr
    · cases hr
    · split at hr
      · cases hr; rfl
      · cases hr
  have hkeep : ∀ p : Pathfinder, (p._pathStart = fromIdx ∧ p._pathfindingSkill = skill) →
      Pathfinder.reEvaluateIfNeeded W p fromIdx skill = some p := by
    intro p hp
    simp [Pathfinder.reEvaluateIfNeeded, hp.1, hp.2]
  have hnew : ¬ (pf._pathStart = fromIdx ∧ pf._pathfindingSkill = skill) →
      Pathfinder.reEvaluateIfNeeded W pf fromIdx skill
        = Pathfinder.evaluateMap W fromIdx skill := by
    intro hp
    have : pf._pathStart ≠ fromIdx ∨ pf._pathfindingSkill ≠ skill := by
      by_contra hc
      push_neg at hc
      exact hp hc
    simp only [Pathfinder.reEvaluateIfNeeded, this, if_true]
  refine ⟨?_, ?_, ?_⟩
  · intro hp
    exact ⟨hkeep pf hp, hdist pf pf (hkeep pf hp), hpath pf pf (hkeep pf hp)⟩
  · intro hp
    refine ⟨hnew hp, ?_⟩
    intro pf1 h1
    have h2 : Pathfinder.reEvaluateIfNeeded W pf fromIdx skill = some pf1 := by
      rw [hnew hp]; exact h1
    exact ⟨(evaluateMap_eq_some h1).2.1, (evaluateMap_eq_some h1).2.2, hdist pf pf1 h2,
      hpath pf pf1 h2⟩
  · intro d pf1 h
    have htag : pf1._pathStart = fromIdx ∧ pf1._pathfindingSkill = skill ∧
        Pathfinder.reEvaluateIfNeeded W pf fromIdx skill = some pf1 := by
      by_cases hp : pf._pathStart = fromIdx ∧ pf._pathfindingSkill = skill
      · have h0 := hkeep pf hp
        rw [hdist pf pf h0] at h
        cases hr : readNode pf._cache target with
        | none => rw [hr] at h; cases h
        | some n =>
          rw [hr] at h
          simp only [Option.map_some', Option.some.injEq, Prod.mk.injEq] at h
          rw [← h.2]
          exact ⟨hp.1, hp.2, h0⟩
      · cases he : Pathfinder.evaluateMap W fromIdx skill with
        | none =>
          simp only [Pathfinder.getDistance, hnew hp, he] at h
          cases h
        | some p1 =>
          have h2 : Pathfinder.reEvaluateIfNeeded W pf fromIdx skill = some p1 := by
            rw [hnew hp]; exact he
          rw [hdist pf p1 h2] at h
          cases hr : readNode p1._cache target with
          | none => rw [hr] at h; cases h
          | some n =>
            rw [hr] at h
            simp only [Option.map_some', Option.some.injEq, Prod.mk.injEq] at h
            rw [← h.2]
            exact ⟨(evaluateMap_eq_some he).2.1, (evaluateMap_eq_some he).2.2, h2⟩
    rw [hdist pf pf1 htag.2.2] at h
    rw [hdist pf1 pf1 (hkeep pf1 ⟨htag.1, htag.2.1⟩)]
    exact h

theorem query_memoization_witness :
    Pathfinder.getDistance (uniformLand 2 1 100) ⟨[⟨1, 200⟩, ⟨0, 100⟩], 0, 0⟩ 0 1 0
      = some (100, ⟨[⟨1, 200⟩, ⟨0, 100⟩], 0, 0⟩) :=
  (query_memoization (uniformLand 2 1 100) Pathfinder.reset 0 1 0).2.2 100
    ⟨[⟨1, 200⟩, ⟨0, 100⟩], 0, 0⟩ (by decide)

theorem evaluateLoop_mono {W : World} {start : Int} {skill : Nat} {fromWater : Bool} :
    ∀ (fuel fuel' : Nat) (cs : List PathfindingNode) (q : List Int) (r : List PathfindingNode),
      fuel ≤ fuel' → evaluateLoop W start skill fromWater fuel cs q = some r →
      evaluateLoop W start skill fromWater fuel' cs q = some r
  | fuel, fuel', cs, [], r, _, h => by
    have : r = cs := by cases fuel <;> simp [evaluateLoop] at h <;> exact h.symm
    rw [this]
    cases fuel' <;> simp [evaluateLoop]
  | 0, _, cs, cur :: rest, r, _, h => by simp [evaluateLoop] at h
  | fuel + 1, 0, cs, cur :: rest, r, hle, _ => by omega
  | fuel + 1, fuel' + 1, cs, cur :: rest, r, hle, h => by
    simp only [evaluateLoop] at h ⊢
    cases he : exploreNode W start skill fromWater cs rest cur with
    | none => rw [he] at h; cases h
    | some p =>
      rw [he] at h
      exact evaluateLoop_mono fuel fuel' p.1 p.2 r (by omega) h

/-- C14: on every map and for every source on the map (the tiles listed by
`Maps::GetTilesUnderProtection` being tiles of the map), the loop of
`evaluateMap` ends after at most `width * height * 2 ^ 32 + 1` iterations, so
`nodesToExplore` receives at most that many entries, and `evaluateMap`
returns. -/
theorem evaluateMap_terminates (W : World) (start : Int) (skill : Nat)
    (hprot : W.protectionInRange) (hstart : W.inRange start) :
    ∃ cs0 cs, initialCache W start = some cs0 ∧
      (∀ fuel, iterationBound W ≤ fuel →
        evaluateLoop W start skill (W.isWater start) fuel cs0 [start] = some cs) ∧
      Pathfinder.evaluateMap W start skill = some ⟨cs, start, skill⟩ := by
  have hall : ∀ fuel, iterationBound W ≤ fuel → ∃ cs,
      evaluateLoop W start skill (W.isWater start) fuel
        ((List.replicate (W.w * W.h) W.defaultNode).set start.toNat ⟨-1, 0⟩) [start] = some cs := by
    intro fuel hf
    obtain ⟨cs, h, _⟩ := evaluateLoop_spec start skill (W.isWater start) hprot (fun _ _ => True)
      (fun _ _ _ _ _ _ _ _ _ _ _ _ => trivial) (fun _ _ _ _ _ _ _ _ _ _ _ _ _ _ => trivial)
      (fun _ _ _ _ _ _ _ => trivial) fuel
      ((List.replicate (W.w * W.h) W.defaultNode).set start.toNat ⟨-1, 0⟩) [start]
      (by simp) (by intro v hv; rw [List.mem_singleton.mp hv]; exact hstart)
      (by rw [initialCache_weight]; simp only [iterationBound, List.length_singleton] at hf ⊢
          exact hf) trivial
    exact ⟨cs, h⟩
  obtain ⟨cs, h⟩ := hall (iterationBound W) (le_refl _)
  refine ⟨_, cs, initialCache_eq hstart, ?_, ?_⟩
  · intro fuel hf
    exact evaluateLoop_mono (iterationBound W) fuel _ _ cs hf h
  · simp only [Pathfinder.evaluateMap, initialCache_eq hstart, h]

theorem evaluateMap_terminates_witness :
    ∃ cs0 cs, initialCache (uniformLand 2 1 100) 0 = some cs0 ∧
      (∀ fuel, iterationBound (uniformLand 2 1 100) ≤ fuel →
        evaluateLoop (uniformLand 2 1 100) 0 0 ((uniformLand 2 1 100).isWater 0) fuel cs0 [0]
          = some cs) ∧
      Pathfinder.evaluateMap (uniformLand 2 1 100) 0 0 = some ⟨cs, 0, 0⟩ :=
  evaluateMap_terminates (uniformLand 2 1 100) 0 0 (fun _ _ hm => by cases hm) (by decide)

/-! ## Tiles that are not reached -/

/-- C12: `evaluateMap( start, skill )` returns, and afterwards every tile of the
map other than `start` that no sequence of valid moves from `start` through
expandable tiles reaches (no tile that can enter the frontier has a
relaxation towards it) still holds the default node: predecessor -1 and the
default cost. -/
theorem evaluateMap_unreached_default (W : World) (start : Int) (skill : Nat)
    (hprot : W.protectionInRange) (hstart : W.inRange start) :
    ∃ pf, Pathfinder.evaluateMap W start skill = some pf ∧
      ∀ t, W.inRange t → t ≠ start →
        (¬ ∃ u, Expandable W start (W.isWater start) u ∧ Expands W start (W.isWater start) u t) →
        readNode pf._cache t = some W.defaultNode := by
  obtain ⟨pf, h, _, _, _, _, hQ⟩ := evaluateMap_spec skill hprot hstart
    (fun c q =>
      (∀ u ∈ q, Expandable W start (W.isWater start) u) ∧
      ∀ t, (∃ u, Expandable W start (W.isWater start) u ∧ Expands W start (W.isWater start) u t) ∨
        readNode c t
          = readNode ((List.replicate (W.w * W.h) W.defaultNode).set start.toNat ⟨-1, 0⟩) t)
    (by
      intro c cur pend m c' b _ _ hQ hm hdirs ho
      refine ⟨hQ.1, ?_⟩
      intro t
      by_cases ht : t = m
      · left
        exact ⟨cur, hQ.1 cur (List.mem_cons_self _ _),
          ht ▸ Expands.monster cur m hm hdirs.1 hdirs.2.1 hdirs.2.2⟩
      · rw [ho.read_other ht]
        exact hQ.2 t)
    (by
      intro c cur pend d c' b _ _ hQ hg hb hd hp ho
      have hcur := hQ.1 cur (List.mem_cons_self _ _)
      refine ⟨?_, ?_⟩
      · intro u hu
        cases b
        · exact hQ.1 u (by simpa using hu)
        · simp only [if_true, List.mem_cons, List.mem_append, List.mem_singleton,
            List.mem_nil_iff, or_false] at hu
          rcases hu with h1 | h1 | h1
          · exact h1 ▸ hcur
          · exact hQ.1 u (List.mem_cons_of_mem _ h1)
          · exact h1 ▸ Expandable.step cur d hcur hg hb hd hp
      · intro t
        by_cases ht : t = Maps.GetDirectionIndex W cur d
        · left
          exact ⟨cur, hcur, ht ▸ Expands.move cur d hg hb hd hp⟩
        · rw [ho.read_other ht]
          exact hQ.2 t)
    (by
      intro c cur pend _ _ hQ _
      exact ⟨fun u hu => hQ.1 u (List.mem_cons_of_mem _ hu), hQ.2⟩)
    ⟨fun u hu => (List.mem_singleton.mp hu) ▸ Expandable.source, fun _ => Or.inr rfl⟩
  refine ⟨pf, h, ?_⟩
  intro t ht hts hno
  rcases hQ t with h1 | h1
  · exact absurd h1 hno
  · rw [h1, initialCache_read hstart, if_neg hts, if_pos ht]

theorem evaluateMap_unreached_default_witness :
    ∃ pf, Pathfinder.evaluateMap (closedLand 2 1 100) 0 0 = some pf ∧
      ∀ t, (closedLand 2 1 100).inRange t → t ≠ 0 →
        (¬ ∃ u, Expandable (closedLand 2 1 100) 0 ((closedLand 2 1 100).isWater 0) u ∧
          Expands (closedLand 2 1 100) 0 ((closedLand 2 1 100).isWater 0) u t) →
        readNode pf._cache t = some (closedLand 2 1 100).defaultNode :=
  evaluateMap_unreached_default (closedLand 2 1 100) 0 0 (fun _ _ hm => by cases hm) (by decide)

/-! ## Predecessor chains and `buildPath` -/

theorem Direction.Get_spec {W : World} {u v : Int}
    (h : ∃ d ∈ Direction.All, v = Maps.GetDirectionIndex W u d) :
    Direction.Get W u v ∈ Direction.All ∧ Maps.GetDirectionIndex W u (Direction.Get W u v) = v := by
  unfold Direction.Get
  cases hf : Direction.All.find? (fun d => decide (v = Maps.GetDirectionIndex W u d)) with
  | none =>
    obtain ⟨d, hd, hv⟩ := h
    have := List.find?_eq_none.mp hf d hd
    simp only [decide_eq_true_eq] at this
    exact absurd hv this
  | some d =>
    have h1 := List.find?_some hf
    have h2 := List.mem_of_find?_eq_some hf
    simp only [decide_eq_true_eq] at h1
    exact ⟨h2, h1.symm⟩

theorem Direction.Get_mem {W : World} {u v : Int} (h1 : Direction.Get W u v ≠ .UNKNOWN)
    (h2 : Direction.Get W u v ≠ .CENTER) :
    ∃ d ∈ Direction.All, v = Maps.GetDirectionIndex W u d := by
  unfold Direction.Get at h1 h2
  cases hf : Direction.All.find? (fun d => decide (v = Maps.GetDirectionIndex W u d)) with
  | none =>
    rw [hf] at h1 h2
    by_cases hvu : v = u
    · simp [hvu] at h2
    · simp [hvu] at h1
  | some d =>
    have h3 := List.find?_some hf
    simp only [decide_eq_true_eq] at h3
    exact ⟨d, List.mem_of_find?_eq_some hf, h3⟩

theorem ChainInv.initial {W : World} {start : Int} (B : Nat) (hstart : W.inRange start) :
    ChainInv W start B (fun _ => 0)
      ((List.replicate (W.w * W.h) W.defaultNode).set start.toNat ⟨-1, 0⟩) [start] where
  queued := fun u hu => Or.inl (List.mem_singleton.mp hu)
  source := fun n hn _ => by
    rw [initialCache_read hstart, if_pos rfl] at hn
    cases hn; rfl
  bound := fun v n hv hn => absurd (initialCache_unreached hstart hv) hn
  link := fun v n hv hn => absurd (initialCache_unreached hstart hv) hn
  dec := fun v n _ hv hn => absurd (initialCache_unreached hstart hv) hn

theorem ChainInv.drop_head {W : World} {start : Int} {B : Nat} {rank : Int → Nat}
    {cs : List PathfindingNode}
    {cur : Int} {pend : List Int} (hQ : ChainInv W start B rank cs (cur :: pend)) :
    ChainInv W start B rank cs pend where
  queued := fun u hu => hQ.queued u (List.mem_cons_of_mem _ hu)
  source := hQ.source
  bound := hQ.bound
  link := hQ.link
  dec := hQ.dec

theorem ChainInv.relax {W : World} {start : Int} {B : Nat} {rank : Int → Nat}
    {cs cs' : List PathfindingNode}
    {cur v : Int} {p : Nat} {pend pend' : List Int} {b : Bool}
    (hov : (W.w * W.h + 1) * B < U32) (hpB : p ≤ B)
    (hlen : cs.length = W.w * W.h) (hcur : W.inRange cur)
    (hQ : ChainInv W start B rank cs (cur :: pend))
    (hadj : ∃ d ∈ Direction.All, v = Maps.GetDirectionIndex W cur d)
    (hpend : ∀ u ∈ pend', u ∈ pend ∨ (b = true ∧ u = v))
    (ho : RelaxOutcome cs cur v p cs' b) :
    ∃ rank', ChainInv W start B rank' cs' (cur :: pend') := by
  have hold : ∀ u, u ∈ cur :: pend →
      u = start ∨ ∃ n, readNode cs' u = some n ∧ n._from ≠ -1 := by
    intro u hin
    rcases hQ.queued u hin with h | ⟨n, h1, h2⟩
    · exact Or.inl h
    · obtain ⟨n', e1, e2, _⟩ := ho.mono h1 h2
      exact Or.inr ⟨n', e1, e2⟩
  cases b with
  | false =>
    have := ho.keep_eq
    subst this
    refine ⟨rank, ?_, hQ.source, hQ.bound, hQ.link, hQ.dec⟩
    intro u hu
    rcases List.mem_cons.mp hu with h | h
    · exact hQ.queued u (h ▸ List.mem_cons_self _ _)
    · rcases hpend u h with h1 | ⟨h1, _⟩
      · exact hQ.queued u (List.mem_cons_of_mem _ h1)
      · cases h1
  | true =>
    obtain ⟨nu, nv, hnu, hnv, hcond, hnew⟩ := ho.write_cond
    have hcurne : cur ≠ -1 := ho.source_ne
    have helig : nu._cost ≤ reachedCount cs * B ∧ (cur = start ∨ nu._from ≠ -1) := by
      by_cases hf : nu._from = -1
      · have hs : cur = start := by
          rcases hQ.queued cur (List.mem_cons_self _ _) with h | ⟨n, h1, h2⟩
          · exact h
          · rw [hnu] at h1; cases h1; exact absurd hf h2
        have h0 := hQ.source nu (hs ▸ hnu) hf
        exact ⟨by omega, Or.inl hs⟩
      · exact ⟨hQ.bound cur nu hnu hf, Or.inr hf⟩
    have hrc : reachedCount cs ≤ W.w * W.h := hlen ▸ reachedCount_le cs
    have hmul : reachedCount cs * B ≤ W.w * W.h * B := Nat.mul_le_mul_right _ hrc
    have hexp : (W.w * W.h + 1) * B = W.w * W.h * B + B := by ring
    have hm : (nu._cost + p) % U32 = nu._cost + p := Nat.mod_eq_of_lt (by omega)
    have hge : reachedCount cs * B ≤ reachedCount cs' * B :=
      Nat.mul_le_mul_right _ ho.reachedCount_ge
    refine ⟨fun x => if x = v then rank cur + 1 else rank x, ?_, ?_, ?_, ?_, ?_⟩
    · intro u hu
      rcases List.mem_cons.mp hu with h | h
      · exact hold u (h ▸ List.mem_cons_self _ _)
      · rcases hpend u h with h1 | ⟨_, h1⟩
        · exact hold u (List.mem_cons_of_mem _ h1)
        · exact Or.inr ⟨_, h1 ▸ hnew, hcurne⟩
    · intro n hn hf
      rcases ho.read_cases hn with h | ⟨_, _, h3⟩
      · exact hQ.source n h hf
      · rw [h3] at hf; exact absurd hf hcurne
    · intro x n hx hn
      rcases ho.read_cases hx with h | ⟨_, hxv, _⟩
      · exact le_trans (hQ.bound x n h hn) hge
      · rw [hxv, hnew] at hx
        cases hx
        simp only [hm]
        by_cases hf : nv._from = -1
        · have := ho.reachedCount_new hnv hf
          rw [← this]
          have : (reachedCount cs + 1) * B = reachedCount cs * B + B := by ring
          omega
        · have h1 := hQ.bound _ nv hnv hf
          rcases hcond with h2 | h2
          · exact absurd h2 hf
          · rw [hm] at h2
            omega
    · intro x n hx hn
      rcases ho.read_cases hx with h | ⟨_, hxv, hfrom⟩
      · exact hQ.link x n h hn
      · rw [hfrom, hxv]
        exact ⟨hcur, hadj⟩
    · intro x n hxs hx hn
      by_cases hxv : x = v
      · rw [hxv, hnew] at hx
        cases hx
        rcases helig.2 with h | h
        · exact Or.inl h
        · right
          have hvc : cur ≠ v := by
            intro e
            rw [← e, hnu] at hnv
            cases hnv
            rcases hcond with h2 | h2
            · exact h h2
            · rw [hm] at h2
              omega
          refine ⟨nu, by rw [ho.read_other hvc]; exact hnu, h, ?_⟩
          simp only [hm, hxv, if_pos, if_neg hvc]
          omega
      · rw [ho.read_other hxv] at hx
        rcases hQ.dec x n hxs hx hn with h | ⟨n1, h1, h2, h3⟩
        · exact Or.inl h
        · right
          by_cases huv : n._from = v
          · rw [huv, hnv] at h1
            cases h1
            refine ⟨_, huv ▸ hnew, hcurne, Or.inl ?_⟩
            rcases hcond with h4 | h4
            · exact absurd h4 h2
            · simp only
              omega
          · refine ⟨n1, by rw [ho.read_other huv]; exact h1, h2, ?_⟩
            simp only [if_neg huv, if_neg hxv]
            exact h3

theorem evaluateMap_chainInv {W : World} {start : Int} (skill : Nat) {B : Nat}
    (hprot : W.protectionInRange) (hstart : W.inRange start)
    (hpen : W.penaltiesAtMost skill B) (hov : (W.w * W.h + 1) * B < U32) :
    ∃ pf, Pathfinder.evaluateMap W start skill = some pf ∧ pf._cache.length = W.w * W.h ∧
      pf._pathStart = start ∧ pf._pathfindingSkill = skill ∧
      ∃ rank, ChainInv W start B rank pf._cache [] :=
  evaluateMap_spec skill hprot hstart (fun cs q => ∃ rank, ChainInv W start B rank cs q)
    (by
      intro c cur pend m c' b hlen hcur hQ hm hdirs ho
      obtain ⟨rank, hQ⟩ := hQ
      exact ChainInv.relax hov (hpen cur m _) hlen hcur hQ
        (Direction.Get_mem hdirs.1 hdirs.2.1)
        (fun u hu => Or.inl hu) ho)
    (by
      intro c cur pend d c' b hlen hcur hQ _ _ hd _ ho
      obtain ⟨rank, hQ⟩ := hQ
      refine ChainInv.relax hov (hpen cur _ d) hlen hcur hQ
        ⟨d, validDirection_mem_All hd, rfl⟩ ?_ ho
      intro u hu
      cases b
      · exact Or.inl (by simpa using hu)
      · simp only [if_true, List.mem_append, List.mem_singleton] at hu
        rcases hu with h | h
        · exact Or.inl h
        · exact Or.inr ⟨rfl, h⟩)
    (by
      intro c cur pend _ _ hQ _
      obtain ⟨rank, hQ⟩ := hQ
      exact ⟨rank, hQ.drop_head⟩)
    ⟨_, ChainInv.initial B hstart⟩

theorem ChainInv.chain_to_source {W : World} {start : Int} {B : Nat} {rank : Int → Nat}
    {cs : List PathfindingNode} {q : List Int} (hQ : ChainInv W start B rank cs q) :
    ∀ (k r : Nat) (t : Int) (n : PathfindingNode), t ≠ start → readNode cs t = some n →
      n._from ≠ -1 → n._cost = k → rank t = r →
      ∃ m, 0 < m ∧ chainNode cs m t = some start ∧
        ∀ j < m, ∀ x, chainNode cs j t = some x → x ≠ start ∧ x ≠ -1
  | k, r, t, n, hts, ht, hn, hk, hr => by
    have ht0 : t ≠ -1 := by
      have := (readNode_eq_some ht).1
      omega
    have hshift : ∀ j x, chainNode cs (j + 1) t = some x ↔ chainNode cs j n._from = some x := by
      intro j x; simp only [chainNode, ht]
    by_cases hu : n._from = start
    · refine ⟨1, by omega, ?_, ?_⟩
      · rw [hshift 0]; simp only [chainNode, hu]
      · intro j hj x hx
        have hj0 : j = 0 := by omega
        subst hj0
        simp only [chainNode, Option.some.injEq] at hx
        subst hx
        exact ⟨hts, ht0⟩
    · rcases hQ.dec t n hts ht hn with h | ⟨nu, h1, h2, h3⟩
      · exact absurd h hu
      · obtain ⟨m, hm0, hm1, hm2⟩ :=
          ChainInv.chain_to_source hQ nu._cost (rank n._from) n._from nu hu h1 h2 rfl rfl
        refine ⟨m + 1, by omega, (hshift m start).mpr hm1, ?_⟩
        intro j hj x hx
        cases j with
        | zero =>
          simp only [chainNode, Option.some.injEq] at hx
          subst hx
          exact ⟨hts, ht0⟩
        | succ j => exact hm2 j (by omega) x ((hshift j x).mp hx)
termination_by k r => (k, r)
decreasing_by
  subst hk hr
  rcases h3 with h | ⟨h, h'⟩
  · exact Prod.Lex.left _ _ h
  · rw [h]
    exact Prod.Lex.right _ h'

theorem routeFrom_append {W : World} {cache : List PathfindingNode} :
    ∀ (path : List Route.Step) (a b : Int) (st : Route.Step) (t : Int),
      routeFrom W cache a path b → routeFrom W cache b [st] t →
      routeFrom W cache a (path ++ [st]) t
  | [], a, b, st, t, h1, h2 => by
    simp only [routeFrom] at h1
    subst h1
    simpa using h2
  | s :: path, a, b, st, t, h1, h2 => by
    simp only [routeFrom, List.cons_append] at h1 ⊢
    exact ⟨h1.1, h1.2.1, h1.2.2.1, routeFrom_append path _ b st t h1.2.2.2 h2⟩

theorem buildPathLoop_route {W : World} {start : Int} {B : Nat} {rank : Int → Nat}
    {cs : List PathfindingNode} {q : List Int} (hQ : ChainInv W start B rank cs q)
    (hs : start ≠ -1) :
    ∀ (m fuel : Nat) (cur : Int) (cost : Nat) (acc : List Route.Step), m < fuel →
      chainNode cs m cur = some start →
      (∀ j < m, ∀ x, chainNode cs j cur = some x → x ≠ start ∧ x ≠ -1) →
      ∃ steps, buildPathLoop W cs start fuel cur cost acc = some (steps ++ acc) ∧
        steps.length = m ∧ routeFrom W cs start steps cur
  | 0, fuel + 1, cur, cost, acc, _, hend, _ => by
    simp only [chainNode, Option.some.injEq] at hend
    subst hend
    refine ⟨[], ?_, rfl, rfl⟩
    simp [buildPathLoop]
  | m + 1, fuel + 1, cur, cost, acc, hf, hend, hbefore => by
    have hgo : cur ≠ start ∧ cur ≠ -1 := hbefore 0 (by omega) cur rfl
    simp only [chainNode] at hend
    cases hr : readNode cs cur with
    | none => rw [hr] at hend; cases hend
    | some node =>
      rw [hr] at hend
      have hshift : ∀ j x, chainNode cs (j + 1) cur = some x ↔
          chainNode cs j node._from = some x := by
        intro j x; simp only [chainNode, hr]
      have hfrom : node._from ≠ -1 := by
        intro e
        cases m with
        | zero =>
          simp only [chainNode, Option.some.injEq] at hend
          exact hs (by rw [← hend, e])
        | succ m =>
          have := hbefore 1 (by omega) (-1) ((hshift 0 (-1)).mpr (by simp [chainNode, e]))
          exact this.2 rfl
      obtain ⟨steps, h1, h2, h3⟩ := buildPathLoop_route hQ hs m fuel node._from node._cost
        (⟨node._from, Direction.Get W node._from cur, (cost + U32 - node._cost) % U32⟩ :: acc)
        (by omega) hend (fun j hj x hx => hbefore (j + 1) (by omega) x ((hshift j x).mpr hx))
      have hl := hQ.link cur node hr hfrom
      have hg := Direction.Get_spec hl.2
      refine ⟨steps ++ [⟨node._from, Direction.Get W node._from cur,
        (cost + U32 - node._cost) % U32⟩], ?_, by simp [h2], ?_⟩
      · simp only [buildPathLoop]
        rw [if_pos hgo]
        simp only [hr, h1, List.append_assoc, List.singleton_append]
      · apply routeFrom_append steps start node._from _ cur h3
        simp only [routeFrom, hg.2, hr, Option.map_some', and_self, true_and]

theorem steepMap_evaluateMap :
    Pathfinder.evaluateMap steepMap 0 0
      = some ⟨[⟨1, 0⟩, ⟨2, 1073741824⟩, ⟨1, 0⟩], 0, 0⟩ := by
  decide

theorem steepMap_chainNode :
    ∀ (m : Nat) (cur : Int), cur = 1 ∨ cur = 2 →
      chainNode [⟨1, 0⟩, ⟨2, 1073741824⟩, ⟨1, 0⟩] m cur ≠ some 0
  | 0, cur, h => by
    rcases h with h | h <;> subst h <;> simp [chainNode]
  | m + 1, cur, h => by
    rcases h with h | h <;> subst h
    · simpa [chainNode, readNode] using steepMap_chainNode m 2 (Or.inr rfl)
    · simpa [chainNode, readNode] using steepMap_chainNode m 1 (Or.inl rfl)

theorem steepMap_buildPathLoop :
    ∀ (fuel : Nat) (cur : Int) (cost : Nat) (path : List Route.Step), cur = 1 ∨ cur = 2 →
      buildPathLoop steepMap [⟨1, 0⟩, ⟨2, 1073741824⟩, ⟨1, 0⟩] 0 fuel cur cost path = none
  | 0, _, _, _, _ => rfl
  | fuel + 1, cur, cost, path, h => by
    rcases h with h | h <;> subst h
    · simpa [buildPathLoop, readNode] using steepMap_buildPathLoop fuel 2 _ _ (Or.inr rfl)
    · simpa [buildPathLoop, readNode] using steepMap_buildPathLoop fuel 1 _ _ (Or.inl rfl)

theorem steepMap_isBlockedByObjectLoop (fromWater : Bool) :
    ∀ (fuel : Nat) (cur : Int), cur = 1 ∨ cur = 2 →
      isBlockedByObjectLoop steepMap [⟨1, 0⟩, ⟨2, 1073741824⟩, ⟨1, 0⟩] 0 fromWater fuel cur = none
  | 0, _, _ => rfl
  | fuel + 1, cur, h => by
    have hb : ∀ i, steepMap.isTileBlocked i fromWater = false := by
      intro i
      cases fromWater <;> simp [World.isTileBlocked, steepMap, uniformLand]
    rcases h with h | h <;> subst h
    · simpa [isBlockedByObjectLoop, readNode, hb] using
        steepMap_isBlockedByObjectLoop fromWater fuel 2 (Or.inr rfl)
    · simpa [isBlockedByObjectLoop, readNode, hb] using
        steepMap_isBlockedByObjectLoop fromWater fuel 1 (Or.inl rfl)

/-- C15 (counterexample): on `steepMap`, three land tiles in a row with the
terrain penalty `3 * 2 ^ 30`, the `uint32_t` costs wrap and
`evaluateMap( 0, 0 )` leaves tile 1 with the predecessor 2 and tile 2 with the
predecessor 1. Tile 1 is a reached target other than the source, and the loop
of `buildPath( 0, 1, 0 )` returns for no number of iterations: there is no
walk from the source to tile 1 that it could return. -/
theorem buildPath_loops_on_wrapped_costs :
    Pathfinder.evaluateMap steepMap 0 0
      = some ⟨[⟨1, 0⟩, ⟨2, 1073741824⟩, ⟨1, 0⟩], 0, 0⟩ ∧
    readNode [⟨1, 0⟩, ⟨2, 1073741824⟩, ⟨1, 0⟩] 1 = some ⟨2, 1073741824⟩ ∧
    (∀ fuel cost path,
      buildPathLoop steepMap [⟨1, 0⟩, ⟨2, 1073741824⟩, ⟨1, 0⟩] 0 fuel 1 cost path = none) ∧
    Pathfinder.buildPath steepMap ⟨[⟨1, 0⟩, ⟨2, 1073741824⟩, ⟨1, 0⟩], 0, 0⟩ 0 1 0 = none :=
  ⟨steepMap_evaluateMap, rfl,
    fun fuel cost path => steepMap_buildPathLoop fuel 1 cost path (Or.inl rfl), by decide⟩

/-- C15 (amended): on a map whose protection lists hold tiles of the map and
whose movement penalties are at most `B` with `(w * h + 1) * B < 2 ^ 32` (so
that no `uint32_t` cost wraps), `evaluateMap( start, skill )` returns, and for
every reached target `t` other than `start` (a node with a predecessor)
`buildPath( start, t, skill )` returns a non-empty list of steps that is a
connected walk from `start` to `t`: the first step starts at `start`, each
step's direction is the direction from its origin to the tile it arrives at,
whose recorded predecessor is the origin, each later step starts where the
previous one arrives, and the last step arrives at `t`. -/
theorem buildPath_connected_walk (W : World) (start : Int) (skill B : Nat)
    (hprot : W.protectionInRange) (hstart : W.inRange start)
    (hpen : W.penaltiesAtMost skill B) (hov : (W.w * W.h + 1) * B < U32) :
    ∃ pf, Pathfinder.evaluateMap W start skill = some pf ∧
      ∀ t node, t ≠ start → readNode pf._cache t = some node → node._from ≠ -1 →
        ∃ path, Pathfinder.buildPath W pf start t skill = some (path, pf) ∧ path ≠ [] ∧
          routeFrom W pf._cache start path t := by
  obtain ⟨pf, h, hlen, htag1, htag2, rank, hQ⟩ := evaluateMap_chainInv skill hprot hstart hpen hov
  refine ⟨pf, h, ?_⟩
  intro t node hts ht hn
  obtain ⟨m, hm0, hm1, hm2⟩ := hQ.chain_to_source node._cost (rank t) t node hts ht hn rfl rfl
  have hmlen := chain_length_le hm1 (Or.inl rfl) hm2
  have hs : start ≠ -1 := by
    have := hstart.1
    omega
  obtain ⟨steps, h1, h2, h3⟩ := buildPathLoop_route hQ hs m (pf._cache.length + 2) t node._cost []
    (by omega) hm1 hm2
  refine ⟨steps, ?_, ?_, h3⟩
  · have hre : Pathfinder.reEvaluateIfNeeded W pf start skill = some pf := by
      simp [Pathfinder.reEvaluateIfNeeded, htag1, htag2]
    simp only [Pathfinder.buildPath, hre, ht, h1, List.append_nil]
  · intro e
    rw [e] at h2
    simp at h2
    omega

theorem buildPath_connected_walk_witness :
    ∃ pf, Pathfinder.evaluateMap (uniformLand 5 5 100) 0 0 = some pf ∧
      ∀ t node, t ≠ 0 → readNode pf._cache t = some node → node._from ≠ -1 →
        ∃ path, Pathfinder.buildPath (uniformLand 5 5 100) pf 0 t 0 = some (path, pf) ∧
          path ≠ [] ∧ routeFrom (uniformLand 5 5 100) pf._cache 0 path t :=
  buildPath_connected_walk (uniformLand 5 5 100) 0 0 150 (fun _ _ hm => by cases hm)
    (by decide)
    (by
      intro u v d
      cases d <;> simp [Pathfinder.getMovementPenalty, uniformLand, Direction.isDiagonal, U32])
    (by decide)

/-! ## Geometry of the padded grid -/

theorem toInt32_small {n : Nat} (h : n < 2147483648) : toInt32 n = (n : Int) := by
  have h1 : n % U32 = n := Nat.mod_eq_of_lt (by unfold U32; omega)
  unfold toInt32
  rw [h1, if_pos h]

theorem typeOfId_eq {id : Int} (h : (REGION : Int) ≤ id ∧ id < (U16 : Int)) :
    ((typeOfId id : Nat) : Int) = id ∧ typeOfId id ≠ OPEN := by
  obtain ⟨h1, h2⟩ := h
  have h3 : (REGION : Int) = 3 := rfl
  have h0 : id % ((U16 : Nat) : Int) = id := Int.emod_eq_of_lt (by omega) h2
  unfold typeOfId
  rw [h0]
  constructor
  · exact Int.toNat_of_nonneg (by omega)
  · intro h
    have : id.toNat = 1 := h
    omega

theorem Flooded.trans {d0 d1 d2 : List MapRegionNode} {r0 r1 r2 : MapRegion}
    (h01 : Flooded d0 r0 d1 r1) (h12 : Flooded d1 r1 d2 r2) : Flooded d0 r0 d2 r2 := by
  refine ⟨h12.id.trans h01.id, h12.water.trans h01.water,
    fun i hi => h12.members i (h01.members i hi), ?_, ?_, Nat.le_trans h01.len h12.len⟩
  · intro p cell hp ho
    rcases h01.opens p cell hp ho with h | h
    · exact h12.opens p cell h ho
    · exact Or.inr (h12.members _ h)
  · have := h01.count
    have := h12.count
    omega

theorem RegionOK.create {M : WorldMap} {k : Nat} {t : Int} (ht : M.inRange t)
    (hk : k + REGION < U16) : RegionOK M (MapRegion.create k t (M.isWater t)) := by
  have hid : (REGION : Int) ≤ (REGION : Int) + (k : Int) ∧
      (REGION : Int) + (k : Int) < (U16 : Int) := by
    constructor
    · omega
    · have : ((k + REGION : Nat) : Int) < ((U16 : Nat) : Int) := by exact_mod_cast hk
      push_cast at this
      omega
  refine ⟨hid, by simp [MapRegion.create], ?_, by simp [MapRegion.create]⟩
  intro node hnode
  simp only [MapRegion.create, List.mem_singleton] at hnode
  subst hnode
  exact ⟨ht, rfl, Or.inr (typeOfId_eq hid).1⟩

/-- C17 (failing input): on `oneWayMap` the analysis
returns nine regions, and tile 1, the seed of the region with id 4, is also a
member of the region with id 5 (so are tiles 3, 4, 6 and 7 members of two
regions): `FindMissingRegions` leaves the cell of the seed of a new region
`OPEN`, so the region seeded next claims it. -/
theorem computeStaticAnalysis_claims_tile_twice :
    (World.ComputeStaticAnalysis oneWayMap).map
        (fun res => res.regions.map (fun reg => (reg.id, reg.nodes.map (·.index)))) =
      some [(3, [0]), (4, [1]), (5, [2, 1]), (6, [3]), (7, [4, 3]), (8, [5, 4]), (9, [6]),
        (10, [7, 6]), (11, [8, 7])] := by
  decide

/-- C19 (failing input): in `oneWaySeeded` the cell of tile 0
is claimed by the first region (type `REGION` = 3) and can be entered from its
right neighbour; `CheckAdjacentTiles` for the region with id 4, whose only
member is tile 1, the right neighbour of tile 0, leaves the node of tile 1 with
the type 4 and `edgeNodes` empty: the test `newTile.type > REGION` passes over
a neighbour claimed by the first region. -/
theorem checkAdjacentTiles_misses_first_region :
    (readCell oneWaySeeded (ConvertExtendedIndex 0 5)).map
        (fun cell => (cell.type, cell.passable &&& Direction.flag Direction.RIGHT)) =
      some (3, 8) ∧
    (CheckAdjacentTiles oneWaySeeded 5 (MapRegion.create 1 1 false)).map
        (fun r => (r.2.id, r.2.nodes.map (fun n => (n.index, n.type)),
          r.2.edgeNodes.map (·.index))) =
      some (4, [(1, 4)], []) := by
  decide

/-- C26: `isValidPath( index, direction )` is true exactly when the move
validity rule holds: the origin is not water, or the direction is not
diagonal, or both tiles next to the origin on the side of the diagonal are
water; and the origin is passable in the direction and the destination in the
reflected direction, both with the water flag of the origin. -/
theorem isValidPath_iff_rule (W : World) (index : Int) (direction : Direction) :
    W.isValidPath index direction = true ↔ W.validMoveRule index direction := by
  unfold World.isValidPath World.validMoveRule
  cases hw : W.isWater index <;>
    cases hp : W.isPassable index direction (W.isWater index) <;>
    cases hq : W.isPassable (Maps.GetDirectionIndex W index direction) direction.Reflect
      (W.isWater index) <;>
    cases direction <;>
    simp [hw] at hp hq ⊢ <;>
    simp [World.cornerBlocked, Direction.isDiagonal, Direction.sides, hp, hq, Direction.Reflect]
      at *

/-- C27: for a direction that is not diagonal, `getMovementPenalty` returns
the road penalty when the origin and the destination are both roads, and the
terrain penalty of the destination for the skill otherwise (as `uint32_t`
values); a map that differs in the terrain penalties of other tiles only, the
origin included, gives the same value. -/
theorem getMovementPenalty_straight (W : World) (fromIdx target : Int) (direction : Direction)
    (skill : Nat) (hd : direction.isDiagonal = false) :
    Pathfinder.getMovementPenalty W fromIdx target direction skill =
        (if W.isRoad fromIdx = true ∧ W.isRoad target = true then W.roadPenalty % U32
          else W.GetPenalty target skill % U32) ∧
      ∀ terrain : Int → Nat → Nat, terrain target skill = W.GetPenalty target skill →
        Pathfinder.getMovementPenalty { W with GetPenalty := terrain } fromIdx target direction
            skill =
          Pathfinder.getMovementPenalty W fromIdx target direction skill := by
  constructor
  · simp only [Pathfinder.getMovementPenalty, hd]
    cases W.isRoad fromIdx <;> cases W.isRoad target <;> simp
  · intro terrain ht
    simp only [Pathfinder.getMovementPenalty, hd, ht]

theorem getMovementPenalty_straight_witness :
    Pathfinder.getMovementPenalty (uniformLand 2 1 100) 0 1 Direction.RIGHT 0 =
        (if (uniformLand 2 1 100).isRoad 0 = true ∧ (uniformLand 2 1 100).isRoad 1 = true then
          (uniformLand 2 1 100).roadPenalty % U32
          else (uniformLand 2 1 100).GetPenalty 1 0 % U32) ∧
      ∀ terrain : Int → Nat → Nat, terrain 1 0 = (uniformLand 2 1 100).GetPenalty 1 0 →
        Pathfinder.getMovementPenalty { uniformLand 2 1 100 with GetPenalty := terrain } 0 1
            Direction.RIGHT 0 =
          Pathfinder.getMovementPenalty (uniformLand 2 1 100) 0 1 Direction.RIGHT 0 :=
  getMovementPenalty_straight (uniformLand 2 1 100) 0 1 Direction.RIGHT 0 rfl

theorem reEvaluateIfNeeded_total {W : World} {pf : Pathfinder} {fromIdx : Int} (skill : Nat)
    (hpf : Pathfinder.reachable W pf) (hprot : W.protectionInRange) (hf : W.inRange fromIdx) :
    ∃ pf1, Pathfinder.reEvaluateIfNeeded W pf fromIdx skill = some pf1 ∧
      pf1._cache.length = W.w * W.h := by
  unfold Pathfinder.reEvaluateIfNeeded
  split
  · obtain ⟨pf1, h1⟩ := evaluateMap_total skill hprot hf
    exact ⟨pf1, h1, (evaluateMap_eq_some h1).1⟩
  · rename_i hn
    refine ⟨pf, rfl, ?_⟩
    rcases hpf with h | ⟨s, k, h⟩
    · exfalso
      apply hn
      left
      rw [h]
      have := hf.1
      simp only [Pathfinder.reset, ne_eq]
      omega
    · exact (evaluateMap_eq_some h).1

/-- C28: on a map whose protection lists hold tiles of the map, for a
pathfinder that is freshly reset or was left by an earlier `evaluateMap`, and
for every source `s` on the map and every skill, `buildPath( s, s, skill )`
returns the empty list of steps. -/
theorem buildPath_self_empty (W : World) (pf : Pathfinder) (s : Int) (skill : Nat)
    (hpf : Pathfinder.reachable W pf) (hprot : W.protectionInRange) (hs : W.inRange s) :
    ∃ pf1, Pathfinder.buildPath W pf s s skill = some ([], pf1) := by
  obtain ⟨pf1, h1, h2⟩ := reEvaluateIfNeeded_total skill hpf hprot hs
  obtain ⟨node, hn⟩ := @readNode_of_range pf1._cache s hs.1 (by rw [h2]; exact hs.2)
  refine ⟨pf1, ?_⟩
  simp [Pathfinder.buildPath, h1, hn, buildPathLoop]

theorem buildPath_self_empty_witness :
    ∃ pf1, Pathfinder.buildPath (uniformLand 2 1 100) Pathfinder.reset 1 1 0 = some ([], pf1) :=
  buildPath_self_empty (uniformLand 2 1 100) Pathfinder.reset 1 0 (Or.inl rfl)
    (fun _ _ h => by simp [uniformLand] at h) (by decide)

/-! ## Animation sequences -/

/-- C29: for the sequence built from (or assigned) an empty frame vector,
`playAnimation( loop )` for both values of `loop`, `getFrame()`, `firstFrame()`
and `restartAnimation()` return 0 and leave the sequence as it is, with the
frame index 0. On an empty vector every element access is outside the vector,
which has no result here, so none is made. -/
theorem emptySequence_guard (loop : Bool) (old : AnimationSequence) :
    old.assign [] = AnimationSequence.ofVector [] ∧
    (AnimationSequence.ofVector [])._currentFrame = 0 ∧
    (AnimationSequence.ofVector []).playAnimation loop =
      some (0, AnimationSequence.ofVector []) ∧
    (AnimationSequence.ofVector []).getFrame = some 0 ∧
    (AnimationSequence.ofVector []).firstFrame = some 0 ∧
    (AnimationSequence.ofVector []).restartAnimation =
      some (0, AnimationSequence.ofVector []) := by
  refine ⟨rfl, rfl, ?_, rfl, rfl, rfl⟩
  cases loop <;> rfl

theorem restartAnimation_assign (old : AnimationSequence) {seq : List Int} (h : seq ≠ []) :
    ∃ frame, (old.assign seq).restartAnimation = some (frame, ⟨seq, 0⟩) := by
  cases seq with
  | nil => exact absurd rfl h
  | cons a l =>
    exact ⟨a, by simp [AnimationSequence.restartAnimation, AnimationSequence.assign,
      AnimationSequence.getFrame, AnimationSequence.isValid]⟩

theorem combineAnimation_fold (ref : AnimationReference) :
    ∀ (animationList : List AnimState) (seqs : List (List Int)) (acc : AnimState × List Int),
      List.Forall₂ (fun a seq => ref.getAnimationVector a = some seq) animationList seqs →
      ∃ animState, animationList.foldlM (combineAnimation ref) acc =
          some (animState, acc.2 ++ seqs.flatten) ∧
        (seqs.flatten = [] → animState = acc.1) := by
  intro animationList seqs acc h
  induction h generalizing acc with
  | nil => exact ⟨acc.1, by simp, fun _ => rfl⟩
  | @cons a seq l seqs ha _ ih =>
    by_cases hs : seq = []
    · obtain ⟨animState, h1, h2⟩ := ih acc
      refine ⟨animState, ?_, ?_⟩
      · simp only [List.foldlM_cons, combineAnimation, ha, hs, List.length_nil,
          gt_iff_lt, lt_self_iff_false, if_false, List.flatten_cons, List.nil_append]
        exact h1
      · intro hj
        apply h2
        simpa [hs] using hj
    · obtain ⟨animState, h1, -⟩ := ih (a, acc.2 ++ seq)
      refine ⟨animState, ?_, ?_⟩
      · have hpos : seq.length > 0 := List.length_pos.2 hs
        simp only [List.foldlM_cons, combineAnimation, ha, hpos, if_true, List.flatten_cons]
        simpa [List.append_assoc] using h1
      · intro hj
        simp [hs] at hj

/-- C30: both `switchAnimation` overloads return false exactly when the
selected frame vector (for the list overload, the concatenation of the vectors
selected by the entries of the list) is empty, and then the state is left as
it was; when they return true, the current sequence is the selected frames,
reversed when `reverse` is set, with the frame index 0, and the frame vectors
of the reference are unchanged. -/
theorem switchAnimation_atomic (st : AnimationState) (reverse : Bool) :
    (∀ (animState : AnimState) (seq : List Int),
      st.toAnimationReference.getAnimationVector animState = some seq →
      ∃ st1, st.switchAnimation animState reverse = some (decide (seq ≠ []), st1) ∧
        (seq = [] → st1 = st) ∧
        (seq ≠ [] → st1._currentSequence = ⟨if reverse then seq.reverse else seq, 0⟩ ∧
          st1._animState = animState ∧ st1.toAnimationReference = st.toAnimationReference)) ∧
    (∀ (animationList : List AnimState) (seqs : List (List Int)),
      List.Forall₂ (fun a seq => st.toAnimationReference.getAnimationVector a = some seq)
        animationList seqs →
      ∃ st1, st.switchAnimationList animationList reverse =
          some (decide (seqs.flatten ≠ []), st1) ∧
        (seqs.flatten = [] → st1 = st) ∧
        (seqs.flatten ≠ [] →
          st1._currentSequence = ⟨if reverse then seqs.flatten.reverse else seqs.flatten, 0⟩ ∧
          st1.toAnimationReference = st.toAnimationReference)) := by
  constructor
  · intro animState seq hsel
    by_cases hs : seq = []
    · refine ⟨st, ?_, fun _ => rfl, fun h => absurd hs h⟩
      simp [AnimationState.switchAnimation, hsel, hs]
    · have hne : (if reverse then seq.reverse else seq) ≠ [] := by
        cases reverse <;> simpa using hs
      obtain ⟨frame, hf⟩ := restartAnimation_assign st._currentSequence hne
      refine ⟨{ st with
          _animState := animState
          _currentSequence := ⟨if reverse then seq.reverse else seq, 0⟩ }, ?_,
        fun h => absurd h hs, fun _ => ⟨rfl, rfl, rfl⟩⟩
      have hpos : seq.length > 0 := List.length_pos.2 hs
      simp only [AnimationState.switchAnimation, hsel, hpos, if_true, hf, hs, ne_eq,
        not_false_eq_true, decide_True]
  · intro animationList seqs hsel
    obtain ⟨animState, hfold, hsame⟩ :=
      combineAnimation_fold st.toAnimationReference animationList seqs (st._animState, []) hsel
    simp only [List.nil_append] at hfold hsame
    by_cases hs : seqs.flatten = []
    · refine ⟨st, ?_, fun _ => rfl, fun h => absurd hs h⟩
      have := hsame hs
      subst this
      simp [AnimationState.switchAnimationList, hfold, hs]
    · have hne : (if reverse then seqs.flatten.reverse else seqs.flatten) ≠ [] := by
        cases reverse <;> simpa using hs
      obtain ⟨frame, hf⟩ := restartAnimation_assign st._currentSequence hne
      refine ⟨{ st with
          _animState := animState
          _currentSequence := ⟨if reverse then seqs.flatten.reverse else seqs.flatten, 0⟩ }, ?_,
        fun h => absurd h hs, fun _ => ⟨rfl, rfl⟩⟩
      have hpos : seqs.flatten.length > 0 := List.length_pos.2 hs
      simp only [AnimationState.switchAnimationList, hfold, hpos, if_true, hf, hs, ne_eq,
        not_false_eq_true, decide_True]

theorem switchAnimation_atomic_witness :
    (∃ st1, sampleAnimation.switchAnimation AnimState.WNCE true =
        some (decide (([] : List Int) ≠ []), st1) ∧
      (([] : List Int) = [] → st1 = sampleAnimation) ∧
      (([] : List Int) ≠ [] →
        st1._currentSequence = ⟨if true then ([] : List Int).reverse else [], 0⟩ ∧
        st1._animState = AnimState.WNCE ∧
        st1.toAnimationReference = sampleAnimation.toAnimationReference)) ∧
    (∃ st1, sampleAnimation.switchAnimationList [AnimState.WNCE, AnimState.KILL] true =
        some (decide ([[], [7, 8, 9]].flatten ≠ ([] : List Int)), st1) ∧
      ([[], [7, 8, 9]].flatten = ([] : List Int) → st1 = sampleAnimation) ∧
      ([[], [7, 8, 9]].flatten ≠ ([] : List Int) →
        st1._currentSequence =
          ⟨if true then ([[], [7, 8, 9]].flatten : List Int).reverse else [[], [7, 8, 9]].flatten, 0⟩ ∧
        st1.toAnimationReference = sampleAnimation.toAnimationReference)) :=
  ⟨(switchAnimation_atomic sampleAnimation true).1 AnimState.WNCE [] rfl,
    (switchAnimation_atomic sampleAnimation true).2 [AnimState.WNCE, AnimState.KILL]
      [[], [7, 8, 9]] (List.Forall₂.cons rfl (List.Forall₂.cons rfl List.Forall₂.nil))⟩

/-! ## The seeds of the regions -/

theorem AppendIfFarEnough_cases (M : WorldMap) (l : List Int) (v : Int) (d : Nat) :
    ((AppendIfFarEnough M l v d).1 = l ∧ (AppendIfFarEnough M l v d).2 = false) ∨
      ((AppendIfFarEnough M l v d).1 = l ++ [v] ∧ (AppendIfFarEnough M l v d).2 = true ∧
        ∀ u ∈ l, d ≤ M.GetApproximateDistance u v) := by
  unfold AppendIfFarEnough
  by_cases h : (l.all fun current => !decide (M.GetApproximateDistance current v < d)) = true
  · right
    simp only [h, if_true, true_and]
    intro u hu
    have := List.all_eq_true.1 h u hu
    simpa using this
  · left
    exact ⟨by simp only [h]; rfl, by simpa using h⟩

theorem AppendIfFarEnough_extends (M : WorldMap) (l : List Int) (v : Int) (d : Nat) :
    l <+: (AppendIfFarEnough M l v d).1 := by
  rcases AppendIfFarEnough_cases M l v d with h | h
  · rw [h.1]
  · rw [h.1]
    exact ⟨[v], rfl⟩

theorem SeedsKept.base (M : WorldMap) (d : Nat) (base : List Int) : SeedsKept M d base base :=
  ⟨[], by simp, List.Pairwise.nil, fun _ _ _ h => absurd h (List.not_mem_nil _)⟩

theorem SeedsKept.append {M : WorldMap} {d : Nat} {base l : List Int} (h : SeedsKept M d base l)
    (v : Int) : SeedsKept M d base (AppendIfFarEnough M l v d).1 := by
  rcases AppendIfFarEnough_cases M l v d with h1 | ⟨h1, -, hfar⟩
  · rw [h1.1]
    exact h
  · rw [h1]
    obtain ⟨extra, e, hp, hb⟩ := h
    subst e
    refine ⟨extra ++ [v], by simp, ?_, ?_⟩
    · rw [List.pairwise_append]
      refine ⟨hp, List.pairwise_singleton _ _, ?_⟩
      intro a ha b hb'
      rw [List.mem_singleton] at hb'
      subst hb'
      exact hfar a (List.mem_append_right _ ha)
    · intro u hu w hw
      rcases List.mem_append.1 hw with hw | hw
      · exact hb u hu w hw
      · rw [List.mem_singleton] at hw
        subst hw
        exact hfar u (List.mem_append_left _ hu)

theorem SeedsKept.foldl (M : WorldMap) (d : Nat) (base : List Int) {α : Type} (f : α → Int) :
    ∀ (xs : List α) (l : List Int), SeedsKept M d base l →
      SeedsKept M d base (xs.foldl (fun centers x => (AppendIfFarEnough M centers (f x) d).1) l)
  | [], _, h => h
  | x :: xs, _, h => SeedsKept.foldl M d base f xs _ (h.append (f x))

theorem emptyLineSeed_kept {M : WorldMap} {base l l1 : List Int} {waterOrGround : Bool}
    {rowID colID : Int} (h : SeedsKept M 18 base l)
    (he : emptyLineSeed M waterOrGround l rowID colID = some l1) : SeedsKept M 18 base l1 := by
  simp only [emptyLineSeed] at he
  split_ifs at he <;>
    first
    | (rw [Option.some.injEq] at he; subst he; exact h.append _)
    | (rw [Option.some.injEq] at he; subst he; exact h)

theorem regionCenters_kept {M : WorldMap} {centers : List Int}
    (hc : regionCenters M = some centers) :
    SeedsKept M 18 (castleRegionCenters M) centers := by
  have h0 := SeedsKept.base M 18 (castleRegionCenters M)
  refine foldlM_option_invariant _ (SeedsKept M 18 (castleRegionCenters M)) ?_ _ _ _ h0 hc
  intro l waterOrGround l1 hl h1
  refine foldlM_option_invariant _ (SeedsKept M 18 (castleRegionCenters M)) ?_ _ _ _ hl h1
  intro l2 rowID l3 hl2 h2
  refine foldlM_option_invariant _ (SeedsKept M 18 (castleRegionCenters M)) ?_ _ _ _ hl2 h2
  intro l4 colID l5 hl4 h4
  exact emptyLineSeed_kept hl4 h4

theorem foldl_append_extends (M : WorldMap) (d : Nat) {α : Type} (f : α → Int) :
    ∀ (xs : List α) (l : List Int),
      l <+: xs.foldl (fun centers x => (AppendIfFarEnough M centers (f x) d).1) l
  | [], l => ⟨[], List.append_nil l⟩
  | x :: xs, l =>
    (AppendIfFarEnough_extends M l (f x) d).trans (foldl_append_extends M d f xs _)

/-- C21: the castle seeds kept in `regionCenters` are pairwise at an
approximate distance of at least 17 (the distance from the seed kept earlier
to the one kept later, as `AppendIfFarEnough` computes it); the seed of the
first castle in sort order is kept; of two castles whose seeds are less than
17 apart, as for castles three tiles apart, only the seed of the first is
kept; and the castle seeds stay at the front of `regionCenters` when the
empty-line seeds are added. -/
theorem castleSeeds_packing (M : WorldMap) :
    (castleRegionCenters M).Pairwise (fun a b => 17 ≤ M.GetApproximateDistance a b) ∧
    (∀ c rest, castleCenters M = c :: rest →
      ∃ more, castleRegionCenters M = castleSeed M c :: more) ∧
    (∀ c1 c2, castleCenters M = [c1, c2] →
      M.GetApproximateDistance (castleSeed M c1) (castleSeed M c2) < 17 →
      castleRegionCenters M = [castleSeed M c1]) ∧
    (∀ centers, regionCenters M = some centers → castleRegionCenters M <+: centers) := by
  refine ⟨?_, ?_, ?_, ?_⟩
  · obtain ⟨extra, e, hp, -⟩ :=
      SeedsKept.foldl M 17 [] (castleSeed M) (castleCenters M) []
        (SeedsKept.base M 17 [])
    unfold castleRegionCenters
    rw [e]
    simpa using hp
  · intro c rest hc
    have h := foldl_append_extends M 17 (castleSeed M) rest [castleSeed M c]
    obtain ⟨more, hm⟩ := h
    refine ⟨more, ?_⟩
    have h1 : (AppendIfFarEnough M [] (castleSeed M c) 17).1 = [castleSeed M c] := by
      simp [AppendIfFarEnough]
    unfold castleRegionCenters
    rw [hc, List.foldl_cons, h1]
    exact hm.symm
  · intro c1 c2 hc hlt
    unfold castleRegionCenters
    rw [hc]
    simp [AppendIfFarEnough, hlt]
  · intro centers hc
    obtain ⟨extra, e, -, -⟩ := regionCenters_kept hc
    exact ⟨extra, e.symm⟩

theorem castleSeeds_packing_witness : castleRegionCenters twoCastleMap = [23] :=
  (castleSeeds_packing twoCastleMap).2.2.1 (3, 4) (0, 1) (by decide) (by decide)

/-- C24: every empty-line seed in `regionCenters` is at an approximate distance
of at least 18 from every castle seed and from every empty-line seed appended
before it, and `AppendIfFarEnough` only ever appends at the end: the list it
is given is a prefix of the list it leaves. -/
theorem emptyLineSeeds_separated (M : WorldMap) (centers : List Int)
    (hc : regionCenters M = some centers) :
    (∃ extra, centers = castleRegionCenters M ++ extra ∧
      extra.Pairwise (fun a b => 18 ≤ M.GetApproximateDistance a b) ∧
      ∀ u ∈ castleRegionCenters M, ∀ v ∈ extra, 18 ≤ M.GetApproximateDistance u v) ∧
    ∀ (dataSet : List Int) (value : Int) (distance : Nat),
      dataSet <+: (AppendIfFarEnough M dataSet value distance).1 :=
  ⟨regionCenters_kept hc, AppendIfFarEnough_extends M⟩

theorem emptyLineSeeds_separated_witness :
    (∃ extra, [399, 1] = castleRegionCenters cornerCastleMap ++ extra ∧
      extra.Pairwise (fun a b => 18 ≤ cornerCastleMap.GetApproximateDistance a b) ∧
      ∀ u ∈ castleRegionCenters cornerCastleMap, ∀ v ∈ extra,
        18 ≤ cornerCastleMap.GetApproximateDistance u v) ∧
    ∀ (dataSet : List Int) (value : Int) (distance : Nat),
      dataSet <+: (AppendIfFarEnough cornerCastleMap dataSet value distance).1 :=
  emptyLineSeeds_separated cornerCastleMap [399, 1] (by decide)

/-! ## The order of the castles -/

theorem castleBefore_iff (a b : Int × Nat) :
    castleBefore a b = true ↔ b.2 < a.2 ∨ (a.2 = b.2 ∧ a.1 < b.1) := by
  unfold castleBefore
  split
  · rename_i h
    simp only [decide_eq_true_eq]
    constructor
    · intro h1
      exact Or.inr ⟨h, h1⟩
    · rintro (h1 | h1)
      · omega
      · exact h1.2
  · rename_i h
    simp only [gt_iff_lt, decide_eq_true_eq]
    constructor
    · intro h1
      exact Or.inl h1
    · rintro (h1 | h1)
      · exact h1
      · exact absurd h1.1 h

theorem castleBefore_false_iff (a b : Int × Nat) :
    castleBefore a b = false ↔ a.2 < b.2 ∨ (a.2 = b.2 ∧ b.1 ≤ a.1) := by
  rw [← Bool.not_eq_true, castleBefore_iff]
  omega

theorem castleCenters_sorted (M : WorldMap) :
    (castleCenters M).Pairwise (fun a b => castleBefore b a = false) := by
  haveI : IsTotal (Int × Nat) (fun a b => castleBefore b a = false) :=
    ⟨fun a b => by
      simp only [castleBefore_false_iff]
      omega⟩
  haveI : IsTrans (Int × Nat) (fun a b => castleBefore b a = false) :=
    ⟨fun a b c h1 h2 => by
      simp only [castleBefore_false_iff] at h1 h2 ⊢
      omega⟩
  exact List.sorted_insertionSort (fun a b => castleBefore b a = false) M.castles

/-- C25: the comparator that sorts `castleCenters` is a strict ordering
(irreflexive, transitive, and two entries that it does not order are equal),
it puts every coloured castle before every colourless one and orders castles
of equal colour by ascending map index; `castleCenters` is the list of the
castles in that order, the only such list, and the castle seeds are offered to
`AppendIfFarEnough` in that order. -/
theorem castleCenters_order (M : WorldMap) :
    (∀ a, castleBefore a a = false) ∧
    (∀ a b c, castleBefore a b = true → castleBefore b c = true → castleBefore a c = true) ∧
    (∀ a b, castleBefore a b = false → castleBefore b a = false → a = b) ∧
    (∀ a b : Int × Nat, 0 < a.2 → b.2 = 0 → castleBefore a b = true) ∧
    (∀ a b : Int × Nat, a.2 = b.2 → (castleBefore a b = true ↔ a.1 < b.1)) ∧
    (castleCenters M).Perm M.castles ∧
    (castleCenters M).Pairwise (fun a b => castleBefore b a = false) ∧
    (castleCenters M).Pairwise (fun a b => a.2 = 0 → b.2 = 0) ∧
    (castleCenters M).Pairwise (fun a b => a.2 = b.2 → a.1 ≤ b.1) ∧
    (∀ l : List (Int × Nat), l.Perm M.castles →
      l.Pairwise (fun a b => castleBefore b a = false) → l = castleCenters M) ∧
    castleRegionCenters M = (castleCenters M).foldl
      (fun centers castleTile =>
        (AppendIfFarEnough M centers (castleSeed M castleTile) 17).1) [] := by
  have hs := castleCenters_sorted M
  refine ⟨?_, ?_, ?_, ?_, ?_, List.perm_insertionSort _ _, hs, ?_, ?_, ?_, rfl⟩
  · intro a
    rw [castleBefore_false_iff]
    omega
  · intro a b c h1 h2
    rw [castleBefore_iff] at h1 h2 ⊢
    omega
  · intro a b h1 h2
    rw [castleBefore_false_iff] at h1 h2
    exact Prod.ext (by omega) (by omega)
  · intro a b h1 h2
    rw [castleBefore_iff]
    omega
  · intro a b h
    rw [castleBefore_iff]
    omega
  · refine hs.imp ?_
    intro a b h h0
    rw [castleBefore_false_iff] at h
    omega
  · refine hs.imp ?_
    intro a b h h0
    rw [castleBefore_false_iff] at h
    omega
  · intro l hp hl
    haveI : IsAntisymm (Int × Nat) (fun a b => castleBefore b a = false) :=
      ⟨fun a b h1 h2 => by
        rw [castleBefore_false_iff] at h1 h2
        exact Prod.ext (by omega) (by omega)⟩
    exact List.eq_of_perm_of_sorted (hp.trans (List.perm_insertionSort _ _).symm) hl hs

/-! ## Termination of the flood loops and the padding -/

/-- C31: on a map of `w` columns and `h` rows whose padded grid has fewer than
`2 ^ 31` cells (so that its indices are `int` values), for the tile of column
`x` and row `y`, `ConvertExtendedIndex( y * w + x, w + 2 )` is
`(y + 1) * (w + 2) + (x + 1)`; this is below `(w + 2) * (h + 2)`, lies in one
of the rows 1 to `h` and one of the columns 1 to `w` of the padded grid, so it
is no padding cell, and two tiles with the same value are the same tile. -/
theorem ConvertExtendedIndex_interior (w h x y : Nat) (hx : x < w) (hy : y < h)
    (hL : (w + 2) * (h + 2) < 2147483648) :
    ConvertExtendedIndex ((y * w + x : Nat) : Int) (w + 2) =
        (((y + 1) * (w + 2) + (x + 1) : Nat) : Int) ∧
      (y + 1) * (w + 2) + (x + 1) < (w + 2) * (h + 2) ∧
      ((y + 1) * (w + 2) + (x + 1)) / (w + 2) = y + 1 ∧
      ((y + 1) * (w + 2) + (x + 1)) % (w + 2) = x + 1 ∧
      ∀ x1 y1 : Nat, x1 < w → y1 < h →
        ConvertExtendedIndex ((y1 * w + x1 : Nat) : Int) (w + 2) =
          ConvertExtendedIndex ((y * w + x : Nat) : Int) (w + 2) →
        x1 = x ∧ y1 = y := by
  have hU32 : U32 = 4294967296 := rfl
  have key : ∀ a b : Nat, a < w → b < h →
      ConvertExtendedIndex ((b * w + a : Nat) : Int) (w + 2) =
          (((b + 1) * (w + 2) + (a + 1) : Nat) : Int) ∧
        (b + 1) * (w + 2) + (a + 1) < (w + 2) * (h + 2) := by
    intro a b ha hb
    have hwL : w + 2 ≤ (w + 2) * (h + 2) := Nat.le_mul_of_pos_right _ (by omega)
    have h3 : (b + 1) * (w + 2) + (a + 1) < (w + 2) * (h + 2) := by
      have : (b + 1) * (w + 2) ≤ h * (w + 2) := Nat.mul_le_mul_right _ hb
      nlinarith
    have hn : b * w + a < (w + 2) * (h + 2) := by nlinarith
    have h1 : (w + 2 + U32 - 2) % U32 = w := by
      rw [show w + 2 + U32 - 2 = w + U32 by omega, Nat.add_mod_right]
      exact Nat.mod_eq_of_lt (by omega)
    have h2 : (((b * w + a : Nat) : Int) % ((U32 : Nat) : Int)).toNat = b * w + a := by
      rw [← Int.natCast_mod, Int.toNat_natCast]
      exact Nat.mod_eq_of_lt (by omega)
    have hdiv : (b * w + a) / w = b := by
      rw [Nat.add_comm, Nat.add_mul_div_right _ _ (by omega), Nat.div_eq_of_lt ha, Nat.zero_add]
    have hmod : (b * w + a) % w = a := by
      rw [Nat.add_comm, Nat.add_mul_mod_self_right, Nat.mod_eq_of_lt ha]
    refine ⟨?_, h3⟩
    unfold ConvertExtendedIndex
    simp only [h1, h2, hdiv, hmod]
    rw [toInt32_small (by omega)]
    push_cast
    ring
  have hpos : 0 < w + 2 := by omega
  have hrow : ∀ a b : Nat, a < w → ((b + 1) * (w + 2) + (a + 1)) / (w + 2) = b + 1 := by
    intro a b ha
    rw [Nat.add_comm, Nat.add_mul_div_right _ _ hpos, Nat.div_eq_of_lt (by omega), Nat.zero_add]
  have hcol : ∀ a b : Nat, a < w → ((b + 1) * (w + 2) + (a + 1)) % (w + 2) = a + 1 := by
    intro a b ha
    rw [Nat.add_comm, Nat.add_mul_mod_self_right, Nat.mod_eq_of_lt (by omega)]
  refine ⟨(key x y hx hy).1, (key x y hx hy).2, hrow x y hx, hcol x y hx, ?_⟩
  intro x1 y1 hx1 hy1 he
  rw [(key x y hx hy).1, (key x1 y1 hx1 hy1).1] at he
  have he1 : (y1 + 1) * (w + 2) + (x1 + 1) = (y + 1) * (w + 2) + (x + 1) := by exact_mod_cast he
  have r1 := hrow x1 y1 hx1
  have r2 := hcol x1 y1 hx1
  rw [he1, hrow x y hx] at r1
  rw [he1, hcol x y hx] at r2
  omega

theorem ConvertExtendedIndex_interior_witness :
    ConvertExtendedIndex ((1 * 3 + 2 : Nat) : Int) (3 + 2) =
        (((1 + 1) * (3 + 2) + (2 + 1) : Nat) : Int) ∧
      (1 + 1) * (3 + 2) + (2 + 1) < (3 + 2) * (3 + 2) ∧
      ((1 + 1) * (3 + 2) + (2 + 1)) / (3 + 2) = 1 + 1 ∧
      ((1 + 1) * (3 + 2) + (2 + 1)) % (3 + 2) = 2 + 1 ∧
      ∀ x1 y1 : Nat, x1 < 3 → y1 < 3 →
        ConvertExtendedIndex ((y1 * 3 + x1 : Nat) : Int) (3 + 2) =
          ConvertExtendedIndex ((1 * 3 + 2 : Nat) : Int) (3 + 2) →
        x1 = 2 ∧ y1 = 1 :=
  ConvertExtendedIndex_interior 3 3 2 1 (by decide) (by decide) (by decide)

/-! ## The diagonal surcharge -/

/-- C35 (counterexample): with the terrain penalty `2 ^ 31` the base penalty
`p` is `2 ^ 31`, and the penalty of a diagonal move is `2 ^ 30`, while
`floor( 3 * p / 2 )` modulo `2 ^ 32` is `3 * 2 ^ 30`: the source reduces
`3 * p` modulo `2 ^ 32` before it halves. -/
theorem getMovementPenalty_diagonal_wraps_first :
    Pathfinder.getMovementPenalty (uniformLand 2 2 2147483648) 0 3 .BOTTOM 0 = 2147483648 ∧
    Pathfinder.getMovementPenalty (uniformLand 2 2 2147483648) 0 3 .BOTTOM_RIGHT 0
      = 1073741824 ∧
    3 * 2147483648 / 2 % U32 = 3221225472 := by
  decide

/-- C35 (amended): for a diagonal direction `getMovementPenalty` returns
`( 3 * p mod 2 ^ 32 ) / 2`, where `p` is the base penalty (the road penalty or
the terrain penalty of the destination, as a `uint32_t`); when `3 * p` is
below `2 ^ 32` this is `floor( 3 * p / 2 )`, which is at least `p`, and more
than `p` when `p` is at least 2. -/
theorem getMovementPenalty_diagonal_surcharge (W : World) (fromIdx target : Int)
    (d : Direction) (skill p : Nat) (hd : d.isDiagonal = true)
    (hp : p = (if W.isRoad fromIdx = true ∧ W.isRoad target = true then W.roadPenalty
      else W.GetPenalty target skill) % U32) :
    Pathfinder.getMovementPenalty W fromIdx target d skill = 3 * p % U32 / 2 ∧
    (3 * p < U32 →
      Pathfinder.getMovementPenalty W fromIdx target d skill = 3 * p / 2 ∧
      p ≤ Pathfinder.getMovementPenalty W fromIdx target d skill ∧
      (2 ≤ p → p < Pathfinder.getMovementPenalty W fromIdx target d skill)) := by
  have h1 : Pathfinder.getMovementPenalty W fromIdx target d skill = 3 * p % U32 / 2 := by
    simp only [Pathfinder.getMovementPenalty, hd, if_true, hp]
    cases W.isRoad fromIdx <;> cases W.isRoad target <;> simp [Nat.mul_comm]
  refine ⟨h1, ?_⟩
  intro hlt
  rw [h1, Nat.mod_eq_of_lt hlt]
  refine ⟨rfl, ?_, ?_⟩
  · omega
  · intro h2
    omega

theorem getMovementPenalty_diagonal_surcharge_witness :
    Pathfinder.getMovementPenalty (uniformLand 2 2 125) 0 3 .BOTTOM_RIGHT 0
        = 3 * 125 % U32 / 2 ∧
    (3 * 125 < U32 →
      Pathfinder.getMovementPenalty (uniformLand 2 2 125) 0 3 .BOTTOM_RIGHT 0 = 3 * 125 / 2 ∧
      125 ≤ Pathfinder.getMovementPenalty (uniformLand 2 2 125) 0 3 .BOTTOM_RIGHT 0 ∧
      (2 ≤ 125 → 125 < Pathfinder.getMovementPenalty (uniformLand 2 2 125) 0 3 .BOTTOM_RIGHT 0)) :=
  getMovementPenalty_diagonal_surcharge (uniformLand 2 2 125) 0 3 .BOTTOM_RIGHT 0 125 rfl
    (by decide)

/-! ## Seeds outside the map and members counted twice -/

/-- C36 (failing input): on `lastRowCastleMap` the castle stands on tile 6, the
first tile of the last row of a 3 x 3 map; `castleIndex` is 9, which is not
above `vec_tiles.size()` = 9, so the seed offered and kept is 9, no tile of the
map, and the lookup `vec_tiles[9]` of the region stage is out of bounds: the
analysis has no result. -/
theorem castleSeed_past_the_end :
    lastRowCastleMap.inRange 6 ∧ castleSeed lastRowCastleMap (6, 1) = 9 ∧
    ¬ lastRowCastleMap.inRange 9 ∧ regionCenters lastRowCastleMap = some [9] ∧
    World.ComputeStaticAnalysis lastRowCastleMap = none := by
  decide

/-- C37 (failing input): on `wideMap`, two columns wide and one row high, the
water pass takes `rowID` from the list of columns, `[1]`, and `colID` from the
list of rows, `[0]`, so `tileIndex` is `1 * 2 + 0` = 2, no tile of the map:
`vec_tiles[2]` is read out of bounds and the seed stage has no result. -/
theorem emptyLineSeed_outside_map :
    emptyLines wideMap 0 = [1] ∧ emptyLines wideMap 1 = [0] ∧
    ¬ wideMap.inRange (1 * 2 + 0) ∧ emptyLineSeed wideMap false [] 1 0 = none ∧
    regionCenters wideMap = none := by
  decide

/-- C38 (failing input): on `pondMap` the region with id 4, which
`FindMissingRegions` seeds on tile 1, has the member list 1, 3, 2, 1: the cell
of its seed is left `OPEN`, and the region claims it again when it processes
tile 3. -/
theorem computeStaticAnalysis_member_twice :
    (World.ComputeStaticAnalysis pondMap).map
        (fun res => res.regions.map (fun reg => (reg.id, reg.nodes.map (·.index)))) =
      some [(3, [0]), (4, [1, 3, 2, 1])] := by
  decide

/-! ## The order of the heroes of the AI -/

/-- C40 (failing input): for two null pointers the comparator returns true, so
it is not irreflexive and not asymmetric; for two heroes it compares the
strengths with `>`, which is. -/
theorem sortedHeroListBefore_null_null :
    sortedHeroListBefore none none = true ∧
    (∀ a : Int, sortedHeroListBefore (some a) (some a) = false) ∧
    (∀ a b : Int, sortedHeroListBefore (some a) (some b) = true →
      sortedHeroListBefore (some b) (some a) = false) := by
  refine ⟨rfl, ?_, ?_⟩
  · intro a
    simp [sortedHeroListBefore]
  · intro a b h
    simp only [sortedHeroListBefore, decide_eq_true_eq, decide_eq_false_iff_not] at h ⊢
    omega

/-! ## The frame index of an animation sequence -/

theorem lastIndex_eq {n : Nat} (h0 : 0 < n) (h1 : n < SizeT) : (n + SizeT - 1) % SizeT = n - 1 := by
  have e : n + SizeT - 1 = (n - 1) + SizeT := by omega
  rw [e, Nat.add_mod_right]
  exact Nat.mod_eq_of_lt (by omega)

theorem mem_of_getElem {l : List Int} {k : Nat} {x : Int} (h : l[k]? = some x) : x ∈ l := by
  rcases List.getElem?_eq_some_iff.1 h with ⟨h2, e⟩
  rw [← e]
  exact List.getElem_mem h2

theorem playAnimation_spec {seq : List Int} {cf : Nat} (loop : Bool) (hcf : cf < seq.length)
    (hsize : seq.length < SizeT) :
    ∃ frame next, (AnimationSequence.mk seq cf).playAnimation loop =
        some (frame, AnimationSequence.mk seq next) ∧
      next < seq.length ∧ seq[next]? = some frame ∧
      (cf = seq.length - 1 → loop = false → next = cf) ∧
      (cf = seq.length - 1 → loop = true → next = 0) ∧
      (cf ≠ seq.length - 1 → next = cf + 1) := by
  have hpos : 0 < seq.length := by omega
  have hvalid : (AnimationSequence.mk seq cf).isValid = true := by
    simp [AnimationSequence.isValid, hpos]
  have hlast := lastIndex_eq hpos hsize
  by_cases hl : cf = seq.length - 1
  · have hil : (AnimationSequence.mk seq cf).isLastFrame = true := by
      simp [AnimationSequence.isLastFrame, hlast, hl]
    cases loop with
    | false =>
      refine ⟨seq[cf], cf, ?_, hcf, List.getElem?_eq_getElem hcf, fun _ _ => rfl,
        fun _ h => Bool.noConfusion h, fun h => absurd hl h⟩
      simp [AnimationSequence.playAnimation, hvalid, hil, List.getElem?_eq_getElem hcf]
    | true =>
      refine ⟨seq[0], 0, ?_, hpos, List.getElem?_eq_getElem hpos, fun _ h => Bool.noConfusion h,
        fun _ _ => rfl, fun h => absurd hl h⟩
      simp [AnimationSequence.playAnimation, hvalid, hil, AnimationSequence.restartAnimation,
        AnimationSequence.getFrame, AnimationSequence.isValid, hpos,
        List.getElem?_eq_getElem hpos]
  · have hil : (AnimationSequence.mk seq cf).isLastFrame = false := by
      simp [AnimationSequence.isLastFrame, hlast, hl]
    have hnext : cf + 1 < seq.length := by omega
    have hmod : (cf + 1) % SizeT = cf + 1 := Nat.mod_eq_of_lt (by omega)
    refine ⟨seq[cf + 1], cf + 1, ?_, hnext, List.getElem?_eq_getElem hnext,
      fun h => absurd h hl, fun h => absurd h hl, fun _ => rfl⟩
    simp [AnimationSequence.playAnimation, hvalid, hil, hmod, List.getElem?_eq_getElem hnext]

theorem restartAnimation_spec {seq : List Int} (cf : Nat) (hpos : 0 < seq.length) :
    ∃ frame, (AnimationSequence.mk seq cf).restartAnimation =
        some (frame, AnimationSequence.mk seq 0) ∧ seq[0]? = some frame := by
  refine ⟨seq[0], ?_, List.getElem?_eq_getElem hpos⟩
  simp [AnimationSequence.restartAnimation, AnimationSequence.getFrame,
    AnimationSequence.isValid, hpos, List.getElem?_eq_getElem hpos]

theorem call_spec {seq : List Int} {cf : Nat} (c : AnimationCall) (hcf : cf < seq.length)
    (hsize : seq.length < SizeT) :
    ∃ next, (AnimationSequence.mk seq cf).call c = some (AnimationSequence.mk seq next) ∧
      next < seq.length := by
  have hpos : 0 < seq.length := by omega
  cases c with
  | playAnimation loop =>
    obtain ⟨frame, next, e, hn, -⟩ := playAnimation_spec loop hcf hsize
    exact ⟨next, by simp [AnimationSequence.call, e], hn⟩
  | restartAnimation =>
    obtain ⟨frame, e, -⟩ := restartAnimation_spec cf hpos
    exact ⟨0, by simp [AnimationSequence.call, e], hpos⟩
  | setToLastFrame =>
    refine ⟨seq.length - 1, ?_, by omega⟩
    simp [AnimationSequence.call, AnimationSequence.setToLastFrame, AnimationSequence.isValid,
      hpos, lastIndex_eq hpos hsize]

theorem calls_spec {seq : List Int} (hsize : seq.length < SizeT) :
    ∀ (cs : List AnimationCall) (cf : Nat), cf < seq.length →
      ∃ next, (AnimationSequence.mk seq cf).calls cs = some (AnimationSequence.mk seq next) ∧
        next < seq.length
  | [], cf, hcf => ⟨cf, rfl, hcf⟩
  | c :: cs, cf, hcf => by
    obtain ⟨n1, e1, h1⟩ := call_spec c hcf hsize
    obtain ⟨n2, e2, h2⟩ := calls_spec hsize cs n1 h1
    refine ⟨n2, ?_, h2⟩
    simp only [AnimationSequence.calls, List.foldlM_cons, e1] at e2 ⊢
    exact e2

/-- C39: for a sequence built from (or assigned) a non-empty frame vector,
every list of `playAnimation`, `restartAnimation` and `setToLastFrame` calls
returns and leaves the frames as they were with a frame index below their
number; `getFrame()` and `playAnimation( loop )` then return an element of the
sequence, `playAnimation` keeps the index in range, `playAnimation( false )`
at the last frame stays on the last frame and returns it, and
`playAnimation( true )` at the last frame returns the first frame. -/
theorem frameIndex_in_range (seq : List Int) (calls : List AnimationCall)
    (old : AnimationSequence) (hne : seq ≠ []) (hsize : seq.length < SizeT) :
    old.assign seq = AnimationSequence.ofVector seq ∧
    ∃ s, (AnimationSequence.ofVector seq).calls calls = some s ∧ s._seq = seq ∧
      s._currentFrame < seq.length ∧
      (∃ frame, s.getFrame = some frame ∧ frame ∈ seq) ∧
      (∀ loop, ∃ frame s1, s.playAnimation loop = some (frame, s1) ∧ frame ∈ seq ∧
        s1._seq = seq ∧ s1._currentFrame < seq.length) ∧
      (s._currentFrame = seq.length - 1 →
        ∃ frame, s.playAnimation false = some (frame, s) ∧ seq.getLast? = some frame) ∧
      (s._currentFrame = seq.length - 1 →
        ∃ frame s1, s.playAnimation true = some (frame, s1) ∧ seq.head? = some frame ∧
          s1._currentFrame = 0) := by
  have hpos : 0 < seq.length := List.length_pos.2 hne
  refine ⟨rfl, ?_⟩
  obtain ⟨cf, e, hcf⟩ := calls_spec hsize calls 0 hpos
  refine ⟨AnimationSequence.mk seq cf, e, rfl, hcf, ?_, ?_, ?_, ?_⟩
  · refine ⟨seq[cf], ?_, List.getElem_mem hcf⟩
    simp [AnimationSequence.getFrame, AnimationSequence.isValid, hpos,
      List.getElem?_eq_getElem hcf]
  · intro loop
    obtain ⟨frame, next, e1, hn, hf, -⟩ := playAnimation_spec loop hcf hsize
    exact ⟨frame, _, e1, mem_of_getElem hf, rfl, hn⟩
  · intro hl
    obtain ⟨frame, next, e1, hn, hf, h1, -⟩ := playAnimation_spec false hcf hsize
    have hnext : next = cf := h1 hl rfl
    subst hnext
    refine ⟨frame, e1, ?_⟩
    have hl' : next = seq.length - 1 := hl
    rw [List.getLast?_eq_getElem?, ← hl']
    exact hf
  · intro hl
    obtain ⟨frame, next, e1, hn, hf, -, h2, -⟩ := playAnimation_spec true hcf hsize
    have hnext : next = 0 := h2 hl rfl
    subst hnext
    refine ⟨frame, _, e1, ?_, rfl⟩
    rw [List.head?_eq_getElem?]
    exact hf

theorem frameIndex_in_range_witness :
    (AnimationSequence.mk [9] 4).assign [5, 6, 7] = AnimationSequence.ofVector [5, 6, 7] ∧
    ∃ s, (AnimationSequence.ofVector [5, 6, 7]).calls
        [.playAnimation false, .setToLastFrame, .playAnimation true] = some s ∧
      s._seq = [5, 6, 7] ∧ s._currentFrame < [5, 6, 7].length ∧
      (∃ frame, s.getFrame = some frame ∧ frame ∈ [5, 6, 7]) ∧
      (∀ loop, ∃ frame s1, s.playAnimation loop = some (frame, s1) ∧ frame ∈ [5, 6, 7] ∧
        s1._seq = [5, 6, 7] ∧ s1._currentFrame < [5, 6, 7].length) ∧
      (s._currentFrame = [5, 6, 7].length - 1 →
        ∃ frame, s.playAnimation false = some (frame, s) ∧
          [5, 6, 7].getLast? = some frame) ∧
      (s._currentFrame = [5, 6, 7].length - 1 →
        ∃ frame s1, s.playAnimation true = some (frame, s1) ∧ [5, 6, 7].head? = some frame ∧
          s1._currentFrame = 0) :=
  frameIndex_in_range [5, 6, 7] [.playAnimation false, .setToLastFrame, .playAnimation true]
    (AnimationSequence.mk [9] 4) (by decide) (by decide)

/-! ## What every recorded predecessor satisfies -/

theorem GetDirectionIndex_inj {W : World} (hw : 3 ≤ W.w) {u : Int} {d e : Direction}
    (hd : d ∈ Direction.All) (he : e ∈ Direction.All)
    (h : Maps.GetDirectionIndex W u d = Maps.GetDirectionIndex W u e) : d = e := by
  have hw3 : (3 : Int) ≤ (W.w : Int) := by exact_mod_cast hw
  cases d <;> simp [Direction.All] at hd <;> cases e <;> simp [Direction.All] at he <;>
    first
    | rfl
    | (exfalso; simp only [Maps.GetDirectionIndex] at h; omega)

theorem Direction.Get_of_index {W : World} (hw : 3 ≤ W.w) {u : Int} {d : Direction}
    (hd : d ∈ Direction.All) : Direction.Get W u (Maps.GetDirectionIndex W u d) = d := by
  obtain ⟨h1, h2⟩ := Direction.Get_spec (W := W) (u := u)
    (v := Maps.GetDirectionIndex W u d) ⟨d, hd, rfl⟩
  exact GetDirectionIndex_inj hw h1 hd h2

theorem evaluateMap_moveInv {W : World} {start : Int} (skill : Nat)
    (hprot : W.protectionInRange) (hstart : W.inRange start) :
    ∃ pf, Pathfinder.evaluateMap W start skill = some pf ∧ pf._cache.length = W.w * W.h ∧
      pf._pathStart = start ∧ pf._pathfindingSkill = skill ∧ MoveInv W start pf._cache :=
  evaluateMap_spec skill hprot hstart (fun c _ => MoveInv W start c)
    (by
      intro c cur pend m c' b _ hcur hQ hm hdirs ho v n hv hn
      rcases ho.read_cases hv with h1 | ⟨_, h2, h3⟩
      · exact hQ v n h1 hn
      · rw [h3, h2]
        refine ⟨hcur, Or.inl ⟨List.ne_nil_of_mem hm, hm, ?_, hdirs.2.2⟩⟩
        exact (Direction.Get_spec (Direction.Get_mem hdirs.1 hdirs.2.1)).1)
    (by
      intro c cur pend d c' b _ hcur hQ hnone hfree hd hp ho v n hv hn
      rcases ho.read_cases hv with h1 | ⟨_, h2, h3⟩
      · exact hQ v n h1 hn
      · rw [h3, h2]
        exact ⟨hcur, Or.inr ⟨hnone, hfree, d, hd, rfl, hp⟩⟩)
    (by
      intro c cur pend _ _ hQ _
      exact hQ)
    (by
      intro v n hv hn
      exact absurd (initialCache_unreached hstart hv) hn)

/-- C33 (counterexample): on `narrowMap`, two tiles in a row that can be left
and entered sideways only, `evaluateMap( 1, 0 )` records tile 1 as the
predecessor of tile 0 (the move `LEFT`). On a map two columns wide the
neighbour of tile 1 to the `TOP_RIGHT` has the index `1 - 2 + 1 = 0` as well,
`Direction::Get( 1, 0 )` is `TOP_RIGHT`, the first of the two in
`Direction::All()`, and `isValidPath( 1, TOP_RIGHT )` is false. -/
theorem predecessor_direction_invalid_on_narrow_map :
    Pathfinder.evaluateMap narrowMap 1 0 = some ⟨[⟨1, 100⟩, ⟨0, 200⟩], 1, 0⟩ ∧
    readNode [⟨1, 100⟩, ⟨0, 200⟩] 0 = some ⟨1, 100⟩ ∧
    Maps.GetDirectionIndex narrowMap 1 .LEFT = 0 ∧
    Maps.GetDirectionIndex narrowMap 1 .TOP_RIGHT = 0 ∧
    Direction.Get narrowMap 1 0 = .TOP_RIGHT ∧
    narrowMap.isValidPath 1 .LEFT = true ∧
    narrowMap.isValidPath 1 (Direction.Get narrowMap 1 0) = false := by
  decide

theorem guardedRow_protectionInRange : guardedRow.protectionInRange := by
  intro i m hm
  simp only [guardedRow] at hm
  split at hm
  · simp only [List.mem_singleton] at hm
    subst hm
    decide
  · cases hm

/-- C33 (amended): on a map whose protection lists hold tiles of the map,
`evaluateMap( start, skill )` returns, and afterwards for every tile `v` with a
recorded predecessor `u`: both are tiles of the map, `Direction::Get( u, v )`
is one of the eight directions, `v` is the neighbour of `u` in a direction that
is a valid path from `u`, and, on a map at least three columns wide (where the
eight neighbours of a tile have different indices), that direction is
`Direction::Get( u, v )`, so `isValidPath( u, Direction::Get( u, v ) )` holds. -/
theorem predecessors_are_valid_moves (W : World) (start : Int) (skill : Nat)
    (hprot : W.protectionInRange) (hstart : W.inRange start) :
    ∃ pf, Pathfinder.evaluateMap W start skill = some pf ∧
      ∀ v node, readNode pf._cache v = some node → node._from ≠ -1 →
        W.inRange node._from ∧ W.inRange v ∧
        Direction.Get W node._from v ∈ Direction.All ∧
        (∃ d ∈ Direction.All, v = Maps.GetDirectionIndex W node._from d ∧
          W.isValidPath node._from d = true) ∧
        (3 ≤ W.w → W.isValidPath node._from (Direction.Get W node._from v) = true) := by
  obtain ⟨pf, h, hlen, -, -, hQ⟩ := evaluateMap_moveInv skill hprot hstart
  refine ⟨pf, h, ?_⟩
  intro v node hv hn
  obtain ⟨hu, hcase⟩ := hQ v node hv hn
  have hvr : W.inRange v := by
    obtain ⟨h0, h1, -⟩ := readNode_eq_some hv
    rw [hlen] at h1
    exact ⟨h0, by omega⟩
  refine ⟨hu, hvr, ?_⟩
  rcases hcase with ⟨-, -, hget, hvalid⟩ | ⟨-, -, d, hd, hvd, hvalid⟩
  · have hidx := (Direction.Get_spec (Direction.Get_mem
      (fun e => by rw [e] at hget; simp [Direction.All] at hget)
      (fun e => by rw [e] at hget; simp [Direction.All] at hget))).2
    exact ⟨hget, ⟨_, hget, hidx.symm, hvalid⟩, fun _ => hvalid⟩
  · have hdm := validDirection_mem_All hd
    refine ⟨(Direction.Get_spec ⟨d, hdm, hvd⟩).1, ⟨d, hdm, hvd, hvalid⟩, ?_⟩
    intro hw
    rw [hvd, Direction.Get_of_index hw hdm]
    exact hvalid

theorem predecessors_are_valid_moves_witness :
    3 ≤ guardedRow.w ∧
    (Pathfinder.evaluateMap guardedRow 0 0).map (·._cache) = some [⟨-1, 0⟩, ⟨0, 100⟩, ⟨1, 200⟩] ∧
    ∃ pf, Pathfinder.evaluateMap guardedRow 0 0 = some pf ∧
      ∀ v node, readNode pf._cache v = some node → node._from ≠ -1 →
        guardedRow.inRange node._from ∧ guardedRow.inRange v ∧
        Direction.Get guardedRow node._from v ∈ Direction.All ∧
        (∃ d ∈ Direction.All, v = Maps.GetDirectionIndex guardedRow node._from d ∧
          guardedRow.isValidPath node._from d = true) ∧
        guardedRow.isValidPath node._from (Direction.Get guardedRow node._from v) = true := by
  obtain ⟨pf, h, hall⟩ :=
    predecessors_are_valid_moves guardedRow 0 0 guardedRow_protectionInRange (by decide)
  refine ⟨by decide, by decide, pf, h, ?_⟩
  intro v node hv hn
  obtain ⟨h1, h2, h3, h4, h5⟩ := hall v node hv hn
  exact ⟨h1, h2, h3, h4, h5 (by decide)⟩

/-- C34: on a map whose protection lists hold tiles of the map,
`evaluateMap( start, skill )` returns, and afterwards every recorded
predecessor `u` of a tile `v` is the source, or an unguarded tile that
`isTileBlocked( u, fromWater )` does not block, or a guarded tile with `v`
among the monster tiles protecting it; so an unguarded blocked tile other than
the source is the predecessor of no tile, and a guarded tile is the
predecessor of its protecting monster tiles only. -/
theorem predecessors_not_obstructed (W : World) (start : Int) (skill : Nat)
    (hprot : W.protectionInRange) (hstart : W.inRange start) :
    ∃ pf, Pathfinder.evaluateMap W start skill = some pf ∧
      (∀ v node, readNode pf._cache v = some node → node._from ≠ -1 →
        node._from = start ∨
        (W.GetTilesUnderProtection node._from = [] ∧
          W.isTileBlocked node._from (W.isWater start) = false) ∨
        (W.GetTilesUnderProtection node._from ≠ [] ∧
          v ∈ W.GetTilesUnderProtection node._from)) ∧
      (∀ u, W.inRange u → u ≠ start → W.GetTilesUnderProtection u = [] →
        W.isTileBlocked u (W.isWater start) = true →
        ∀ v node, readNode pf._cache v = some node → node._from ≠ u) ∧
      (∀ u, W.inRange u → W.GetTilesUnderProtection u ≠ [] →
        ∀ v node, readNode pf._cache v = some node → node._from = u →
          v ∈ W.GetTilesUnderProtection u) := by
  obtain ⟨pf, h, -, -, -, hQ⟩ := evaluateMap_moveInv skill hprot hstart
  refine ⟨pf, h, ?_, ?_, ?_⟩
  · intro v node hv hn
    rcases (hQ v node hv hn).2 with ⟨h1, h2, -⟩ | ⟨h1, h2, -⟩
    · exact Or.inr (Or.inr ⟨h1, h2⟩)
    · rcases h2 with h2 | h2
      · exact Or.inl h2
      · exact Or.inr (Or.inl ⟨h1, h2⟩)
  · intro u hu hus hfree hblocked v node hv he
    have hn : node._from ≠ -1 := by
      rw [he]
      have := hu.1
      omega
    rcases (hQ v node hv hn).2 with ⟨h1, -⟩ | ⟨-, h2, -⟩
    · rw [he] at h1
      exact h1 hfree
    · rw [he] at h2
      rcases h2 with h2 | h2
      · exact hus h2
      · rw [hblocked] at h2
        cases h2
  · intro u hu hguard v node hv he
    have hn : node._from ≠ -1 := by
      rw [he]
      have := hu.1
      omega
    rcases (hQ v node hv hn).2 with ⟨-, h2, -⟩ | ⟨h1, -⟩
    · rw [he] at h2
      exact h2
    · rw [he] at h1
      exact absurd h1 hguard

theorem predecessors_not_obstructed_witness :
    ∃ pf, Pathfinder.evaluateMap monsterMap 0 0 = some pf ∧
      (∀ v node, readNode pf._cache v = some node → node._from ≠ -1 →
        node._from = 0 ∨
        (monsterMap.GetTilesUnderProtection node._from = [] ∧
          monsterMap.isTileBlocked node._from (monsterMap.isWater 0) = false) ∨
        (monsterMap.GetTilesUnderProtection node._from ≠ [] ∧
          v ∈ monsterMap.GetTilesUnderProtection node._from)) ∧
      (∀ u, monsterMap.inRange u → u ≠ 0 → monsterMap.GetTilesUnderProtection u = [] →
        monsterMap.isTileBlocked u (monsterMap.isWater 0) = true →
        ∀ v node, readNode pf._cache v = some node → node._from ≠ u) ∧
      (∀ u, monsterMap.inRange u → monsterMap.GetTilesUnderProtection u ≠ [] →
        ∀ v node, readNode pf._cache v = some node → node._from = u →
          v ∈ monsterMap.GetTilesUnderProtection u) :=
  predecessors_not_obstructed monsterMap 0 0 monsterMap_protectionInRange (by decide)

/-- C32 (counterexample): on `steepMap`, three land tiles in a row with the
terrain penalty `3 * 2 ^ 30`, the `uint32_t` costs wrap and
`evaluateMap( 0, 0 )` leaves tile 1 with the predecessor 2 and tile 2 with the
predecessor 1: following the predecessors from tile 1 never arrives at the
source 0, and the loops of `buildPath( 0, 1, skill )` and
`isBlockedByObject( 0, 1, fromWater )` return for no number of iterations. -/
theorem chains_cycle_on_wrapped_costs :
    Pathfinder.evaluateMap steepMap 0 0
      = some ⟨[⟨1, 0⟩, ⟨2, 1073741824⟩, ⟨1, 0⟩], 0, 0⟩ ∧
    readNode [⟨1, 0⟩, ⟨2, 1073741824⟩, ⟨1, 0⟩] 1 = some ⟨2, 1073741824⟩ ∧
    (∀ m, chainNode [⟨1, 0⟩, ⟨2, 1073741824⟩, ⟨1, 0⟩] m 1 ≠ some 0) ∧
    (∀ fuel cost path,
      buildPathLoop steepMap [⟨1, 0⟩, ⟨2, 1073741824⟩, ⟨1, 0⟩] 0 fuel 1 cost path = none) ∧
    (∀ fromWater fuel,
      isBlockedByObjectLoop steepMap [⟨1, 0⟩, ⟨2, 1073741824⟩, ⟨1, 0⟩] 0 fromWater fuel 1
        = none) ∧
    (∀ fromWater,
      Pathfinder.isBlockedByObject steepMap ⟨[⟨1, 0⟩, ⟨2, 1073741824⟩, ⟨1, 0⟩], 0, 0⟩ 0 1
        fromWater = none) :=
  ⟨steepMap_evaluateMap, rfl,
    fun m => steepMap_chainNode m 1 (Or.inl rfl),
    fun fuel cost path => steepMap_buildPathLoop fuel 1 cost path (Or.inl rfl),
    fun fromWater fuel => steepMap_isBlockedByObjectLoop fromWater fuel 1 (Or.inl rfl),
    fun fromWater => steepMap_isBlockedByObjectLoop fromWater _ 1 (Or.inl rfl)⟩

/-- C32 (amended): on a map whose protection lists hold tiles of the map and
whose movement penalties are at most `B` with `(w * h + 1) * B < 2 ^ 32` (so
that no `uint32_t` cost wraps), `evaluateMap( s, skill )` returns, and for
every tile `t` with a recorded predecessor, following the predecessors from
`t` arrives at `s` after some number `m` of steps, no tile before that being
`s` or -1; `buildPath( s, t, skill )` and
`isBlockedByObject( s, t, fromWater )` then return. -/
theorem chains_lead_to_source (W : World) (s : Int) (skill B : Nat)
    (hprot : W.protectionInRange) (hs : W.inRange s)
    (hpen : W.penaltiesAtMost skill B) (hov : (W.w * W.h + 1) * B < U32) :
    ∃ pf, Pathfinder.evaluateMap W s skill = some pf ∧
      ∀ t node, readNode pf._cache t = some node → node._from ≠ -1 →
        (∃ m, chainNode pf._cache m t = some s ∧
          ∀ j < m, ∀ x, chainNode pf._cache j t = some x → x ≠ s ∧ x ≠ -1) ∧
        (∃ path, Pathfinder.buildPath W pf s t skill = some (path, pf)) ∧
        ∀ fromWater, ∃ b, Pathfinder.isBlockedByObject W pf s t fromWater = some b := by
  obtain ⟨pf, h, hlen, htag1, htag2, rank, hQ⟩ := evaluateMap_chainInv skill hprot hs hpen hov
  refine ⟨pf, h, ?_⟩
  intro t node ht hn
  have hs1 : s ≠ -1 := by
    have := hs.1
    omega
  have hchain : ∃ m, chainNode pf._cache m t = some s ∧
      ∀ j < m, ∀ x, chainNode pf._cache j t = some x → x ≠ s ∧ x ≠ -1 := by
    by_cases hts : t = s
    · exact ⟨0, by rw [hts]; rfl, fun j hj => absurd hj (Nat.not_lt_zero j)⟩
    · obtain ⟨m, -, hm1, hm2⟩ :=
        hQ.chain_to_source node._cost (rank t) t node hts ht hn rfl rfl
      exact ⟨m, hm1, hm2⟩
  obtain ⟨m, hm1, hm2⟩ := hchain
  have hmlen := chain_length_le hm1 (Or.inl rfl) hm2
  refine ⟨⟨m, hm1, hm2⟩, ?_, ?_⟩
  · obtain ⟨steps, h1, -⟩ := buildPathLoop_route hQ hs1 m (pf._cache.length + 2) t
      node._cost [] (by omega) hm1 hm2
    have hre : Pathfinder.reEvaluateIfNeeded W pf s skill = some pf := by
      simp [Pathfinder.reEvaluateIfNeeded, htag1, htag2]
    exact ⟨steps, by simp only [Pathfinder.buildPath, hre, ht, h1, List.append_nil]⟩
  · intro fromWater
    obtain ⟨b, hb, -⟩ := isBlockedByObjectLoop_spec W pf._cache s fromWater m
      (pf._cache.length + 2) t s (by omega) hm1 (Or.inl rfl) hm2
    exact ⟨b, hb⟩

theorem chains_lead_to_source_witness :
    ∃ pf, Pathfinder.evaluateMap (uniformLand 3 3 100) 4 0 = some pf ∧
      ∀ t node, readNode pf._cache t = some node → node._from ≠ -1 →
        (∃ m, chainNode pf._cache m t = some 4 ∧
          ∀ j < m, ∀ x, chainNode pf._cache j t = some x → x ≠ 4 ∧ x ≠ -1) ∧
        (∃ path, Pathfinder.buildPath (uniformLand 3 3 100) pf 4 t 0 = some (path, pf)) ∧
        ∀ fromWater, ∃ b,
          Pathfinder.isBlockedByObject (uniformLand 3 3 100) pf 4 t fromWater = some b :=
  chains_lead_to_source (uniformLand 3 3 100) 4 0 150 (fun _ _ hm => by cases hm)
    (by decide)
    (by
      intro u v d
      cases d <;> simp [Pathfinder.getMovementPenalty, uniformLand, Direction.isDiagonal, U32])
    (by decide)

end FHeroes2
